import Mathlib

/-!
Shallow embedding of `src/map.hpp` (namespace `sjtu`, template `map<Key, T, Compare>`),
instantiated at `Key = Nat`, `T = Nat`, `Compare = std::less<Nat>` (i.e. `<` on `Nat`,
the default comparator), with `T()` modelled as `0`.

The C++ code is pointer based, so the embedding works over an explicit heap:
an address is a `Nat`, the heap maps addresses to node records and every
pointer dereference goes through `readN`, which fails with `Err.nullDeref`
when the pointer is null or dangling (the C++ undefined behaviour).  C++
exceptions (`invalid_iterator`, `index_out_of_bound`) are the corresponding
`Err` values.  `while` loops and recursion become fuel-indexed recursion;
running out of fuel is the artificial `Err.noFuel` (theorems are stated for
sufficiently large or successful runs, never concluding from fuel failure).
Several `map` objects can coexist (for copy construction / assignment and
cross-container iterator checks); a `World` therefore carries the shared heap
together with the directory of live map objects, keyed by an identity `Nat`
standing for the C++ `this` pointer.
-/

namespace SjtuMap

/-- Outcomes of a map operation that does not return normally:
the two exceptions of `exceptions.hpp` used by `map.hpp`, a marker for a
null/dangling-pointer dereference (C++ undefined behaviour), and fuel
exhaustion of the embedding. -/
inductive Err where
  | invalidIterator
  | indexOutOfBound
  | nullDeref
  | noFuel
deriving DecidableEq, Repr

/-- Red-black tree node, from `struct Node` in `map.hpp`: one key/value entry,
`left`, `right`, `parent` pointers and a colour (`true` = red, as in the source). -/
structure Node where
  key : Nat
  val : Nat
  left : Option Nat
  right : Option Nat
  parent : Option Nat
  color : Bool
deriving DecidableEq, Repr

/-- Addresses stand for C++ node pointers; `none` is `nullptr`. -/
abbrev Addr := Nat

/-- The node heap: which node value, if any, lives at each address. -/
abbrev Heap := Addr → Option Node

/-- The per-map-object fields of `class map`: `root` and `tree_size`
(the comparator is the stateless `std::less`). -/
structure MapObj where
  root : Option Addr
  tsize : Nat
deriving DecidableEq, Repr

/-- The whole mutable state: the shared node heap, a fresh-address counter for
`new`, and the directory of live `map` objects keyed by identity. -/
structure World where
  heap : Heap
  next : Addr
  maps : List (Nat × MapObj)

/-- An iterator: a possibly-null node pointer plus a possibly-null pointer to
the owning container, from `class map::iterator` / `const_iterator`. -/
structure Iter where
  node : Option Addr
  container : Option Nat
deriving DecidableEq, Repr

/-- Heap update at one address. -/
def hupd (h : Heap) (a : Addr) (n : Option Node) : Heap :=
  fun b => if b = a then n else h b

/-- Dereference a node pointer; null or dangling is undefined behaviour. -/
def readN (w : World) : Option Addr → Except Err Node
  | none => .error .nullDeref
  | some a =>
    match w.heap a with
    | none => .error .nullDeref
    | some n => .ok n

/-- Field assignment `a->… = …`: read the node, replace one field, store back. -/
def modifyN (w : World) (a : Addr) (f : Node → Node) : Except Err World := do
  let n ← readN w (some a)
  .ok { w with heap := hupd w.heap a (some (f n)) }

/-- Extract a non-null address from a pointer that is about to be dereferenced. -/
def addrOf : Option Addr → Except Err Addr
  | none => .error .nullDeref
  | some a => .ok a

/-- Directory lookup for the map object with a given identity. -/
def lookupM : List (Nat × MapObj) → Nat → Option MapObj
  | [], _ => none
  | (i, o) :: rest, mid => if i = mid then some o else lookupM rest mid

/-- Replace the entry of one map identity in the directory. -/
def updMaps : List (Nat × MapObj) → Nat → MapObj → List (Nat × MapObj)
  | [], _, _ => []
  | (i, o) :: rest, mid, m => if i = mid then (i, m) :: rest else (i, o) :: updMaps rest mid m

/-- Dereference a map pointer (dangling is undefined behaviour). -/
def getMap (w : World) (mid : Nat) : Except Err MapObj :=
  match lookupM w.maps mid with
  | none => .error .nullDeref
  | some m => .ok m

/-- Store back a map object. -/
def setMap (w : World) (mid : Nat) (m : MapObj) : World :=
  { w with maps := updMaps w.maps mid m }

/-- The assignment `root = …` of the map with identity `mid`. -/
def setRoot (w : World) (mid : Nat) (r : Option Addr) : Except Err World := do
  let m ← getMap w mid
  .ok (setMap w mid { m with root := r })

/-- `new Node(…)`: place the node at the next fresh address. -/
def alloc (w : World) (n : Node) : World × Addr :=
  ({ w with heap := hupd w.heap w.next (some n), next := w.next + 1 }, w.next)

/-- `delete` of a node. -/
def freeA (w : World) (a : Addr) : World :=
  { w with heap := hupd w.heap a none }

/-- `map::leftRotate(Node *x)`, line by line; every field access re-reads the
current heap exactly where the C++ dereferences. -/
def leftRotate (w : World) (mid : Nat) (x : Addr) : Except Err World := do
  let y ← addrOf (← readN w (some x)).right
  let yl := (← readN w (some y)).left
  let w ← modifyN w x (fun n => { n with right := yl })
  let w ← match (← readN w (some y)).left with
    | none => pure w
    | some b => modifyN w b (fun n => { n with parent := some x })
  let xp := (← readN w (some x)).parent
  let w ← modifyN w y (fun n => { n with parent := xp })
  let w ← match (← readN w (some x)).parent with
    | none => setRoot w mid (some y)
    | some q =>
      if (← readN w (some q)).left = some x then modifyN w q (fun n => { n with left := some y })
      else modifyN w q (fun n => { n with right := some y })
  let w ← modifyN w y (fun n => { n with left := some x })
  modifyN w x (fun n => { n with parent := some y })

/-- `map::rightRotate(Node *x)`, the mirror image of `leftRotate`. -/
def rightRotate (w : World) (mid : Nat) (x : Addr) : Except Err World := do
  let y ← addrOf (← readN w (some x)).left
  let yr := (← readN w (some y)).right
  let w ← modifyN w x (fun n => { n with left := yr })
  let w ← match (← readN w (some y)).right with
    | none => pure w
    | some b => modifyN w b (fun n => { n with parent := some x })
  let xp := (← readN w (some x)).parent
  let w ← modifyN w y (fun n => { n with parent := xp })
  let w ← match (← readN w (some x)).parent with
    | none => setRoot w mid (some y)
    | some q =>
      if (← readN w (some q)).right = some x then modifyN w q (fun n => { n with right := some y })
      else modifyN w q (fun n => { n with left := some y })
  let w ← modifyN w y (fun n => { n with right := some x })
  modifyN w x (fun n => { n with parent := some y })

/-- The final `root->color = false` of `map::fixInsert`, run on loop exit. -/
def fixInsertDone (w : World) (mid : Nat) : Except Err World := do
  let m ← getMap w mid
  let r ← addrOf m.root
  modifyN w r (fun n => { n with color := false })

/-- The `while` loop of `map::fixInsert(Node *z)` plus its trailing
`root->color = false`, as fuel-indexed recursion. -/
def fixInsertGo (w : World) (mid : Nat) (z : Addr) : Nat → Except Err World
  | 0 => .error .noFuel
  | fuel + 1 => do
    let m ← getMap w mid
    if some z = m.root then fixInsertDone w mid
    else
      let nz ← readN w (some z)
      let np ← readN w nz.parent
      if np.color = false then fixInsertDone w mid
      else
        let p ← addrOf nz.parent
        let g ← addrOf np.parent
        let ng ← readN w (some g)
        if some p = ng.left then
          let uncRed ← match ng.right with
            | none => pure false
            | some u => do pure (← readN w (some u)).color
          if uncRed then do
            let u ← addrOf ng.right
            let w ← modifyN w p (fun n => { n with color := false })
            let w ← modifyN w u (fun n => { n with color := false })
            let w ← modifyN w g (fun n => { n with color := true })
            fixInsertGo w mid g fuel
          else do
            let zw ← do
              if some z = np.right then do
                let w ← leftRotate w mid p
                pure (w, p)
              else pure (w, z)
            let w := zw.1
            let z := zw.2
            let nz2 ← readN w (some z)
            let p2 ← addrOf nz2.parent
            let w ← modifyN w p2 (fun n => { n with color := false })
            let nz3 ← readN w (some z)
            let p3 ← addrOf nz3.parent
            let np3 ← readN w (some p3)
            let g3 ← addrOf np3.parent
            let w ← modifyN w g3 (fun n => { n with color := true })
            let nz4 ← readN w (some z)
            let p4 ← addrOf nz4.parent
            let np4 ← readN w (some p4)
            let g4 ← addrOf np4.parent
            let w ← rightRotate w mid g4
            fixInsertGo w mid z fuel
        else
          let uncRed ← match ng.left with
            | none => pure false
            | some u => do pure (← readN w (some u)).color
          if uncRed then do
            let u ← addrOf ng.left
            let w ← modifyN w p (fun n => { n with color := false })
            let w ← modifyN w u (fun n => { n with color := false })
            let w ← modifyN w g (fun n => { n with color := true })
            fixInsertGo w mid g fuel
          else do
            let zw ← do
              if some z = np.left then do
                let w ← rightRotate w mid p
                pure (w, p)
              else pure (w, z)
            let w := zw.1
            let z := zw.2
            let nz2 ← readN w (some z)
            let p2 ← addrOf nz2.parent
            let w ← modifyN w p2 (fun n => { n with color := false })
            let nz3 ← readN w (some z)
            let p3 ← addrOf nz3.parent
            let np3 ← readN w (some p3)
            let g3 ← addrOf np3.parent
            let w ← modifyN w g3 (fun n => { n with color := true })
            let nz4 ← readN w (some z)
            let p4 ← addrOf nz4.parent
            let np4 ← readN w (some p4)
            let g4 ← addrOf np4.parent
            let w ← leftRotate w mid g4
            fixInsertGo w mid z fuel

/-- `map::transplant(Node *u, Node *v)`. -/
def transplant (w : World) (mid : Nat) (u : Addr) (v : Option Addr) : Except Err World := do
  let nu ← readN w (some u)
  let w ← match nu.parent with
    | none => setRoot w mid v
    | some p =>
      if (← readN w (some p)).left = some u then modifyN w p (fun n => { n with left := v })
      else modifyN w p (fun n => { n with right := v })
  match v with
  | none => pure w
  | some vv => do
    let up := (← readN w (some u)).parent
    modifyN w vv (fun n => { n with parent := up })

/-- The trailing `if (x != nullptr) x->color = false` of `map::fixDelete`. -/
def fixDeleteDone (w : World) (x : Option Addr) : Except Err World :=
  match x with
  | none => pure w
  | some a => modifyN w a (fun n => { n with color := false })

/-- The `while` loop of `map::fixDelete(Node *x)` plus its trailing recolour,
as fuel-indexed recursion.  Note the loop body immediately evaluates
`x->parent`, so a null `x` entering the body is a null dereference, exactly
as in the source. -/
def fixDeleteGo (w : World) (mid : Nat) (x : Option Addr) : Nat → Except Err World
  | 0 => .error .noFuel
  | fuel + 1 => do
    let m ← getMap w mid
    if x = m.root then fixDeleteDone w x
    else
      let blackish ← match x with
        | none => pure true
        | some a => do pure (!(← readN w (some a)).color)
      if blackish = false then fixDeleteDone w x
      else
        let nx ← readN w x
        let p ← addrOf nx.parent
        let np ← readN w (some p)
        if x = np.left then
          let sib ← addrOf np.right
          let nsib ← readN w (some sib)
          let wsib ← do
            if nsib.color then do
              let w ← modifyN w sib (fun n => { n with color := false })
              let nx1 ← readN w x
              let p1 ← addrOf nx1.parent
              let w ← modifyN w p1 (fun n => { n with color := true })
              let nx2 ← readN w x
              let p2 ← addrOf nx2.parent
              let w ← leftRotate w mid p2
              let nx3 ← readN w x
              let p3 ← addrOf nx3.parent
              let np3 ← readN w (some p3)
              let s2 ← addrOf np3.right
              pure (w, s2)
            else pure (w, sib)
          let w := wsib.1
          let sib := wsib.2
          let nsib2 ← readN w (some sib)
          let leftBlack ← match nsib2.left with
            | none => pure true
            | some b => do pure (!(← readN w (some b)).color)
          let rightBlack ← match nsib2.right with
            | none => pure true
            | some b => do pure (!(← readN w (some b)).color)
          if leftBlack && rightBlack then do
            let w ← modifyN w sib (fun n => { n with color := true })
            let nx4 ← readN w x
            fixDeleteGo w mid nx4.parent fuel
          else do
            let wsib2 ← do
              if rightBlack then do
                let nsib3 ← readN w (some sib)
                let w ← match nsib3.left with
                  | none => pure w
                  | some b => modifyN w b (fun n => { n with color := false })
                let w ← modifyN w sib (fun n => { n with color := true })
                let w ← rightRotate w mid sib
                let nx5 ← readN w x
                let p5 ← addrOf nx5.parent
                let np5 ← readN w (some p5)
                let s3 ← addrOf np5.right
                pure (w, s3)
              else pure (w, sib)
            let w := wsib2.1
            let sib := wsib2.2
            let nx6 ← readN w x
            let p6 ← addrOf nx6.parent
            let np6 ← readN w (some p6)
            let w ← modifyN w sib (fun n => { n with color := np6.color })
            let nx7 ← readN w x
            let p7 ← addrOf nx7.parent
            let w ← modifyN w p7 (fun n => { n with color := false })
            let nsib4 ← readN w (some sib)
            let w ← match nsib4.right with
              | none => pure w
              | some b => modifyN w b (fun n => { n with color := false })
            let nx8 ← readN w x
            let p8 ← addrOf nx8.parent
            let w ← leftRotate w mid p8
            let m2 ← getMap w mid
            fixDeleteGo w mid m2.root fuel
        else
          let sib ← addrOf np.left
          let nsib ← readN w (some sib)
          let wsib ← do
            if nsib.color then do
              let w ← modifyN w sib (fun n => { n with color := false })
              let nx1 ← readN w x
              let p1 ← addrOf nx1.parent
              let w ← modifyN w p1 (fun n => { n with color := true })
              let nx2 ← readN w x
              let p2 ← addrOf nx2.parent
              let w ← rightRotate w mid p2
              let nx3 ← readN w x
              let p3 ← addrOf nx3.parent
              let np3 ← readN w (some p3)
              let s2 ← addrOf np3.left
              pure (w, s2)
            else pure (w, sib)
          let w := wsib.1
          let sib := wsib.2
          let nsib2 ← readN w (some sib)
          let rightBlack ← match nsib2.right with
            | none => pure true
            | some b => do pure (!(← readN w (some b)).color)
          let leftBlack ← match nsib2.left with
            | none => pure true
            | some b => do pure (!(← readN w (some b)).color)
          if rightBlack && leftBlack then do
            let w ← modifyN w sib (fun n => { n with color := true })
            let nx4 ← readN w x
            fixDeleteGo w mid nx4.parent fuel
          else do
            let wsib2 ← do
              if leftBlack then do
                let nsib3 ← readN w (some sib)
                let w ← match nsib3.right with
                  | none => pure w
                  | some b => modifyN w b (fun n => { n with color := false })
                let w ← modifyN w sib (fun n => { n with color := true })
                let w ← leftRotate w mid sib
                let nx5 ← readN w x
                let p5 ← addrOf nx5.parent
                let np5 ← readN w (some p5)
                let s3 ← addrOf np5.left
                pure (w, s3)
              else pure (w, sib)
            let w := wsib2.1
            let sib := wsib2.2
            let nx6 ← readN w x
            let p6 ← addrOf nx6.parent
            let np6 ← readN w (some p6)
            let w ← modifyN w sib (fun n => { n with color := np6.color })
            let nx7 ← readN w x
            let p7 ← addrOf nx7.parent
            let w ← modifyN w p7 (fun n => { n with color := false })
            let nsib4 ← readN w (some sib)
            let w ← match nsib4.left with
              | none => pure w
              | some b => modifyN w b (fun n => { n with color := false })
            let nx8 ← readN w x
            let p8 ← addrOf nx8.parent
            let w ← rightRotate w mid p8
            let m2 ← getMap w mid
            fixDeleteGo w mid m2.root fuel

/-- `map::findNode(const Key&)`: the descent loop. -/
def findNodeGo (w : World) (k : Nat) : Option Addr → Nat → Except Err (Option Addr)
  | _, 0 => .error .noFuel
  | none, _ + 1 => .ok none
  | some a, fuel + 1 => do
    let n ← readN w (some a)
    if k < n.key then findNodeGo w k n.left fuel
    else if n.key < k then findNodeGo w k n.right fuel
    else .ok (some a)

/-- `map::findNode` on the map with identity `mid`. -/
def findNodeM (w : World) (mid : Nat) (k : Nat) (fuel : Nat) : Except Err (Option Addr) := do
  let m ← getMap w mid
  findNodeGo w k m.root fuel

/-- `map::minimum(Node*)`. -/
def minimumGo (w : World) : Option Addr → Nat → Except Err (Option Addr)
  | _, 0 => .error .noFuel
  | none, _ + 1 => .ok none
  | some a, fuel + 1 => do
    match (← readN w (some a)).left with
    | none => .ok (some a)
    | some b => minimumGo w (some b) fuel

/-- `map::maximum(Node*)`. -/
def maximumGo (w : World) : Option Addr → Nat → Except Err (Option Addr)
  | _, 0 => .error .noFuel
  | none, _ + 1 => .ok none
  | some a, fuel + 1 => do
    match (← readN w (some a)).right with
    | none => .ok (some a)
    | some b => maximumGo w (some b) fuel

/-- `map::clearTree(Node*)`: post-order recursive free. -/
def clearTreeGo (w : World) : Option Addr → Nat → Except Err World
  | none, _ => .ok w
  | some _, 0 => .error .noFuel
  | some a, fuel + 1 => do
    let w ← clearTreeGo w (← readN w (some a)).left fuel
    let w ← clearTreeGo w (← readN w (some a)).right fuel
    .ok (freeA w a)

/-- `map::copyTree(Node*, Node*)`: pre-order recursive deep copy.  The node
constructor colours the fresh node red; `copyTree` then overwrites the colour
and hangs the recursively copied children, as in the source. -/
def copyTreeGo (w : World) (src : Option Addr) (par : Option Addr) :
    Nat → Except Err (World × Option Addr)
  | 0 => .error .noFuel
  | fuel + 1 =>
    match src with
    | none => .ok (w, none)
    | some a => do
      let n0 ← readN w (some a)
      let wb := alloc w ⟨n0.key, n0.val, none, none, par, true⟩
      let w := wb.1
      let b := wb.2
      let c := (← readN w (some a)).color
      let w ← modifyN w b (fun m => { m with color := c })
      let l := (← readN w (some a)).left
      let wl ← copyTreeGo w l (some b) fuel
      let w := wl.1
      let w ← modifyN w b (fun m => { m with left := wl.2 })
      let r := (← readN w (some a)).right
      let wr ← copyTreeGo w r (some b) fuel
      let w := wr.1
      let w ← modifyN w b (fun m => { m with right := wr.2 })
      .ok (w, some b)

/-- `map::at(const Key&)`: lookup, throwing `index_out_of_bound` when absent
(non-mutating, like the `const` overload and the `const operator[]`). -/
def atM (w : World) (mid : Nat) (k : Nat) (fuel : Nat) : Except Err Nat := do
  match (← findNodeM w mid k fuel) with
  | none => .error .indexOutOfBound
  | some a => do pure (← readN w (some a)).val

/-- The descent loop of `map::insert`: returns the existing node (`Sum.inl`)
or the parent under which to attach (`Sum.inr`). -/
def insertGo (w : World) (k : Nat) : Option Addr → Option Addr → Nat → Except Err (Addr ⊕ Option Addr)
  | _, _, 0 => .error .noFuel
  | par, none, _ + 1 => .ok (.inr par)
  | _, some c, fuel + 1 => do
    let n ← readN w (some c)
    if k < n.key then insertGo w k (some c) n.left fuel
    else if n.key < k then insertGo w k (some c) n.right fuel
    else .ok (.inl c)

/-- `map::insert(const value_type&)`: descent, attach of a red node, `fixInsert`,
then `tree_size++`; an equivalent key returns the existing position with flag
`false` and no mutation. -/
def insertM (w : World) (mid : Nat) (k v : Nat) (fuel : Nat) : Except Err (World × Iter × Bool) := do
  let m ← getMap w mid
  match (← insertGo w k none m.root fuel) with
  | .inl c => .ok (w, ⟨some c, some mid⟩, false)
  | .inr par =>
    let wa := alloc w ⟨k, v, none, none, par, true⟩
    let w := wa.1
    let a := wa.2
    let w ← match par with
      | none => setRoot w mid (some a)
      | some p => do
        if k < (← readN w (some p)).key then modifyN w p (fun n => { n with left := some a })
        else modifyN w p (fun n => { n with right := some a })
    let w ← fixInsertGo w mid a fuel
    let m2 ← getMap w mid
    .ok (setMap w mid { m2 with tsize := m2.tsize + 1 }, ⟨some a, some mid⟩, true)

/-- `map::operator[](const Key&)` (mutable): return the existing value, or
insert a default-constructed value (`0`) and return it via the result iterator. -/
def bracketM (w : World) (mid : Nat) (k : Nat) (fuel : Nat) : Except Err (World × Nat) := do
  match (← findNodeM w mid k fuel) with
  | some a => do pure (w, (← readN w (some a)).val)
  | none => do
    let r ← insertM w mid k 0 fuel
    let w := r.1
    match r.2.1.node with
    | none => .error .invalidIterator
    | some a => do pure (w, (← readN w (some a)).val)

/-- `map::erase(iterator pos)`: the guard, the three splice cases, the
conditional `fixDelete`, `delete z` and `tree_size--`. -/
def eraseM (w : World) (mid : Nat) (pos : Iter) (fuel : Nat) : Except Err World := do
  if pos.container ≠ some mid ∨ pos.node = none then .error .invalidIterator
  else do
    let z ← addrOf pos.node
    let nz ← readN w (some z)
    let wxy ← do
      if nz.left = none then do
        let w ← transplant w mid z nz.right
        pure (w, nz.right, nz.color)
      else if nz.right = none then do
        let w ← transplant w mid z nz.left
        pure (w, nz.left, nz.color)
      else do
        let y ← addrOf (← minimumGo w nz.right fuel)
        let ny ← readN w (some y)
        let w ← do
          if ny.parent = some z then
            match ny.right with
            | none => pure w
            | some xa => modifyN w xa (fun n => { n with parent := some y })
          else do
            let w ← transplant w mid y ny.right
            let zr := (← readN w (some z)).right
            let w ← modifyN w y (fun n => { n with right := zr })
            let yr ← addrOf (← readN w (some y)).right
            modifyN w yr (fun n => { n with parent := some y })
        let w ← transplant w mid z y
        let zl := (← readN w (some z)).left
        let w ← modifyN w y (fun n => { n with left := zl })
        let yl ← addrOf (← readN w (some y)).left
        let w ← modifyN w yl (fun n => { n with parent := some y })
        let zc := (← readN w (some z)).color
        let w ← modifyN w y (fun n => { n with color := zc })
        pure (w, ny.right, ny.color)
    let w := wxy.1
    let w ← if wxy.2.2 = false then fixDeleteGo w mid wxy.2.1 fuel else pure w
    let w := freeA w z
    let m ← getMap w mid
    pure (setMap w mid { m with tsize := m.tsize - 1 })

/-- `map::count(const Key&)`. -/
def countM (w : World) (mid : Nat) (k : Nat) (fuel : Nat) : Except Err Nat := do
  match (← findNodeM w mid k fuel) with
  | none => pure 0
  | some _ => pure 1

/-- `map::find(const Key&)`. -/
def findM (w : World) (mid : Nat) (k : Nat) (fuel : Nat) : Except Err Iter := do
  pure ⟨← findNodeM w mid k fuel, some mid⟩

/-- `map::begin()`: an iterator at `minimum(root)`. -/
def beginM (w : World) (mid : Nat) (fuel : Nat) : Except Err Iter := do
  let m ← getMap w mid
  pure ⟨← minimumGo w m.root fuel, some mid⟩

/-- `map::end()`: the past-the-end iterator of this container. -/
def endM (mid : Nat) : Iter := ⟨none, some mid⟩

/-- `map::size()`. -/
def sizeM (w : World) (mid : Nat) : Except Err Nat := do
  pure (← getMap w mid).tsize

/-- `map::empty()`. -/
def emptyM (w : World) (mid : Nat) : Except Err Bool := do
  pure ((← getMap w mid).tsize == 0)

/-- `map::clear()`. -/
def clearM (w : World) (mid : Nat) (fuel : Nat) : Except Err World := do
  let m ← getMap w mid
  let w ← clearTreeGo w m.root fuel
  pure (setMap w mid ⟨none, 0⟩)

/-- The copy constructor `map(const map&)`: deep copy into a new map object
with identity `newMid`. -/
def copyCtorM (w : World) (srcMid newMid : Nat) (fuel : Nat) : Except Err World := do
  let src ← getMap w srcMid
  let wr ← copyTreeGo w src.root none fuel
  pure { wr.1 with maps := (newMid, ⟨wr.2, src.tsize⟩) :: wr.1.maps }

/-- `map::operator=(const map&)`: guarded against self-assignment, then
destroy the old tree and deep copy the source. -/
def assignM (w : World) (dstMid srcMid : Nat) (fuel : Nat) : Except Err World := do
  if dstMid = srcMid then pure w
  else do
    let dst ← getMap w dstMid
    let w ← clearTreeGo w dst.root fuel
    let src ← getMap w srcMid
    let wr ← copyTreeGo w src.root none fuel
    pure (setMap wr.1 dstMid ⟨wr.2, src.tsize⟩)

/-- The descend-to-leftmost loop of `operator++` after stepping right. -/
def leftmostGo (w : World) (a : Addr) : Nat → Except Err Addr
  | 0 => .error .noFuel
  | fuel + 1 => do
    match (← readN w (some a)).left with
    | none => .ok a
    | some b => leftmostGo w b fuel

/-- The descend-to-rightmost loop of `operator--` after stepping left. -/
def rightmostGo (w : World) (a : Addr) : Nat → Except Err Addr
  | 0 => .error .noFuel
  | fuel + 1 => do
    match (← readN w (some a)).right with
    | none => .ok a
    | some b => rightmostGo w b fuel

/-- The ascend loop of `operator++`: climb while the current node is its
parent's right child, then land on the parent. -/
def climbRightGo (w : World) (cur : Addr) : Option Addr → Nat → Except Err (Option Addr)
  | _, 0 => .error .noFuel
  | none, _ + 1 => .ok none
  | some q, fuel + 1 => do
    if (← readN w (some q)).right = some cur then
      climbRightGo w q (← readN w (some q)).parent fuel
    else .ok (some q)

/-- The ascend loop of `operator--`: climb while the current node is its
parent's left child, then land on the parent. -/
def climbLeftGo (w : World) (cur : Addr) : Option Addr → Nat → Except Err (Option Addr)
  | _, 0 => .error .noFuel
  | none, _ + 1 => .ok none
  | some q, fuel + 1 => do
    if (← readN w (some q)).left = some cur then
      climbLeftGo w q (← readN w (some q)).parent fuel
    else .ok (some q)

/-- The in-order successor computation of `operator++` from a non-null node. -/
def succStep (w : World) (a : Addr) (fuel : Nat) : Except Err (Option Addr) := do
  let n ← readN w (some a)
  match n.right with
  | some r => do pure (some (← leftmostGo w r fuel))
  | none => climbRightGo w a n.parent fuel

/-- The in-order predecessor computation of `operator--` from a non-null node. -/
def predStep (w : World) (a : Addr) (fuel : Nat) : Except Err (Option Addr) := do
  let n ← readN w (some a)
  match n.left with
  | some l => do pure (some (← rightmostGo w l fuel))
  | none => climbLeftGo w a n.parent fuel

/-- `iterator::operator++()` (also `const_iterator`, whose code is identical):
throws on the past-the-end iterator, otherwise moves to the successor (which
may be past-the-end). -/
def incIt (w : World) (it : Iter) (fuel : Nat) : Except Err Iter :=
  match it.node with
  | none => .error .invalidIterator
  | some a => do pure ⟨← succStep w a fuel, it.container⟩

/-- `iterator::operator--()` (also `const_iterator`): from past-the-end jump to
the container's maximum, otherwise move to the predecessor; a null result
throws `invalid_iterator`. -/
def decIt (w : World) (it : Iter) (fuel : Nat) : Except Err Iter := do
  let res ← match it.node with
    | none =>
      match it.container with
      | none => .error .invalidIterator
      | some cid => do
        let m ← getMap w cid
        match m.root with
        | none => .error .invalidIterator
        | some r => maximumGo w (some r) fuel
    | some a => predStep w a fuel
  match res with
  | none => .error .invalidIterator
  | some b => .ok (⟨some b, it.container⟩ : Iter)

/-- `iterator::operator*` / `operator->` data access: the referenced entry. -/
def derefIt (w : World) (it : Iter) : Except Err (Nat × Nat) :=
  match it.node with
  | none => .error .invalidIterator
  | some a => do
    let n ← readN w (some a)
    pure (n.key, n.val)

/-- `iterator::operator==`: same node and same container. -/
def eqIt (i1 i2 : Iter) : Bool :=
  i1.node == i2.node && i1.container == i2.container

/-- Postfix `operator++`: returns the saved copy next to the advanced iterator. -/
def postIncIt (w : World) (it : Iter) (fuel : Nat) : Except Err (Iter × Iter) := do
  pure (it, ← incIt w it fuel)

/-- Postfix `operator--`. -/
def postDecIt (w : World) (it : Iter) (fuel : Nat) : Except Err (Iter × Iter) := do
  pure (it, ← decIt w it fuel)

/-- The `begin()`-to-`end()` traversal: start at `begin()` and apply
`operator++` until past-the-end, collecting the visited entries. -/
def chainGo (w : World) (sfuel : Nat) : Option Addr → Nat → Except Err (List (Nat × Nat))
  | none, _ => .ok []
  | some _, 0 => .error .noFuel
  | some a, fuel + 1 => do
    let n ← readN w (some a)
    let nxt ← succStep w a sfuel
    let rest ← chainGo w sfuel nxt fuel
    .ok ((n.key, n.val) :: rest)

/-- Full forward traversal of the map with identity `mid`. -/
def travM (w : World) (mid : Nat) (fuel : Nat) : Except Err (List (Nat × Nat)) := do
  let st ← beginM w mid fuel
  chainGo w fuel st.node fuel

/-- Insert a list of key/value pairs in order (discarding result iterators). -/
def runInserts (w : World) (mid : Nat) : List (Nat × Nat) → Nat → Except Err World
  | [], _ => .ok w
  | (k, v) :: rest, fuel => do
    let r ← insertM w mid k v fuel
    runInserts r.1 mid rest fuel

/-- A world holding exactly one freshly default-constructed map. -/
def world0 (mid : Nat) : World := ⟨fun _ => none, 0, [(mid, ⟨none, 0⟩)]⟩

/-- Unwrap a successful world-valued run (fallback value for the error case). -/
def exD : Except Err World → World
  | .ok w => w
  | .error _ => world0 0

/-!
Abstraction layer: abstract form of the pointer tree, used to state and prove
the structural claims.  `CTree` records the address, key and value of every
node (colours are irrelevant to the structural statements and are left
unconstrained by `Rep`).
-/

/-- Abstract view of the node graph: address, key and value at every node. -/
inductive CTree where
  | nil : CTree
  | node (a : Addr) (k v : Nat) (l r : CTree) : CTree

/-- Address of the root of an abstract subtree (`none` for the empty tree). -/
def rootA : CTree → Option Addr
  | .nil => none
  | .node a _ _ _ _ => some a

/-- In-order list of (address, key, value) triples. -/
def trip : CTree → List (Addr × Nat × Nat)
  | .nil => []
  | .node a k v l r => trip l ++ (a, k, v) :: trip r

/-- All node addresses of an abstract tree, in in-order. -/
def addrs (t : CTree) : List Addr := (trip t).map (fun p => p.1)

/-- Number of nodes. -/
def tlen (t : CTree) : Nat := (trip t).length

/-- In-order key list. -/
def keysT (t : CTree) : List Nat := (trip t).map (fun p => p.2.1)

/-- In-order key/value list (what a full traversal returns). -/
def kvT (t : CTree) : List (Nat × Nat) := (trip t).map (fun p => p.2)

/-- `Rep w p t`: the heap of `w` lays out the abstract tree `t` under parent
pointer `p` — every abstract node has a heap cell with exactly its key, value,
child roots and parent back-pointer (any colour). -/
def Rep (w : World) (p : Option Addr) : CTree → Prop
  | .nil => True
  | .node a k v l r =>
      (∃ c, w.heap a = some ⟨k, v, rootA l, rootA r, p, c⟩) ∧
      Rep w (some a) l ∧ Rep w (some a) r

/-- `RepW w mid t`: map `mid` is live and its root tree is laid out as `t`,
with pairwise distinct node addresses, all below the allocation frontier. -/
def RepW (w : World) (mid : Nat) (t : CTree) : Prop :=
  ∃ m, lookupM w.maps mid = some m ∧ m.root = rootA t ∧ Rep w none t ∧
    (addrs t).Nodup ∧ ∀ a ∈ addrs t, a < w.next

/-- `tree_size` agrees with the number of nodes. -/
def SizeOK (w : World) (mid : Nat) (t : CTree) : Prop :=
  ∃ m, lookupM w.maps mid = some m ∧ m.tsize = tlen t

/-- The full invariant used for reachable maps: layout, size agreement, and
strictly sorted in-order keys (the binary-search-tree order invariant). -/
def Inv (w : World) (mid : Nat) (t : CTree) : Prop :=
  RepW w mid t ∧ SizeOK w mid t ∧ List.Sorted (· < ·) (keysT t)


/-- Abstract effect of attaching a fresh node during `insert`: BST insertion
of address `a` with entry `(k, v)` (no-op on an equivalent key, which the
caller has excluded). -/
def insT (a : Addr) (k v : Nat) : CTree → CTree
  | .nil => .node a k v .nil .nil
  | .node b k' v' l r =>
    if k < k' then .node b k' v' (insT a k v l) r
    else if k' < k then .node b k' v' l (insT a k v r)
    else .node b k' v' l r

/-- The attach parent computed by the descent of `insert`: the node under
which a fresh key `k` is hung (`par` is the parent context, returned when the
subtree is empty). -/
def attachGo (k : Nat) : CTree → Option Addr → Option Addr
  | .nil, par => par
  | .node b k' _ l r, _ =>
    if k < k' then attachGo k l (some b)
    else if k' < k then attachGo k r (some b)
    else some b


/-- First in-order address of a subtree (`κ` when the subtree is empty):
where `begin()`-style descent lands. -/
def startOf : CTree → Option Addr → Option Addr
  | .nil, κ => κ
  | .node c _ _ l _, _ => startOf l (some c)

/-- Last in-order address of a subtree (`κ` when the subtree is empty). -/
def lastA : CTree → Option Addr → Option Addr
  | .nil, κ => κ
  | .node c _ _ _ r, _ => lastA r (some c)


/-- The shape of a tree with addresses erased: equal `stripA` means identical
keys, values and structure. -/
def stripA : CTree → CTree
  | .nil => .nil
  | .node _ k v l r => .node 0 k v (stripA l) (stripA r)

/-- The world used by the C1 analysis: keys 1, 2, 3, 4 inserted in order into
a fresh map (node of key 1 sits at address 0, black, with no children). -/
def c1World : World := exD (runInserts (world0 0) 0 [(1, 0), (2, 0), (3, 0), (4, 0)] 20)

/-- The iterator `find(1)` returns in `c1World`. -/
def c1It : Iter := ⟨some 0, some 0⟩

/-- The world used by the C2 analysis: keys 10, 20, 30, 40 inserted in order
into a fresh map. -/
def c2World : World := exD (runInserts (world0 0) 0 [(10, 0), (20, 0), (30, 0), (40, 0)] 20)

/-- The iterator `find(10)` returns in `c2World`. -/
def c2It : Iter := ⟨some 0, some 0⟩

/-- One structural-preservation step on the map `mid`: afterwards `t'` is
represented, with the same in-order triples as `t`; the allocation frontier,
the heap outside the tree, the other map objects and the size field are
untouched. -/
def Pres (mid : Nat) (w : World) (t : CTree) (w' : World) (t' : CTree) : Prop :=
  RepW w' mid t' ∧ trip t' = trip t ∧ w'.next = w.next ∧
    (∀ d, d ∉ addrs t → w'.heap d = w.heap d) ∧
    (∀ mid2, mid2 ≠ mid → lookupM w'.maps mid2 = lookupM w.maps mid2) ∧
    (∀ m0, lookupM w.maps mid = some m0 →
      ∃ m1, lookupM w'.maps mid = some m1 ∧ m1.tsize = m0.tsize)

/-- A concrete three-entry map (keys 2, 1, 3) used by several witnesses. -/
def w3 : World := exD (runInserts (world0 0) 0 [(2, 5), (1, 6), (3, 7)] 10)

/-- The abstract tree laid out by `w3`. -/
def t3 : CTree := .node 0 2 5 (.node 1 1 6 .nil .nil) (.node 2 3 7 .nil .nil)

end SjtuMap

namespace SjtuMap

/-! Basic rewriting lemmas for `Except` runs. -/

theorem except_bind_ok {α β : Type} {e : Except Err α} {k : α → Except Err β} {b : β} :
    Except.bind e k = .ok b ↔ ∃ a, e = .ok a ∧ k a = .ok b := by
  cases e <;> simp [Except.bind]

theorem except_bind_error {α β : Type} {e : Except Err α} {k : α → Except Err β} {x : Err} :
    Except.bind e k = .error x ↔ e = .error x ∨ ∃ a, e = .ok a ∧ k a = .error x := by
  cases e <;> simp [Except.bind]

theorem lookupM_updMaps_self (l : List (Nat × MapObj)) (mid : Nat) (m m0 : MapObj)
    (h : lookupM l mid = some m0) : lookupM (updMaps l mid m) mid = some m := by
  induction l with
  | nil => simp [lookupM] at h
  | cons p rest ih =>
    obtain ⟨i, o⟩ := p
    by_cases hi : i = mid
    · subst hi
      simp [lookupM, updMaps]
    · simp [lookupM, updMaps, hi] at h ⊢
      exact ih h

theorem clearTreeGo_maps {w : World} {oa : Option Addr} {fuel : Nat} {w' : World}
    (h : clearTreeGo w oa fuel = .ok w') : w'.maps = w.maps ∧ w'.next = w.next := by
  induction fuel generalizing w oa w' with
  | zero =>
    cases oa with
    | none => simp only [clearTreeGo] at h; cases h; exact ⟨rfl, rfl⟩
    | some a => simp [clearTreeGo] at h
  | succ f ih =>
    cases oa with
    | none => simp only [clearTreeGo] at h; cases h; exact ⟨rfl, rfl⟩
    | some a =>
      simp only [clearTreeGo, bind] at h
      rw [except_bind_ok] at h
      obtain ⟨n, hn, h⟩ := h
      rw [except_bind_ok] at h
      obtain ⟨w1, h1, h⟩ := h
      rw [except_bind_ok] at h
      obtain ⟨n2, hn2, h⟩ := h
      rw [except_bind_ok] at h
      obtain ⟨w2, h2, h⟩ := h
      cases h
      obtain ⟨hm1, hn1⟩ := ih h1
      obtain ⟨hm2, hn2'⟩ := ih h2
      simp [freeA, hm2, hm1, hn2', hn1]

/-! Basic heap and directory lemmas. -/

theorem hupd_self (h : Heap) (a : Addr) (n : Option Node) : hupd h a n a = n := by
  simp [hupd]

theorem hupd_other {h : Heap} {a : Addr} {n : Option Node} {b : Addr} (hne : b ≠ a) :
    hupd h a n b = h b := by
  simp [hupd, hne]

theorem lookupM_updMaps_other (l : List (Nat × MapObj)) (mid : Nat) (m : MapObj)
    {mid2 : Nat} (hne : mid2 ≠ mid) : lookupM (updMaps l mid m) mid2 = lookupM l mid2 := by
  induction l with
  | nil => simp [updMaps]
  | cons p rest ih =>
    obtain ⟨i, o⟩ := p
    by_cases hi : i = mid
    · subst hi
      simp [lookupM, updMaps, Ne.symm hne]
    · simp only [updMaps, if_neg hi, lookupM]
      by_cases h2 : i = mid2 <;> simp [h2, ih]

/-! Basic lemmas about the abstract tree view. -/

theorem addrs_nil : addrs .nil = [] := rfl

theorem addrs_node (a : Addr) (k v : Nat) (l r : CTree) :
    addrs (.node a k v l r) = addrs l ++ a :: addrs r := by
  simp [addrs, trip]

theorem keysT_node (a : Addr) (k v : Nat) (l r : CTree) :
    keysT (.node a k v l r) = keysT l ++ k :: keysT r := by
  simp [keysT, trip]

theorem mem_addrs_node {x a : Addr} {k v : Nat} {l r : CTree} :
    x ∈ addrs (.node a k v l r) ↔ x ∈ addrs l ∨ x = a ∨ x ∈ addrs r := by
  simp [addrs_node, or_comm, or_assoc, or_left_comm]

/-- A frame rule: `Rep` only looks at the cells of the tree's own addresses. -/
theorem rep_frame {w w' : World} {p : Option Addr} {t : CTree}
    (hag : ∀ a ∈ addrs t, w'.heap a = w.heap a) (h : Rep w p t) : Rep w' p t := by
  induction t generalizing p with
  | nil => trivial
  | node a k v l r ihl ihr =>
    obtain ⟨⟨c, hc⟩, hl, hr⟩ := h
    refine ⟨⟨c, ?_⟩, ?_, ?_⟩
    · rw [hag a (by simp [mem_addrs_node])]
      exact hc
    · exact ihl (fun b hb => hag b (by simp [mem_addrs_node, hb])) hl
    · exact ihr (fun b hb => hag b (by simp [mem_addrs_node, hb])) hr

/-- Colour changes are invisible to `Rep`: a heap that agrees with `w` on the
tree's cells up to the colour field still represents `t`. -/
theorem rep_recolor {w w' : World} {p : Option Addr} {t : CTree}
    (hag : ∀ a ∈ addrs t, w'.heap a = w.heap a ∨
      ∃ n c, w.heap a = some n ∧ w'.heap a = some { n with color := c })
    (h : Rep w p t) : Rep w' p t := by
  induction t generalizing p with
  | nil => trivial
  | node a k v l r ihl ihr =>
    obtain ⟨⟨c, hc⟩, hl, hr⟩ := h
    refine ⟨?_, ?_, ?_⟩
    · rcases hag a (by simp [mem_addrs_node]) with heq | ⟨n, c2, hn, hn'⟩
      · exact ⟨c, by rw [heq]; exact hc⟩
      · rw [hn] at hc
        cases hc
        exact ⟨c2, by rw [hn']⟩
    · exact ihl (fun b hb => hag b (by simp [mem_addrs_node, hb])) hl
    · exact ihr (fun b hb => hag b (by simp [mem_addrs_node, hb])) hr

/-- Every address of a represented tree has a live cell, with in-tree links:
children point into the tree, and the parent pointer points into the tree
unless the address is the subtree root, whose parent pointer is `p`. -/
theorem rep_cell {w : World} {p : Option Addr} {t : CTree} (h : Rep w p t)
    {x : Addr} (hx : x ∈ addrs t) :
    ∃ n : Node, w.heap x = some n ∧
      (∀ b, n.left = some b → b ∈ addrs t) ∧
      (∀ b, n.right = some b → b ∈ addrs t) ∧
      (∀ b, n.parent = some b → b ∈ addrs t ∨ (p = some b ∧ rootA t = some x)) := by
  induction t generalizing p with
  | nil => simp [addrs_nil] at hx
  | node a k v l r ihl ihr =>
    rw [mem_addrs_node] at hx
    obtain ⟨⟨c, hc⟩, hl, hr⟩ := h
    rcases hx with hx | hx | hx
    · obtain ⟨n, hn, h1, h2, h3⟩ := ihl hl hx
      refine ⟨n, hn, fun b hb => by simp [mem_addrs_node, h1 b hb], fun b hb => by
        simp [mem_addrs_node, h2 b hb], fun b hb => ?_⟩
      rcases h3 b hb with hin | ⟨hpb, _⟩
      · exact Or.inl (by simp [mem_addrs_node, hin])
      · exact Or.inl (by simp [mem_addrs_node, Option.some.inj hpb])
    · subst hx
      refine ⟨⟨k, v, rootA l, rootA r, p, c⟩, hc, fun b hb => ?_, fun b hb => ?_, fun b hb => ?_⟩
      · cases l with
        | nil => simp [rootA] at hb
        | node al kl vl ll lr =>
          simp only [rootA] at hb
          cases hb
          simp [mem_addrs_node, addrs_node]
      · cases r with
        | nil => simp [rootA] at hb
        | node ar kr vr rl rr =>
          simp only [rootA] at hb
          cases hb
          simp [mem_addrs_node, addrs_node]
      · exact Or.inr ⟨hb, rfl⟩
    · obtain ⟨n, hn, h1, h2, h3⟩ := ihr hr hx
      refine ⟨n, hn, fun b hb => by simp [mem_addrs_node, h1 b hb], fun b hb => by
        simp [mem_addrs_node, h2 b hb], fun b hb => ?_⟩
      rcases h3 b hb with hin | ⟨hpb, _⟩
      · exact Or.inl (by simp [mem_addrs_node, hin])
      · exact Or.inl (by simp [mem_addrs_node, Option.some.inj hpb])

/-- Re-parent rule: if the heap is unchanged on a represented subtree except
that the root cell's parent pointer now reads `p'`, the subtree is represented
under the new parent. -/
theorem rep_reparent {w w' : World} {p p' : Option Addr} {t : CTree}
    (h : Rep w p t) (hnd : (addrs t).Nodup)
    (hroot : ∀ a k v l r, t = .node a k v l r →
      ∃ c, w'.heap a = some ⟨k, v, rootA l, rootA r, p', c⟩)
    (hag : ∀ c ∈ addrs t, rootA t ≠ some c → w'.heap c = w.heap c) :
    Rep w' p' t := by
  cases t with
  | nil => trivial
  | node a k v l r =>
    obtain ⟨_, hl, hr⟩ := h
    have hand := hnd
    rw [addrs_node, List.nodup_append] at hand
    obtain ⟨hndl, hndr, hdisj⟩ := hand
    rw [List.nodup_cons] at hndr
    refine ⟨hroot a k v l r rfl, ?_, ?_⟩
    · refine rep_frame (fun c hc => ?_) hl
      refine hag c (by simp [mem_addrs_node, hc]) ?_
      simp only [rootA, ne_eq, Option.some.injEq]
      intro hca
      have hal : a ∈ addrs l := by rwa [hca]
      exact (hdisj hal) (by simp)
    · refine rep_frame (fun c hc => ?_) hr
      refine hag c (by simp [mem_addrs_node, hc]) ?_
      simp only [rootA, ne_eq, Option.some.injEq]
      intro hca
      have har : a ∈ addrs r := by rwa [hca]
      exact hndr.1 har


theorem rootA_nil : rootA .nil = none := rfl

theorem rootA_node (a : Addr) (k v : Nat) (l r : CTree) :
    rootA (.node a k v l r) = some a := rfl

theorem rootA_mem {t : CTree} {a : Addr} (h : rootA t = some a) : a ∈ addrs t := by
  cases t with
  | nil => simp [rootA] at h
  | node a0 k v l r =>
    simp only [rootA, Option.some.injEq] at h
    subst h
    simp [addrs_node]

theorem nodup_node_facts {a : Addr} {k v : Nat} {l r : CTree}
    (h : (addrs (.node a k v l r)).Nodup) :
    (addrs l).Nodup ∧ (addrs r).Nodup ∧ a ∉ addrs l ∧ a ∉ addrs r ∧
      ∀ c ∈ addrs l, c ∉ addrs r := by
  rw [addrs_node, List.nodup_append] at h
  obtain ⟨h1, h2, h3⟩ := h
  rw [List.nodup_cons] at h2
  refine ⟨h1, h2.2, fun hc => (h3 hc) (by simp), h2.1, fun c hc hcr => (h3 hc) (by simp [hcr])⟩

/-- Assembling the subtree produced by a left rotation at `x` with right child
`y`, once the updated cells and the representations of the three hanging
subtrees are in hand. -/
theorem rep_rotL_sub {w' : World} {x y : Addr} {kx vx ky vy : Nat} {lx rly rry : CTree}
    {pnew : Option Addr}
    (hx' : ∃ c0, w'.heap x = some ⟨kx, vx, rootA lx, rootA rly, some y, c0⟩)
    (hy' : ∃ c0, w'.heap y = some ⟨ky, vy, some x, rootA rry, pnew, c0⟩)
    (hlx : Rep w' (some x) lx) (hrly : Rep w' (some x) rly)
    (hrry : Rep w' (some y) rry) :
    Rep w' pnew (.node y ky vy (.node x kx vx lx rly) rry) :=
  ⟨hy', ⟨hx', hlx, hrly⟩, hrry⟩

/-- Mirror image of `rep_rotL_sub` for a right rotation at `x` with left
child `y`. -/
theorem rep_rotR_sub {w' : World} {x y : Addr} {kx vx ky vy : Nat} {lly lry rx : CTree}
    {pnew : Option Addr}
    (hx' : ∃ c0, w'.heap x = some ⟨kx, vx, rootA lry, rootA rx, some y, c0⟩)
    (hy' : ∃ c0, w'.heap y = some ⟨ky, vy, rootA lly, some x, pnew, c0⟩)
    (hlly : Rep w' (some y) lly) (hlry : Rep w' (some x) lry)
    (hrx : Rep w' (some x) rx) :
    Rep w' pnew (.node y ky vy lly (.node x kx vx lry rx)) :=
  ⟨hy', hlly, ⟨hx', hlry, hrx⟩⟩

/-- Structural effect of `leftRotate` strictly inside a represented subtree:
some subtree `t'` with the same in-order triples and the same root address is
represented afterwards, and no cell outside the subtree changes. -/
theorem rotL_aux {mid x : Nat} {w w' : World} (hrun : leftRotate w mid x = .ok w') :
    ∀ (t : CTree) (p : Option Addr), Rep w p t → (addrs t).Nodup →
      x ∈ addrs t → rootA t ≠ some x → (∀ q, p = some q → q ∉ addrs t) →
      ∃ t', Rep w' p t' ∧ trip t' = trip t ∧ rootA t' = rootA t ∧
        (∀ d, d ∉ addrs t → w'.heap d = w.heap d) ∧ w'.next = w.next ∧ w'.maps = w.maps := by
  intro t
  induction t with
  | nil =>
    intro p _ _ hx _ _
    simp [addrs, trip] at hx
  | node a k v l r ihl ihr =>
    intro p hrep hnd hx hxroot hpout
    obtain ⟨⟨c, hca⟩, hrepl, hrepr⟩ := hrep
    obtain ⟨hndl, hndr, hal, har, hdlr⟩ := nodup_node_facts hnd
    rw [mem_addrs_node] at hx
    have hxa : x ≠ a := by
      intro he
      exact hxroot (by simp [rootA, he])
    rcases hx with hxl | hxa' | hxr
    · by_cases hroot : rootA l = some x
      · -- x is the left child of a: the parent-slot write goes to a.left
        cases l with
        | nil => simp [rootA] at hroot
        | node x0 kx vx lx rx =>
          simp only [rootA, Option.some.injEq] at hroot
          replace hroot := hroot.symm
          subst hroot
          obtain ⟨⟨cx, hcx⟩, hreplx, hreprx⟩ := hrepl
          obtain ⟨hndlx, hndrx, hxlx, hxrx, hdlxrx⟩ := nodup_node_facts hndl
          have hxmeml : x ∈ addrs (CTree.node x kx vx lx rx) := by simp [addrs_node]
          have hax : a ≠ x := Ne.symm (ne_of_mem_of_not_mem hxmeml hal)
          have hxa' : x ≠ a := Ne.symm hax
          cases rx with
          | nil =>
            rw [show rootA CTree.nil = none from rfl] at hcx
            simp [leftRotate, bind, Except.bind, readN, addrOf, hcx] at hrun
          | node y ky vy rly rry =>
            rw [show rootA (CTree.node y ky vy rly rry) = some y from rfl] at hcx
            obtain ⟨⟨cy, hcy⟩, hreprly, hreprry⟩ := hreprx
            obtain ⟨hndrly, hndrry, hyrly, hyrry, hdrlyrry⟩ := nodup_node_facts hndrx
            have hymem : y ∈ addrs (CTree.node y ky vy rly rry) := by simp [addrs_node]
            have hymeml : y ∈ addrs (CTree.node x kx vx lx (CTree.node y ky vy rly rry)) := by
              simp [addrs_node]
            have hyx : y ≠ x := ne_of_mem_of_not_mem hymem hxrx
            have hay : a ≠ y := Ne.symm (ne_of_mem_of_not_mem hymeml hal)
            have hxy : x ≠ y := Ne.symm hyx
            have hya : y ≠ a := Ne.symm hay
            have hfr_lx : ∀ d ∈ addrs lx, d ≠ x ∧ d ≠ y ∧ d ≠ a := by
              intro d hd
              refine ⟨ne_of_mem_of_not_mem hd hxlx,
                fun he => (hdlxrx d hd) (by rw [he]; exact hymem),
                ne_of_mem_of_not_mem (show d ∈ addrs (CTree.node x kx vx lx
                  (CTree.node y ky vy rly rry)) by simp [addrs_node, hd]) hal⟩
            have hfr_rry : ∀ d ∈ addrs rry, d ≠ x ∧ d ≠ y ∧ d ≠ a := by
              intro d hd
              have hdin : d ∈ addrs (CTree.node y ky vy rly rry) := by simp [addrs_node, hd]
              refine ⟨ne_of_mem_of_not_mem hdin hxrx,
                ne_of_mem_of_not_mem hd hyrry,
                ne_of_mem_of_not_mem (show d ∈ addrs (CTree.node x kx vx lx
                  (CTree.node y ky vy rly rry)) by simp [addrs_node, hd]) hal⟩
            have hfr_rly : ∀ d ∈ addrs rly, d ≠ x ∧ d ≠ y ∧ d ≠ a := by
              intro d hd
              have hdin : d ∈ addrs (CTree.node y ky vy rly rry) := by simp [addrs_node, hd]
              refine ⟨ne_of_mem_of_not_mem hdin hxrx,
                ne_of_mem_of_not_mem hd hyrly,
                ne_of_mem_of_not_mem (show d ∈ addrs (CTree.node x kx vx lx
                  (CTree.node y ky vy rly rry)) by simp [addrs_node, hd]) hal⟩
            have hfr_r : ∀ d ∈ addrs r, d ≠ x ∧ d ≠ y ∧ d ≠ a := by
              intro d hd
              have hndl2 : ∀ e ∈ addrs (CTree.node x kx vx lx (CTree.node y ky vy rly rry)),
                  e ≠ d := fun e he hed => (hdlr e he) (by rwa [hed])
              exact ⟨Ne.symm (hndl2 x hxmeml), Ne.symm (hndl2 y hymeml),
                ne_of_mem_of_not_mem hd har⟩
            have hout : ∀ d, d ∉ addrs (CTree.node a k v
                (CTree.node x kx vx lx (CTree.node y ky vy rly rry)) r) →
                d ≠ x ∧ d ≠ y ∧ d ≠ a := by
              intro d hd
              refine ⟨fun he => hd ?_, fun he => hd ?_, fun he => hd ?_⟩ <;>
                simp [mem_addrs_node, addrs_node, he]
            cases rly with
            | nil =>
              rw [show rootA CTree.nil = none from rfl] at hcy
              simp only [leftRotate, bind, Except.bind, pure, Except.pure, readN, addrOf,
                modifyN, setRoot, hcx, hcy, hca, hupd_self, hupd_other hyx, hupd_other hay,
                hupd_other hax, hupd_other hxy, hupd_other hya, hupd_other hxa', rootA_nil, rootA_node,
                if_true, eq_self_iff_true, Except.ok.injEq] at hrun
              subst hrun
              refine ⟨CTree.node a k v
                (CTree.node y ky vy (CTree.node x kx vx lx CTree.nil) rry) r,
                ⟨⟨c, by simp [rootA_nil, rootA_node, hupd_self, hupd_other hay, hupd_other hax]⟩,
                 rep_rotL_sub ⟨cx, by simp [rootA_nil, rootA_node, hupd_self]⟩
                   ⟨cy, by simp [rootA_nil, rootA_node, hupd_self, hupd_other hyx]⟩ ?_ trivial ?_, ?_⟩,
                by simp [trip], rfl, ?_, rfl, rfl⟩
              · refine rep_frame (fun d hd => ?_) hreplx
                obtain ⟨h1, h2, h3⟩ := hfr_lx d hd
                simp [hupd_other h1, hupd_other h2, hupd_other h3]
              · refine rep_frame (fun d hd => ?_) hreprry
                obtain ⟨h1, h2, h3⟩ := hfr_rry d hd
                simp [hupd_other h1, hupd_other h2, hupd_other h3]
              · refine rep_frame (fun d hd => ?_) hrepr
                obtain ⟨h1, h2, h3⟩ := hfr_r d hd
                simp [hupd_other h1, hupd_other h2, hupd_other h3]
              · intro d hd
                obtain ⟨h1, h2, h3⟩ := hout d hd
                simp [hupd_other h1, hupd_other h2, hupd_other h3]
            | node b kb vb bl br =>
              rw [show rootA (CTree.node b kb vb bl br) = some b from rfl] at hcy
              have hbmem : b ∈ addrs (CTree.node b kb vb bl br) := by simp [addrs_node]
              obtain ⟨hbx, hby, hba⟩ := hfr_rly b hbmem
              have hreprly' : Rep w (some y) (CTree.node b kb vb bl br) := hreprly
              obtain ⟨⟨cb, hcb⟩, hrepbl, hrepbr⟩ := hreprly
              simp only [leftRotate, bind, Except.bind, pure, Except.pure, readN, addrOf,
                modifyN, setRoot, hcx, hcy, hca, hcb, hupd_self, hupd_other hyx,
                hupd_other hay, hupd_other hax, hupd_other hxy, hupd_other hya,
                hupd_other hxa', hupd_other hbx, hupd_other hby, hupd_other hba,
                hupd_other (Ne.symm hbx), hupd_other (Ne.symm hby), hupd_other (Ne.symm hba),
                rootA_nil, rootA_node, if_true, eq_self_iff_true, Except.ok.injEq] at hrun
              subst hrun
              refine ⟨CTree.node a k v
                (CTree.node y ky vy (CTree.node x kx vx lx (CTree.node b kb vb bl br)) rry) r,
                ⟨⟨c, by simp [rootA_nil, rootA_node, hupd_self, hupd_other hay, hupd_other hax,
                  hupd_other (Ne.symm hba)]⟩,
                 rep_rotL_sub ⟨cx, by simp [rootA_nil, rootA_node, hupd_self, hupd_other (Ne.symm hbx)]⟩
                   ⟨cy, by simp [rootA_nil, rootA_node, hupd_self, hupd_other hyx, hupd_other (Ne.symm hby)]⟩
                   ?_ ?_ ?_, ?_⟩,
                by simp [trip], rfl, ?_, rfl, rfl⟩
              · refine rep_frame (fun d hd => ?_) hreplx
                obtain ⟨h1, h2, h3⟩ := hfr_lx d hd
                have h4 : d ≠ b := fun he => (hdlxrx d hd) (by
                  rw [he]
                  simp [addrs_node, hbmem])
                simp [hupd_other h1, hupd_other h2, hupd_other h3, hupd_other h4]
              · refine rep_reparent hreprly' hndrly ?_ ?_
                · rintro a' k' v' l' r' heq
                  cases heq
                  exact ⟨cb, by simp [hupd_self, hupd_other hbx, hupd_other hby,
                    hupd_other hba]⟩
                · intro d hd hdne
                  have hdb : d ≠ b := fun he => hdne (by rw [he]; rfl)
                  obtain ⟨h1, h2, h3⟩ := hfr_rly d hd
                  simp [hupd_other h1, hupd_other h2, hupd_other h3, hupd_other hdb]
              · refine rep_frame (fun d hd => ?_) hreprry
                obtain ⟨h1, h2, h3⟩ := hfr_rry d hd
                have h4 : d ≠ b := ne_of_mem_of_not_mem hd (hdrlyrry b hbmem)
                simp [hupd_other h1, hupd_other h2, hupd_other h3, hupd_other h4]
              · refine rep_frame (fun d hd => ?_) hrepr
                obtain ⟨h1, h2, h3⟩ := hfr_r d hd
                have hbl2 : b ∈ addrs (CTree.node x kx vx lx
                    (CTree.node y ky vy (CTree.node b kb vb bl br) rry)) := by
                  simp [addrs_node]
                have h4 : d ≠ b := ne_of_mem_of_not_mem hd (hdlr b hbl2)
                simp [hupd_other h1, hupd_other h2, hupd_other h3, hupd_other h4]
              · intro d hd
                obtain ⟨h1, h2, h3⟩ := hout d hd
                have h4 : d ≠ b := fun he => hd (by
                  rw [he]
                  simp [mem_addrs_node, addrs_node])
                simp [hupd_other h1, hupd_other h2, hupd_other h3, hupd_other h4]
      · have hpout' : ∀ q, some a = some q → q ∉ addrs l := by
          rintro q hq
          cases hq
          exact hal
        obtain ⟨l', hrepl', htrip, hroot', hframe, hnext, hmaps⟩ :=
          ihl (some a) hrepl hndl hxl hroot hpout'
        refine ⟨CTree.node a k v l' r, ⟨⟨c, ?_⟩, hrepl', ?_⟩, ?_, rfl, ?_, hnext, hmaps⟩
        · rw [hframe a hal, hroot']
          exact hca
        · refine rep_frame (fun d hd => ?_) hrepr
          exact hframe d (fun hdl => (hdlr d hdl) hd)
        · simp [trip, htrip]
        · intro d hdt
          refine hframe d (fun hdl => hdt ?_)
          simp [mem_addrs_node, hdl]
    · exact absurd hxa' hxa
    · by_cases hroot : rootA r = some x
      · -- x is the right child of a: the parent-slot write goes to a.right
        cases r with
        | nil => simp [rootA] at hroot
        | node x0 kx vx lxs rx =>
          simp only [rootA, Option.some.injEq] at hroot
          replace hroot := hroot.symm
          subst hroot
          obtain ⟨⟨cx, hcx⟩, hreplx, hreprx⟩ := hrepr
          obtain ⟨hndlx, hndrx, hxlx, hxrx, hdlxrx⟩ := nodup_node_facts hndr
          have hxmemr : x ∈ addrs (CTree.node x kx vx lxs rx) := by simp [addrs_node]
          have hax : a ≠ x := Ne.symm (ne_of_mem_of_not_mem hxmemr har)
          have hxa' : x ≠ a := Ne.symm hax
          have hlnotx : rootA l ≠ some x := fun he => (hdlr x (rootA_mem he)) hxr
          cases rx with
          | nil =>
            rw [show rootA CTree.nil = none from rfl] at hcx
            simp [leftRotate, bind, Except.bind, readN, addrOf, hcx] at hrun
          | node y ky vy rly rry =>
            rw [show rootA (CTree.node y ky vy rly rry) = some y from rfl] at hcx
            obtain ⟨⟨cy, hcy⟩, hreprly, hreprry⟩ := hreprx
            obtain ⟨hndrly, hndrry, hyrly, hyrry, hdrlyrry⟩ := nodup_node_facts hndrx
            have hymem : y ∈ addrs (CTree.node y ky vy rly rry) := by simp [addrs_node]
            have hymemr : y ∈ addrs (CTree.node x kx vx lxs (CTree.node y ky vy rly rry)) := by
              simp [addrs_node]
            have hyx : y ≠ x := ne_of_mem_of_not_mem hymem hxrx
            have hay : a ≠ y := Ne.symm (ne_of_mem_of_not_mem hymemr har)
            have hxy : x ≠ y := Ne.symm hyx
            have hya : y ≠ a := Ne.symm hay
            have hfr_lx : ∀ d ∈ addrs lxs, d ≠ x ∧ d ≠ y ∧ d ≠ a := by
              intro d hd
              refine ⟨ne_of_mem_of_not_mem hd hxlx,
                fun he => (hdlxrx d hd) (by rw [he]; exact hymem),
                ne_of_mem_of_not_mem (show d ∈ addrs (CTree.node x kx vx lxs
                  (CTree.node y ky vy rly rry)) by simp [addrs_node, hd]) har⟩
            have hfr_rry : ∀ d ∈ addrs rry, d ≠ x ∧ d ≠ y ∧ d ≠ a := by
              intro d hd
              have hdin : d ∈ addrs (CTree.node y ky vy rly rry) := by simp [addrs_node, hd]
              refine ⟨ne_of_mem_of_not_mem hdin hxrx,
                ne_of_mem_of_not_mem hd hyrry,
                ne_of_mem_of_not_mem (show d ∈ addrs (CTree.node x kx vx lxs
                  (CTree.node y ky vy rly rry)) by simp [addrs_node, hd]) har⟩
            have hfr_rly : ∀ d ∈ addrs rly, d ≠ x ∧ d ≠ y ∧ d ≠ a := by
              intro d hd
              have hdin : d ∈ addrs (CTree.node y ky vy rly rry) := by simp [addrs_node, hd]
              refine ⟨ne_of_mem_of_not_mem hdin hxrx,
                ne_of_mem_of_not_mem hd hyrly,
                ne_of_mem_of_not_mem (show d ∈ addrs (CTree.node x kx vx lxs
                  (CTree.node y ky vy rly rry)) by simp [addrs_node, hd]) har⟩
            have hfr_l : ∀ d ∈ addrs l, d ≠ x ∧ d ≠ y ∧ d ≠ a := by
              intro d hd
              have hdnr : ∀ e ∈ addrs (CTree.node x kx vx lxs (CTree.node y ky vy rly rry)),
                  d ≠ e := fun e he hed => (hdlr d hd) (by rw [hed]; exact he)
              exact ⟨hdnr x hxmemr, hdnr y hymemr, ne_of_mem_of_not_mem hd hal⟩
            have hout : ∀ d, d ∉ addrs (CTree.node a k v l
                (CTree.node x kx vx lxs (CTree.node y ky vy rly rry))) →
                d ≠ x ∧ d ≠ y ∧ d ≠ a := by
              intro d hd
              refine ⟨fun he => hd ?_, fun he => hd ?_, fun he => hd ?_⟩ <;>
                simp [mem_addrs_node, addrs_node, he]
            cases rly with
            | nil =>
              rw [show rootA CTree.nil = none from rfl] at hcy
              simp only [leftRotate, bind, Except.bind, pure, Except.pure, readN, addrOf,
                modifyN, setRoot, hcx, hcy, hca, hupd_self, hupd_other hyx, hupd_other hay,
                hupd_other hax, hupd_other hxy, hupd_other hya, hupd_other hxa',
                rootA_nil, rootA_node, hlnotx, if_true, if_false, eq_self_iff_true,
                Except.ok.injEq] at hrun
              subst hrun
              refine ⟨CTree.node a k v l
                (CTree.node y ky vy (CTree.node x kx vx lxs CTree.nil) rry),
                ⟨⟨c, by simp [rootA_nil, rootA_node, hupd_self, hupd_other hay,
                  hupd_other hax]⟩, ?_,
                 rep_rotL_sub ⟨cx, by simp [rootA_nil, rootA_node, hupd_self]⟩
                   ⟨cy, by simp [rootA_nil, rootA_node, hupd_self, hupd_other hyx]⟩
                   ?_ trivial ?_⟩,
                by simp [trip], rfl, ?_, rfl, rfl⟩
              · refine rep_frame (fun d hd => ?_) hrepl
                obtain ⟨h1, h2, h3⟩ := hfr_l d hd
                simp [hupd_other h1, hupd_other h2, hupd_other h3]
              · refine rep_frame (fun d hd => ?_) hreplx
                obtain ⟨h1, h2, h3⟩ := hfr_lx d hd
                simp [hupd_other h1, hupd_other h2, hupd_other h3]
              · refine rep_frame (fun d hd => ?_) hreprry
                obtain ⟨h1, h2, h3⟩ := hfr_rry d hd
                simp [hupd_other h1, hupd_other h2, hupd_other h3]
              · intro d hd
                obtain ⟨h1, h2, h3⟩ := hout d hd
                simp [hupd_other h1, hupd_other h2, hupd_other h3]
            | node b kb vb bl br =>
              rw [show rootA (CTree.node b kb vb bl br) = some b from rfl] at hcy
              have hbmem : b ∈ addrs (CTree.node b kb vb bl br) := by simp [addrs_node]
              obtain ⟨hbx, hby, hba⟩ := hfr_rly b hbmem
              have hreprly' : Rep w (some y) (CTree.node b kb vb bl br) := hreprly
              obtain ⟨⟨cb, hcb⟩, hrepbl, hrepbr⟩ := hreprly
              simp only [leftRotate, bind, Except.bind, pure, Except.pure, readN, addrOf,
                modifyN, setRoot, hcx, hcy, hca, hcb, hupd_self, hupd_other hyx,
                hupd_other hay, hupd_other hax, hupd_other hxy, hupd_other hya,
                hupd_other hxa', hupd_other hbx, hupd_other hby, hupd_other hba,
                hupd_other (Ne.symm hbx), hupd_other (Ne.symm hby), hupd_other (Ne.symm hba),
                rootA_nil, rootA_node, hlnotx, if_true, if_false, eq_self_iff_true,
                Except.ok.injEq] at hrun
              subst hrun
              refine ⟨CTree.node a k v l
                (CTree.node y ky vy (CTree.node x kx vx lxs (CTree.node b kb vb bl br)) rry),
                ⟨⟨c, by simp [rootA_nil, rootA_node, hupd_self, hupd_other hay,
                  hupd_other hax, hupd_other (Ne.symm hba)]⟩, ?_,
                 rep_rotL_sub
                   ⟨cx, by simp [rootA_nil, rootA_node, hupd_self, hupd_other (Ne.symm hbx)]⟩
                   ⟨cy, by simp [rootA_nil, rootA_node, hupd_self, hupd_other hyx,
                     hupd_other (Ne.symm hby)]⟩
                   ?_ ?_ ?_⟩,
                by simp [trip], rfl, ?_, rfl, rfl⟩
              · refine rep_frame (fun d hd => ?_) hrepl
                obtain ⟨h1, h2, h3⟩ := hfr_l d hd
                have hbr2 : b ∈ addrs (CTree.node x kx vx lxs
                    (CTree.node y ky vy (CTree.node b kb vb bl br) rry)) := by
                  simp [addrs_node]
                have h4 : d ≠ b := fun he => (hdlr d hd) (by rw [he]; exact hbr2)
                simp [hupd_other h1, hupd_other h2, hupd_other h3, hupd_other h4]
              · refine rep_frame (fun d hd => ?_) hreplx
                obtain ⟨h1, h2, h3⟩ := hfr_lx d hd
                have h4 : d ≠ b := fun he => (hdlxrx d hd) (by
                  rw [he]
                  simp [addrs_node, hbmem])
                simp [hupd_other h1, hupd_other h2, hupd_other h3, hupd_other h4]
              · refine rep_reparent hreprly' hndrly ?_ ?_
                · rintro a' k' v' l' r' heq
                  cases heq
                  exact ⟨cb, by simp [hupd_self, hupd_other hbx, hupd_other hby,
                    hupd_other hba]⟩
                · intro d hd hdne
                  have hdb : d ≠ b := fun he => hdne (by rw [he]; rfl)
                  obtain ⟨h1, h2, h3⟩ := hfr_rly d hd
                  simp [hupd_other h1, hupd_other h2, hupd_other h3, hupd_other hdb]
              · refine rep_frame (fun d hd => ?_) hreprry
                obtain ⟨h1, h2, h3⟩ := hfr_rry d hd
                have h4 : d ≠ b := ne_of_mem_of_not_mem hd (hdrlyrry b hbmem)
                simp [hupd_other h1, hupd_other h2, hupd_other h3, hupd_other h4]
              · intro d hd
                obtain ⟨h1, h2, h3⟩ := hout d hd
                have h4 : d ≠ b := fun he => hd (by
                  rw [he]
                  simp [mem_addrs_node, addrs_node])
                simp [hupd_other h1, hupd_other h2, hupd_other h3, hupd_other h4]
      · have hpout' : ∀ q, some a = some q → q ∉ addrs r := by
          rintro q hq
          cases hq
          exact har
        obtain ⟨r', hrepr', htrip, hroot', hframe, hnext, hmaps⟩ :=
          ihr (some a) hrepr hndr hxr hroot hpout'
        refine ⟨CTree.node a k v l r', ⟨⟨c, ?_⟩, ?_, hrepr'⟩, ?_, rfl, ?_, hnext, hmaps⟩
        · rw [hframe a har, hroot']
          exact hca
        · refine rep_frame (fun d hd => ?_) hrepl
          exact hframe d (hdlr d hd)
        · simp [trip, htrip]
        · intro d hdt
          refine hframe d (fun hdl => hdt ?_)
          simp [mem_addrs_node, hdl]

/-- The whole-map effect of `leftRotate` at any node of a represented map:
some tree with the same in-order triples is represented afterwards; the
allocation frontier, the cells outside the tree, the other map objects and
the size field are untouched. -/
theorem leftRotate_pres {w w' : World} {mid x : Nat} {t : CTree}
    (hrw : RepW w mid t) (hx : x ∈ addrs t) (hrun : leftRotate w mid x = .ok w') :
    ∃ t', RepW w' mid t' ∧ trip t' = trip t ∧ w'.next = w.next ∧
      (∀ d, d ∉ addrs t → w'.heap d = w.heap d) ∧
      (∀ mid2, mid2 ≠ mid → lookupM w'.maps mid2 = lookupM w.maps mid2) ∧
      (∀ m0, lookupM w.maps mid = some m0 →
        ∃ m1, lookupM w'.maps mid = some m1 ∧ m1.tsize = m0.tsize) := by
  obtain ⟨m, hm, hmroot, hrep, hnd, hbelow⟩ := hrw
  by_cases hr : rootA t = some x
  · -- x is the root: the rotation reassigns the map's root pointer
    cases t with
    | nil => simp [rootA] at hr
    | node x0 kx vx lx rx =>
      simp only [rootA, Option.some.injEq] at hr
      replace hr := hr.symm
      subst hr
      rw [rootA_node] at hmroot
      obtain ⟨⟨cx, hcx⟩, hreplx, hreprx⟩ := hrep
      obtain ⟨hndlx, hndrx, hxlx, hxrx, hdlxrx⟩ := nodup_node_facts hnd
      cases rx with
      | nil =>
        rw [rootA_nil] at hcx
        simp [leftRotate, bind, Except.bind, readN, addrOf, hcx] at hrun
      | node y ky vy rly rry =>
        rw [rootA_node] at hcx
        obtain ⟨⟨cy, hcy⟩, hreprly, hreprry⟩ := hreprx
        obtain ⟨hndrly, hndrry, hyrly, hyrry, hdrlyrry⟩ := nodup_node_facts hndrx
        have hymem : y ∈ addrs (CTree.node y ky vy rly rry) := by simp [addrs_node]
        have hyx : y ≠ x := ne_of_mem_of_not_mem hymem hxrx
        have hxy : x ≠ y := Ne.symm hyx
        have hfr_lx : ∀ d ∈ addrs lx, d ≠ x ∧ d ≠ y := by
          intro d hd
          exact ⟨ne_of_mem_of_not_mem hd hxlx,
            fun he => (hdlxrx d hd) (by rw [he]; exact hymem)⟩
        have hfr_rry : ∀ d ∈ addrs rry, d ≠ x ∧ d ≠ y := by
          intro d hd
          have hdin : d ∈ addrs (CTree.node y ky vy rly rry) := by simp [addrs_node, hd]
          exact ⟨ne_of_mem_of_not_mem hdin hxrx, ne_of_mem_of_not_mem hd hyrry⟩
        have hfr_rly : ∀ d ∈ addrs rly, d ≠ x ∧ d ≠ y := by
          intro d hd
          have hdin : d ∈ addrs (CTree.node y ky vy rly rry) := by simp [addrs_node, hd]
          exact ⟨ne_of_mem_of_not_mem hdin hxrx, ne_of_mem_of_not_mem hd hyrly⟩
        have hout : ∀ d, d ∉ addrs (CTree.node x kx vx lx (CTree.node y ky vy rly rry)) →
            d ≠ x ∧ d ≠ y := by
          intro d hd
          refine ⟨fun he => hd ?_, fun he => hd ?_⟩ <;>
            simp [mem_addrs_node, addrs_node, he]
        have htrip_eq : trip (CTree.node y ky vy (CTree.node x kx vx lx rly) rry) =
            trip (CTree.node x kx vx lx (CTree.node y ky vy rly rry)) := by
          simp [trip]
        have haddr_eq : addrs (CTree.node y ky vy (CTree.node x kx vx lx rly) rry) =
            addrs (CTree.node x kx vx lx (CTree.node y ky vy rly rry)) := by
          simp [addrs, htrip_eq]
        cases rly with
        | nil =>
          rw [rootA_nil] at hcy
          simp only [leftRotate, bind, Except.bind, pure, Except.pure, readN, addrOf,
            modifyN, setRoot, getMap, setMap, hcx, hcy, hm, hupd_self, hupd_other hyx,
            hupd_other hxy, rootA_nil, rootA_node, if_true, eq_self_iff_true,
            Except.ok.injEq] at hrun
          subst hrun
          refine ⟨CTree.node y ky vy (CTree.node x kx vx lx CTree.nil) rry,
            ⟨{ m with root := some y }, ?_, rfl, ?_, ?_, ?_⟩,
            htrip_eq, rfl, ?_, ?_, ?_⟩
          · exact lookupM_updMaps_self w.maps mid _ m hm
          · refine rep_rotL_sub ⟨cx, by simp [rootA_nil, rootA_node, hupd_self]⟩
              ⟨cy, by simp [rootA_nil, rootA_node, hupd_self, hupd_other hyx]⟩ ?_ trivial ?_
            · refine rep_frame (fun d hd => ?_) hreplx
              obtain ⟨h1, h2⟩ := hfr_lx d hd
              simp [hupd_other h1, hupd_other h2]
            · refine rep_frame (fun d hd => ?_) hreprry
              obtain ⟨h1, h2⟩ := hfr_rry d hd
              simp [hupd_other h1, hupd_other h2]
          · rw [haddr_eq]
            exact hnd
          · intro d hd
            rw [haddr_eq] at hd
            exact hbelow d hd
          · intro d hd
            obtain ⟨h1, h2⟩ := hout d hd
            simp [hupd_other h1, hupd_other h2]
          · intro mid2 hmid2
            exact lookupM_updMaps_other w.maps mid _ hmid2
          · intro m0 hm0
            have hm0m : m0 = m := by
              rw [hm0] at hm
              exact Option.some.inj hm
            subst hm0m
            exact ⟨{ m0 with root := some y },
              lookupM_updMaps_self w.maps mid _ m0 hm0, rfl⟩
        | node b kb vb bl br =>
          rw [rootA_node] at hcy
          have hbmem : b ∈ addrs (CTree.node b kb vb bl br) := by simp [addrs_node]
          obtain ⟨hbx, hby⟩ := hfr_rly b hbmem
          have hreprly' : Rep w (some y) (CTree.node b kb vb bl br) := hreprly
          obtain ⟨⟨cb, hcb⟩, hrepbl, hrepbr⟩ := hreprly
          simp only [leftRotate, bind, Except.bind, pure, Except.pure, readN, addrOf,
            modifyN, setRoot, getMap, setMap, hcx, hcy, hcb, hm, hupd_self,
            hupd_other hyx, hupd_other hxy, hupd_other hbx, hupd_other hby,
            hupd_other (Ne.symm hbx), hupd_other (Ne.symm hby), rootA_nil, rootA_node,
            if_true, eq_self_iff_true, Except.ok.injEq] at hrun
          subst hrun
          refine ⟨CTree.node y ky vy (CTree.node x kx vx lx (CTree.node b kb vb bl br)) rry,
            ⟨{ m with root := some y }, ?_, rfl, ?_, ?_, ?_⟩,
            htrip_eq, rfl, ?_, ?_, ?_⟩
          · exact lookupM_updMaps_self w.maps mid _ m hm
          · refine rep_rotL_sub
              ⟨cx, by simp [rootA_nil, rootA_node, hupd_self, hupd_other (Ne.symm hbx)]⟩
              ⟨cy, by simp [rootA_nil, rootA_node, hupd_self, hupd_other hyx,
                hupd_other (Ne.symm hby)]⟩ ?_ ?_ ?_
            · refine rep_frame (fun d hd => ?_) hreplx
              obtain ⟨h1, h2⟩ := hfr_lx d hd
              have h4 : d ≠ b := fun he => (hdlxrx d hd) (by
                rw [he]
                simp [addrs_node, hbmem])
              simp [hupd_other h1, hupd_other h2, hupd_other h4]
            · refine rep_reparent hreprly' hndrly ?_ ?_
              · rintro a' k' v' l' r' heq
                cases heq
                exact ⟨cb, by simp [hupd_self, hupd_other hbx, hupd_other hby]⟩
              · intro d hd hdne
                have hdb : d ≠ b := fun he => hdne (by rw [he]; rfl)
                obtain ⟨h1, h2⟩ := hfr_rly d hd
                simp [hupd_other h1, hupd_other h2, hupd_other hdb]
            · refine rep_frame (fun d hd => ?_) hreprry
              obtain ⟨h1, h2⟩ := hfr_rry d hd
              have h4 : d ≠ b := ne_of_mem_of_not_mem hd (hdrlyrry b hbmem)
              simp [hupd_other h1, hupd_other h2, hupd_other h4]
          · rw [haddr_eq]
            exact hnd
          · intro d hd
            rw [haddr_eq] at hd
            exact hbelow d hd
          · intro d hd
            obtain ⟨h1, h2⟩ := hout d hd
            have h4 : d ≠ b := fun he => hd (by
              rw [he]
              simp [mem_addrs_node, addrs_node])
            simp [hupd_other h1, hupd_other h2, hupd_other h4]
          · intro mid2 hmid2
            exact lookupM_updMaps_other w.maps mid _ hmid2
          · intro m0 hm0
            have hm0m : m0 = m := by
              rw [hm0] at hm
              exact Option.some.inj hm
            subst hm0m
            exact ⟨{ m0 with root := some y },
              lookupM_updMaps_self w.maps mid _ m0 hm0, rfl⟩
  · obtain ⟨t', hrep', htrip, hroot', hframe, hnext, hmaps⟩ :=
      rotL_aux hrun t none hrep hnd hx hr (fun q hq => by cases hq)
    have haddr : addrs t' = addrs t := by simp [addrs, htrip]
    refine ⟨t', ⟨m, by rw [hmaps]; exact hm, by rw [hroot']; exact hmroot, hrep', ?_, ?_⟩,
      htrip, hnext, hframe, fun mid2 _ => by rw [hmaps], fun m0 hm0 => ⟨m0, ?_, rfl⟩⟩
    · rw [haddr]
      exact hnd
    · intro d hd
      rw [haddr] at hd
      rw [hnext]
      exact hbelow d hd
    · rw [hmaps]
      exact hm0

/-- Mirror of `rotL_aux` for `rightRotate`. -/
theorem rotR_aux {mid x : Nat} {w w' : World} (hrun : rightRotate w mid x = .ok w') :
    ∀ (t : CTree) (p : Option Addr), Rep w p t → (addrs t).Nodup →
      x ∈ addrs t → rootA t ≠ some x → (∀ q, p = some q → q ∉ addrs t) →
      ∃ t', Rep w' p t' ∧ trip t' = trip t ∧ rootA t' = rootA t ∧
        (∀ d, d ∉ addrs t → w'.heap d = w.heap d) ∧ w'.next = w.next ∧ w'.maps = w.maps := by
  intro t
  induction t with
  | nil =>
    intro p _ _ hx _ _
    simp [addrs, trip] at hx
  | node a k v l r ihl ihr =>
    intro p hrep hnd hx hxroot hpout
    obtain ⟨⟨c, hca⟩, hrepl, hrepr⟩ := hrep
    obtain ⟨hndl, hndr, hal, har, hdlr⟩ := nodup_node_facts hnd
    rw [mem_addrs_node] at hx
    have hxa : x ≠ a := by
      intro he
      exact hxroot (by simp [rootA, he])
    rcases hx with hxl | hxa' | hxr
    · by_cases hroot : rootA l = some x
      · -- x is the left child of a: the parent-slot write goes to a.left
        cases l with
        | nil => simp [rootA] at hroot
        | node x0 kx vx lxc rxs =>
          simp only [rootA, Option.some.injEq] at hroot
          replace hroot := hroot.symm
          subst hroot
          obtain ⟨⟨cx, hcx⟩, hreplx, hreprx⟩ := hrepl
          obtain ⟨hndlxc, hndrxs, hxlxc, hxrxs, hdlxcrxs⟩ := nodup_node_facts hndl
          have hxmeml : x ∈ addrs (CTree.node x kx vx lxc rxs) := by simp [addrs_node]
          have hax : a ≠ x := Ne.symm (ne_of_mem_of_not_mem hxmeml hal)
          have hxa' : x ≠ a := Ne.symm hax
          have hrnotx : rootA r ≠ some x := fun he =>
            (hdlr x hxl) (rootA_mem he)
          cases lxc with
          | nil =>
            rw [rootA_nil] at hcx
            simp [rightRotate, bind, Except.bind, readN, addrOf, hcx] at hrun
          | node y ky vy lly lry =>
            rw [rootA_node] at hcx
            obtain ⟨⟨cy, hcy⟩, hreplly, hreplry⟩ := hreplx
            obtain ⟨hndlly, hndlry, hylly, hylry, hdllylry⟩ := nodup_node_facts hndlxc
            have hymem : y ∈ addrs (CTree.node y ky vy lly lry) := by simp [addrs_node]
            have hymeml : y ∈ addrs (CTree.node x kx vx (CTree.node y ky vy lly lry) rxs) := by
              simp [addrs_node]
            have hyx : y ≠ x := ne_of_mem_of_not_mem hymem hxlxc
            have hay : a ≠ y := Ne.symm (ne_of_mem_of_not_mem hymeml hal)
            have hxy : x ≠ y := Ne.symm hyx
            have hya : y ≠ a := Ne.symm hay
            have hfr_rxs : ∀ d ∈ addrs rxs, d ≠ x ∧ d ≠ y ∧ d ≠ a := by
              intro d hd
              refine ⟨ne_of_mem_of_not_mem hd hxrxs,
                fun he => (hdlxcrxs y hymem) (by rw [← he]; exact hd),
                ne_of_mem_of_not_mem (show d ∈ addrs (CTree.node x kx vx
                  (CTree.node y ky vy lly lry) rxs) by simp [addrs_node, hd]) hal⟩
            have hfr_lly : ∀ d ∈ addrs lly, d ≠ x ∧ d ≠ y ∧ d ≠ a := by
              intro d hd
              have hdin : d ∈ addrs (CTree.node y ky vy lly lry) := by simp [addrs_node, hd]
              refine ⟨ne_of_mem_of_not_mem hdin hxlxc,
                ne_of_mem_of_not_mem hd hylly,
                ne_of_mem_of_not_mem (show d ∈ addrs (CTree.node x kx vx
                  (CTree.node y ky vy lly lry) rxs) by simp [addrs_node, hd]) hal⟩
            have hfr_lry : ∀ d ∈ addrs lry, d ≠ x ∧ d ≠ y ∧ d ≠ a := by
              intro d hd
              have hdin : d ∈ addrs (CTree.node y ky vy lly lry) := by simp [addrs_node, hd]
              refine ⟨ne_of_mem_of_not_mem hdin hxlxc,
                ne_of_mem_of_not_mem hd hylry,
                ne_of_mem_of_not_mem (show d ∈ addrs (CTree.node x kx vx
                  (CTree.node y ky vy lly lry) rxs) by simp [addrs_node, hd]) hal⟩
            have hfr_r : ∀ d ∈ addrs r, d ≠ x ∧ d ≠ y ∧ d ≠ a := by
              intro d hd
              have hndl2 : ∀ e ∈ addrs (CTree.node x kx vx (CTree.node y ky vy lly lry) rxs),
                  e ≠ d := fun e he hed => (hdlr e he) (by rwa [hed])
              exact ⟨Ne.symm (hndl2 x hxmeml), Ne.symm (hndl2 y hymeml),
                ne_of_mem_of_not_mem hd har⟩
            have hout : ∀ d, d ∉ addrs (CTree.node a k v
                (CTree.node x kx vx (CTree.node y ky vy lly lry) rxs) r) →
                d ≠ x ∧ d ≠ y ∧ d ≠ a := by
              intro d hd
              refine ⟨fun he => hd ?_, fun he => hd ?_, fun he => hd ?_⟩ <;>
                simp [mem_addrs_node, addrs_node, he]
            cases lry with
            | nil =>
              rw [rootA_nil] at hcy
              simp only [rightRotate, bind, Except.bind, pure, Except.pure, readN, addrOf,
                modifyN, setRoot, hcx, hcy, hca, hupd_self, hupd_other hyx, hupd_other hay,
                hupd_other hax, hupd_other hxy, hupd_other hya, hupd_other hxa',
                rootA_nil, rootA_node, hrnotx, if_true, if_false, eq_self_iff_true,
                Except.ok.injEq] at hrun
              subst hrun
              refine ⟨CTree.node a k v
                (CTree.node y ky vy lly (CTree.node x kx vx CTree.nil rxs)) r,
                ⟨⟨c, by simp [rootA_nil, rootA_node, hupd_self, hupd_other hay,
                  hupd_other hax]⟩,
                 rep_rotR_sub ⟨cx, by simp [rootA_nil, rootA_node, hupd_self]⟩
                   ⟨cy, by simp [rootA_nil, rootA_node, hupd_self, hupd_other hyx]⟩
                   ?_ trivial ?_, ?_⟩,
                by simp [trip], rfl, ?_, rfl, rfl⟩
              · refine rep_frame (fun d hd => ?_) hreplly
                obtain ⟨h1, h2, h3⟩ := hfr_lly d hd
                simp [hupd_other h1, hupd_other h2, hupd_other h3]
              · refine rep_frame (fun d hd => ?_) hreprx
                obtain ⟨h1, h2, h3⟩ := hfr_rxs d hd
                simp [hupd_other h1, hupd_other h2, hupd_other h3]
              · refine rep_frame (fun d hd => ?_) hrepr
                obtain ⟨h1, h2, h3⟩ := hfr_r d hd
                simp [hupd_other h1, hupd_other h2, hupd_other h3]
              · intro d hd
                obtain ⟨h1, h2, h3⟩ := hout d hd
                simp [hupd_other h1, hupd_other h2, hupd_other h3]
            | node b kb vb bl br =>
              rw [rootA_node] at hcy
              have hbmem : b ∈ addrs (CTree.node b kb vb bl br) := by simp [addrs_node]
              obtain ⟨hbx, hby, hba⟩ := hfr_lry b hbmem
              have hreplry' : Rep w (some y) (CTree.node b kb vb bl br) := hreplry
              obtain ⟨⟨cb, hcb⟩, hrepbl, hrepbr⟩ := hreplry
              simp only [rightRotate, bind, Except.bind, pure, Except.pure, readN, addrOf,
                modifyN, setRoot, hcx, hcy, hca, hcb, hupd_self, hupd_other hyx,
                hupd_other hay, hupd_other hax, hupd_other hxy, hupd_other hya,
                hupd_other hxa', hupd_other hbx, hupd_other hby, hupd_other hba,
                hupd_other (Ne.symm hbx), hupd_other (Ne.symm hby), hupd_other (Ne.symm hba),
                rootA_nil, rootA_node, hrnotx, if_true, if_false, eq_self_iff_true,
                Except.ok.injEq] at hrun
              subst hrun
              refine ⟨CTree.node a k v
                (CTree.node y ky vy lly (CTree.node x kx vx (CTree.node b kb vb bl br) rxs)) r,
                ⟨⟨c, by simp [rootA_nil, rootA_node, hupd_self, hupd_other hay,
                  hupd_other hax, hupd_other (Ne.symm hba)]⟩,
                 rep_rotR_sub
                   ⟨cx, by simp [rootA_nil, rootA_node, hupd_self, hupd_other (Ne.symm hbx)]⟩
                   ⟨cy, by simp [rootA_nil, rootA_node, hupd_self, hupd_other hyx,
                     hupd_other (Ne.symm hby)]⟩
                   ?_ ?_ ?_, ?_⟩,
                by simp [trip], rfl, ?_, rfl, rfl⟩
              · refine rep_frame (fun d hd => ?_) hreplly
                obtain ⟨h1, h2, h3⟩ := hfr_lly d hd
                have h4 : d ≠ b := fun he => (hdllylry d hd) (by
                  rw [he]
                  simp [addrs_node, hbmem])
                simp [hupd_other h1, hupd_other h2, hupd_other h3, hupd_other h4]
              · refine rep_reparent hreplry' hndlry ?_ ?_
                · rintro a' k' v' l' r' heq
                  cases heq
                  exact ⟨cb, by simp [hupd_self, hupd_other hbx, hupd_other hby,
                    hupd_other hba]⟩
                · intro d hd hdne
                  have hdb : d ≠ b := fun he => hdne (by rw [he]; rfl)
                  obtain ⟨h1, h2, h3⟩ := hfr_lry d hd
                  simp [hupd_other h1, hupd_other h2, hupd_other h3, hupd_other hdb]
              · refine rep_frame (fun d hd => ?_) hreprx
                obtain ⟨h1, h2, h3⟩ := hfr_rxs d hd
                have hblxc : b ∈ addrs (CTree.node y ky vy lly (CTree.node b kb vb bl br)) := by
                  simp [addrs_node, hbmem]
                have h4 : d ≠ b := fun he => (hdlxcrxs b hblxc) (by rw [← he]; exact hd)
                simp [hupd_other h1, hupd_other h2, hupd_other h3, hupd_other h4]
              · refine rep_frame (fun d hd => ?_) hrepr
                obtain ⟨h1, h2, h3⟩ := hfr_r d hd
                have hbl2 : b ∈ addrs (CTree.node x kx vx
                    (CTree.node y ky vy lly (CTree.node b kb vb bl br)) rxs) := by
                  simp [addrs_node, hbmem]
                have h4 : d ≠ b := ne_of_mem_of_not_mem hd (hdlr b hbl2)
                simp [hupd_other h1, hupd_other h2, hupd_other h3, hupd_other h4]
              · intro d hd
                obtain ⟨h1, h2, h3⟩ := hout d hd
                have h4 : d ≠ b := fun he => hd (by
                  rw [he]
                  simp [mem_addrs_node, addrs_node])
                simp [hupd_other h1, hupd_other h2, hupd_other h3, hupd_other h4]
      · have hpout' : ∀ q, some a = some q → q ∉ addrs l := by
          rintro q hq
          cases hq
          exact hal
        obtain ⟨l', hrepl', htrip, hroot', hframe, hnext, hmaps⟩ :=
          ihl (some a) hrepl hndl hxl hroot hpout'
        refine ⟨CTree.node a k v l' r, ⟨⟨c, ?_⟩, hrepl', ?_⟩, ?_, rfl, ?_, hnext, hmaps⟩
        · rw [hframe a hal, hroot']
          exact hca
        · refine rep_frame (fun d hd => ?_) hrepr
          exact hframe d (fun hdl => (hdlr d hdl) hd)
        · simp [trip, htrip]
        · intro d hdt
          refine hframe d (fun hdl => hdt ?_)
          simp [mem_addrs_node, hdl]
    · exact absurd hxa' hxa
    · by_cases hroot : rootA r = some x
      · -- x is the right child of a: the parent-slot write goes to a.right
        cases r with
        | nil => simp [rootA] at hroot
        | node x0 kx vx lxc rxs =>
          simp only [rootA, Option.some.injEq] at hroot
          replace hroot := hroot.symm
          subst hroot
          obtain ⟨⟨cx, hcx⟩, hreplx, hreprx⟩ := hrepr
          obtain ⟨hndlxc, hndrxs, hxlxc, hxrxs, hdlxcrxs⟩ := nodup_node_facts hndr
          have hxmemr : x ∈ addrs (CTree.node x kx vx lxc rxs) := by simp [addrs_node]
          have hax : a ≠ x := Ne.symm (ne_of_mem_of_not_mem hxmemr har)
          have hxa' : x ≠ a := Ne.symm hax
          cases lxc with
          | nil =>
            rw [rootA_nil] at hcx
            simp [rightRotate, bind, Except.bind, readN, addrOf, hcx] at hrun
          | node y ky vy lly lry =>
            rw [rootA_node] at hcx
            obtain ⟨⟨cy, hcy⟩, hreplly, hreplry⟩ := hreplx
            obtain ⟨hndlly, hndlry, hylly, hylry, hdllylry⟩ := nodup_node_facts hndlxc
            have hymem : y ∈ addrs (CTree.node y ky vy lly lry) := by simp [addrs_node]
            have hymemr : y ∈ addrs (CTree.node x kx vx (CTree.node y ky vy lly lry) rxs) := by
              simp [addrs_node]
            have hyx : y ≠ x := ne_of_mem_of_not_mem hymem hxlxc
            have hay : a ≠ y := Ne.symm (ne_of_mem_of_not_mem hymemr har)
            have hxy : x ≠ y := Ne.symm hyx
            have hya : y ≠ a := Ne.symm hay
            have hfr_rxs : ∀ d ∈ addrs rxs, d ≠ x ∧ d ≠ y ∧ d ≠ a := by
              intro d hd
              refine ⟨ne_of_mem_of_not_mem hd hxrxs,
                fun he => (hdlxcrxs y hymem) (by rw [← he]; exact hd),
                ne_of_mem_of_not_mem (show d ∈ addrs (CTree.node x kx vx
                  (CTree.node y ky vy lly lry) rxs) by simp [addrs_node, hd]) har⟩
            have hfr_lly : ∀ d ∈ addrs lly, d ≠ x ∧ d ≠ y ∧ d ≠ a := by
              intro d hd
              have hdin : d ∈ addrs (CTree.node y ky vy lly lry) := by simp [addrs_node, hd]
              refine ⟨ne_of_mem_of_not_mem hdin hxlxc,
                ne_of_mem_of_not_mem hd hylly,
                ne_of_mem_of_not_mem (show d ∈ addrs (CTree.node x kx vx
                  (CTree.node y ky vy lly lry) rxs) by simp [addrs_node, hd]) har⟩
            have hfr_lry : ∀ d ∈ addrs lry, d ≠ x ∧ d ≠ y ∧ d ≠ a := by
              intro d hd
              have hdin : d ∈ addrs (CTree.node y ky vy lly lry) := by simp [addrs_node, hd]
              refine ⟨ne_of_mem_of_not_mem hdin hxlxc,
                ne_of_mem_of_not_mem hd hylry,
                ne_of_mem_of_not_mem (show d ∈ addrs (CTree.node x kx vx
                  (CTree.node y ky vy lly lry) rxs) by simp [addrs_node, hd]) har⟩
            have hfr_l : ∀ d ∈ addrs l, d ≠ x ∧ d ≠ y ∧ d ≠ a := by
              intro d hd
              have hdnr : ∀ e ∈ addrs (CTree.node x kx vx (CTree.node y ky vy lly lry) rxs),
                  d ≠ e := fun e he hed => (hdlr d hd) (by rw [hed]; exact he)
              exact ⟨hdnr x hxmemr, hdnr y hymemr, ne_of_mem_of_not_mem hd hal⟩
            have hout : ∀ d, d ∉ addrs (CTree.node a k v l
                (CTree.node x kx vx (CTree.node y ky vy lly lry) rxs)) →
                d ≠ x ∧ d ≠ y ∧ d ≠ a := by
              intro d hd
              refine ⟨fun he => hd ?_, fun he => hd ?_, fun he => hd ?_⟩ <;>
                simp [mem_addrs_node, addrs_node, he]
            cases lry with
            | nil =>
              rw [rootA_nil] at hcy
              simp only [rightRotate, bind, Except.bind, pure, Except.pure, readN, addrOf,
                modifyN, setRoot, hcx, hcy, hca, hupd_self, hupd_other hyx, hupd_other hay,
                hupd_other hax, hupd_other hxy, hupd_other hya, hupd_other hxa',
                rootA_nil, rootA_node, if_true, eq_self_iff_true, Except.ok.injEq] at hrun
              subst hrun
              refine ⟨CTree.node a k v l
                (CTree.node y ky vy lly (CTree.node x kx vx CTree.nil rxs)),
                ⟨⟨c, by simp [rootA_nil, rootA_node, hupd_self, hupd_other hay,
                  hupd_other hax]⟩, ?_,
                 rep_rotR_sub ⟨cx, by simp [rootA_nil, rootA_node, hupd_self]⟩
                   ⟨cy, by simp [rootA_nil, rootA_node, hupd_self, hupd_other hyx]⟩
                   ?_ trivial ?_⟩,
                by simp [trip], rfl, ?_, rfl, rfl⟩
              · refine rep_frame (fun d hd => ?_) hrepl
                obtain ⟨h1, h2, h3⟩ := hfr_l d hd
                simp [hupd_other h1, hupd_other h2, hupd_other h3]
              · refine rep_frame (fun d hd => ?_) hreplly
                obtain ⟨h1, h2, h3⟩ := hfr_lly d hd
                simp [hupd_other h1, hupd_other h2, hupd_other h3]
              · refine rep_frame (fun d hd => ?_) hreprx
                obtain ⟨h1, h2, h3⟩ := hfr_rxs d hd
                simp [hupd_other h1, hupd_other h2, hupd_other h3]
              · intro d hd
                obtain ⟨h1, h2, h3⟩ := hout d hd
                simp [hupd_other h1, hupd_other h2, hupd_other h3]
            | node b kb vb bl br =>
              rw [rootA_node] at hcy
              have hbmem : b ∈ addrs (CTree.node b kb vb bl br) := by simp [addrs_node]
              obtain ⟨hbx, hby, hba⟩ := hfr_lry b hbmem
              have hreplry' : Rep w (some y) (CTree.node b kb vb bl br) := hreplry
              obtain ⟨⟨cb, hcb⟩, hrepbl, hrepbr⟩ := hreplry
              simp only [rightRotate, bind, Except.bind, pure, Except.pure, readN, addrOf,
                modifyN, setRoot, hcx, hcy, hca, hcb, hupd_self, hupd_other hyx,
                hupd_other hay, hupd_other hax, hupd_other hxy, hupd_other hya,
                hupd_other hxa', hupd_other hbx, hupd_other hby, hupd_other hba,
                hupd_other (Ne.symm hbx), hupd_other (Ne.symm hby), hupd_other (Ne.symm hba),
                rootA_nil, rootA_node, if_true, eq_self_iff_true, Except.ok.injEq] at hrun
              subst hrun
              refine ⟨CTree.node a k v l
                (CTree.node y ky vy lly (CTree.node x kx vx (CTree.node b kb vb bl br) rxs)),
                ⟨⟨c, by simp [rootA_nil, rootA_node, hupd_self, hupd_other hay,
                  hupd_other hax, hupd_other (Ne.symm hba)]⟩, ?_,
                 rep_rotR_sub
                   ⟨cx, by simp [rootA_nil, rootA_node, hupd_self, hupd_other (Ne.symm hbx)]⟩
                   ⟨cy, by simp [rootA_nil, rootA_node, hupd_self, hupd_other hyx,
                     hupd_other (Ne.symm hby)]⟩
                   ?_ ?_ ?_⟩,
                by simp [trip], rfl, ?_, rfl, rfl⟩
              · refine rep_frame (fun d hd => ?_) hrepl
                obtain ⟨h1, h2, h3⟩ := hfr_l d hd
                have hbr2 : b ∈ addrs (CTree.node x kx vx
                    (CTree.node y ky vy lly (CTree.node b kb vb bl br)) rxs) := by
                  simp [addrs_node, hbmem]
                have h4 : d ≠ b := fun he => (hdlr d hd) (by rw [he]; exact hbr2)
                simp [hupd_other h1, hupd_other h2, hupd_other h3, hupd_other h4]
              · refine rep_frame (fun d hd => ?_) hreplly
                obtain ⟨h1, h2, h3⟩ := hfr_lly d hd
                have h4 : d ≠ b := fun he => (hdllylry d hd) (by
                  rw [he]
                  simp [addrs_node, hbmem])
                simp [hupd_other h1, hupd_other h2, hupd_other h3, hupd_other h4]
              · refine rep_reparent hreplry' hndlry ?_ ?_
                · rintro a' k' v' l' r' heq
                  cases heq
                  exact ⟨cb, by simp [hupd_self, hupd_other hbx, hupd_other hby,
                    hupd_other hba]⟩
                · intro d hd hdne
                  have hdb : d ≠ b := fun he => hdne (by rw [he]; rfl)
                  obtain ⟨h1, h2, h3⟩ := hfr_lry d hd
                  simp [hupd_other h1, hupd_other h2, hupd_other h3, hupd_other hdb]
              · refine rep_frame (fun d hd => ?_) hreprx
                obtain ⟨h1, h2, h3⟩ := hfr_rxs d hd
                have hblxc : b ∈ addrs (CTree.node y ky vy lly (CTree.node b kb vb bl br)) := by
                  simp [addrs_node, hbmem]
                have h4 : d ≠ b := fun he => (hdlxcrxs b hblxc) (by rw [← he]; exact hd)
                simp [hupd_other h1, hupd_other h2, hupd_other h3, hupd_other h4]
              · intro d hd
                obtain ⟨h1, h2, h3⟩ := hout d hd
                have h4 : d ≠ b := fun he => hd (by
                  rw [he]
                  simp [mem_addrs_node, addrs_node])
                simp [hupd_other h1, hupd_other h2, hupd_other h3, hupd_other h4]
      · have hpout' : ∀ q, some a = some q → q ∉ addrs r := by
          rintro q hq
          cases hq
          exact har
        obtain ⟨r', hrepr', htrip, hroot', hframe, hnext, hmaps⟩ :=
          ihr (some a) hrepr hndr hxr hroot hpout'
        refine ⟨CTree.node a k v l r', ⟨⟨c, ?_⟩, ?_, hrepr'⟩, ?_, rfl, ?_, hnext, hmaps⟩
        · rw [hframe a har, hroot']
          exact hca
        · refine rep_frame (fun d hd => ?_) hrepl
          exact hframe d (hdlr d hd)
        · simp [trip, htrip]
        · intro d hdt
          refine hframe d (fun hdl => hdt ?_)
          simp [mem_addrs_node, hdl]

/-- Mirror of `leftRotate_pres` for `rightRotate`. -/
theorem rightRotate_pres {w w' : World} {mid x : Nat} {t : CTree}
    (hrw : RepW w mid t) (hx : x ∈ addrs t) (hrun : rightRotate w mid x = .ok w') :
    ∃ t', RepW w' mid t' ∧ trip t' = trip t ∧ w'.next = w.next ∧
      (∀ d, d ∉ addrs t → w'.heap d = w.heap d) ∧
      (∀ mid2, mid2 ≠ mid → lookupM w'.maps mid2 = lookupM w.maps mid2) ∧
      (∀ m0, lookupM w.maps mid = some m0 →
        ∃ m1, lookupM w'.maps mid = some m1 ∧ m1.tsize = m0.tsize) := by
  obtain ⟨m, hm, hmroot, hrep, hnd, hbelow⟩ := hrw
  by_cases hr : rootA t = some x
  · cases t with
    | nil => simp [rootA] at hr
    | node x0 kx vx lxc rxs =>
      simp only [rootA, Option.some.injEq] at hr
      replace hr := hr.symm
      subst hr
      rw [rootA_node] at hmroot
      obtain ⟨⟨cx, hcx⟩, hreplx, hreprx⟩ := hrep
      obtain ⟨hndlxc, hndrxs, hxlxc, hxrxs, hdlxcrxs⟩ := nodup_node_facts hnd
      cases lxc with
      | nil =>
        rw [rootA_nil] at hcx
        simp [rightRotate, bind, Except.bind, readN, addrOf, hcx] at hrun
      | node y ky vy lly lry =>
        rw [rootA_node] at hcx
        obtain ⟨⟨cy, hcy⟩, hreplly, hreplry⟩ := hreplx
        obtain ⟨hndlly, hndlry, hylly, hylry, hdllylry⟩ := nodup_node_facts hndlxc
        have hymem : y ∈ addrs (CTree.node y ky vy lly lry) := by simp [addrs_node]
        have hyx : y ≠ x := ne_of_mem_of_not_mem hymem hxlxc
        have hxy : x ≠ y := Ne.symm hyx
        have hfr_rxs : ∀ d ∈ addrs rxs, d ≠ x ∧ d ≠ y := by
          intro d hd
          exact ⟨ne_of_mem_of_not_mem hd hxrxs,
            fun he => (hdlxcrxs y hymem) (by rw [← he]; exact hd)⟩
        have hfr_lly : ∀ d ∈ addrs lly, d ≠ x ∧ d ≠ y := by
          intro d hd
          have hdin : d ∈ addrs (CTree.node y ky vy lly lry) := by simp [addrs_node, hd]
          exact ⟨ne_of_mem_of_not_mem hdin hxlxc, ne_of_mem_of_not_mem hd hylly⟩
        have hfr_lry : ∀ d ∈ addrs lry, d ≠ x ∧ d ≠ y := by
          intro d hd
          have hdin : d ∈ addrs (CTree.node y ky vy lly lry) := by simp [addrs_node, hd]
          exact ⟨ne_of_mem_of_not_mem hdin hxlxc, ne_of_mem_of_not_mem hd hylry⟩
        have hout : ∀ d, d ∉ addrs (CTree.node x kx vx (CTree.node y ky vy lly lry) rxs) →
            d ≠ x ∧ d ≠ y := by
          intro d hd
          refine ⟨fun he => hd ?_, fun he => hd ?_⟩ <;>
            simp [mem_addrs_node, addrs_node, he]
        have htrip_eq : trip (CTree.node y ky vy lly (CTree.node x kx vx lry rxs)) =
            trip (CTree.node x kx vx (CTree.node y ky vy lly lry) rxs) := by
          simp [trip]
        have haddr_eq : addrs (CTree.node y ky vy lly (CTree.node x kx vx lry rxs)) =
            addrs (CTree.node x kx vx (CTree.node y ky vy lly lry) rxs) := by
          simp [addrs, htrip_eq]
        cases lry with
        | nil =>
          rw [rootA_nil] at hcy
          simp only [rightRotate, bind, Except.bind, pure, Except.pure, readN, addrOf,
            modifyN, setRoot, getMap, setMap, hcx, hcy, hm, hupd_self, hupd_other hyx,
            hupd_other hxy, rootA_nil, rootA_node, if_true, eq_self_iff_true,
            Except.ok.injEq] at hrun
          subst hrun
          refine ⟨CTree.node y ky vy lly (CTree.node x kx vx CTree.nil rxs),
            ⟨{ m with root := some y }, ?_, rfl, ?_, ?_, ?_⟩,
            htrip_eq, rfl, ?_, ?_, ?_⟩
          · exact lookupM_updMaps_self w.maps mid _ m hm
          · refine rep_rotR_sub ⟨cx, by simp [rootA_nil, rootA_node, hupd_self]⟩
              ⟨cy, by simp [rootA_nil, rootA_node, hupd_self, hupd_other hyx]⟩ ?_ trivial ?_
            · refine rep_frame (fun d hd => ?_) hreplly
              obtain ⟨h1, h2⟩ := hfr_lly d hd
              simp [hupd_other h1, hupd_other h2]
            · refine rep_frame (fun d hd => ?_) hreprx
              obtain ⟨h1, h2⟩ := hfr_rxs d hd
              simp [hupd_other h1, hupd_other h2]
          · rw [haddr_eq]
            exact hnd
          · intro d hd
            rw [haddr_eq] at hd
            exact hbelow d hd
          · intro d hd
            obtain ⟨h1, h2⟩ := hout d hd
            simp [hupd_other h1, hupd_other h2]
          · intro mid2 hmid2
            exact lookupM_updMaps_other w.maps mid _ hmid2
          · intro m0 hm0
            have hm0m : m0 = m := by
              rw [hm0] at hm
              exact Option.some.inj hm
            subst hm0m
            exact ⟨{ m0 with root := some y },
              lookupM_updMaps_self w.maps mid _ m0 hm0, rfl⟩
        | node b kb vb bl br =>
          rw [rootA_node] at hcy
          have hbmem : b ∈ addrs (CTree.node b kb vb bl br) := by simp [addrs_node]
          obtain ⟨hbx, hby⟩ := hfr_lry b hbmem
          have hreplry' : Rep w (some y) (CTree.node b kb vb bl br) := hreplry
          obtain ⟨⟨cb, hcb⟩, hrepbl, hrepbr⟩ := hreplry
          simp only [rightRotate, bind, Except.bind, pure, Except.pure, readN, addrOf,
            modifyN, setRoot, getMap, setMap, hcx, hcy, hcb, hm, hupd_self,
            hupd_other hyx, hupd_other hxy, hupd_other hbx, hupd_other hby,
            hupd_other (Ne.symm hbx), hupd_other (Ne.symm hby), rootA_nil, rootA_node,
            if_true, eq_self_iff_true, Except.ok.injEq] at hrun
          subst hrun
          refine ⟨CTree.node y ky vy lly (CTree.node x kx vx (CTree.node b kb vb bl br) rxs),
            ⟨{ m with root := some y }, ?_, rfl, ?_, ?_, ?_⟩,
            htrip_eq, rfl, ?_, ?_, ?_⟩
          · exact lookupM_updMaps_self w.maps mid _ m hm
          · refine rep_rotR_sub
              ⟨cx, by simp [rootA_nil, rootA_node, hupd_self, hupd_other (Ne.symm hbx)]⟩
              ⟨cy, by simp [rootA_nil, rootA_node, hupd_self, hupd_other hyx,
                hupd_other (Ne.symm hby)]⟩ ?_ ?_ ?_
            · refine rep_frame (fun d hd => ?_) hreplly
              obtain ⟨h1, h2⟩ := hfr_lly d hd
              have h4 : d ≠ b := fun he => (hdllylry d hd) (by
                rw [he]
                simp [addrs_node, hbmem])
              simp [hupd_other h1, hupd_other h2, hupd_other h4]
            · refine rep_reparent hreplry' hndlry ?_ ?_
              · rintro a' k' v' l' r' heq
                cases heq
                exact ⟨cb, by simp [hupd_self, hupd_other hbx, hupd_other hby]⟩
              · intro d hd hdne
                have hdb : d ≠ b := fun he => hdne (by rw [he]; rfl)
                obtain ⟨h1, h2⟩ := hfr_lry d hd
                simp [hupd_other h1, hupd_other h2, hupd_other hdb]
            · refine rep_frame (fun d hd => ?_) hreprx
              obtain ⟨h1, h2⟩ := hfr_rxs d hd
              have hblxc : b ∈ addrs (CTree.node y ky vy lly (CTree.node b kb vb bl br)) := by
                simp [addrs_node, hbmem]
              have h4 : d ≠ b := fun he => (hdlxcrxs b hblxc) (by rw [← he]; exact hd)
              simp [hupd_other h1, hupd_other h2, hupd_other h4]
          · rw [haddr_eq]
            exact hnd
          · intro d hd
            rw [haddr_eq] at hd
            exact hbelow d hd
          · intro d hd
            obtain ⟨h1, h2⟩ := hout d hd
            have h4 : d ≠ b := fun he => hd (by
              rw [he]
              simp [mem_addrs_node, addrs_node])
            simp [hupd_other h1, hupd_other h2, hupd_other h4]
          · intro mid2 hmid2
            exact lookupM_updMaps_other w.maps mid _ hmid2
          · intro m0 hm0
            have hm0m : m0 = m := by
              rw [hm0] at hm
              exact Option.some.inj hm
            subst hm0m
            exact ⟨{ m0 with root := some y },
              lookupM_updMaps_self w.maps mid _ m0 hm0, rfl⟩
  · obtain ⟨t', hrep', htrip, hroot', hframe, hnext, hmaps⟩ :=
      rotR_aux hrun t none hrep hnd hx hr (fun q hq => by cases hq)
    have haddr : addrs t' = addrs t := by simp [addrs, htrip]
    refine ⟨t', ⟨m, by rw [hmaps]; exact hm, by rw [hroot']; exact hmroot, hrep', ?_, ?_⟩,
      htrip, hnext, hframe, fun mid2 _ => by rw [hmaps], fun m0 hm0 => ⟨m0, ?_, rfl⟩⟩
    · rw [haddr]
      exact hnd
    · intro d hd
      rw [haddr] at hd
      rw [hnext]
      exact hbelow d hd
    · rw [hmaps]
      exact hm0

theorem addrs_eq_of_trip {t t' : CTree} (h : trip t' = trip t) : addrs t' = addrs t := by
  simp [addrs, h]

theorem pres_refl {mid : Nat} {w : World} {t : CTree} (h : RepW w mid t) :
    Pres mid w t w t :=
  ⟨h, rfl, rfl, fun _ _ => rfl, fun _ _ => rfl, fun m0 hm0 => ⟨m0, hm0, rfl⟩⟩

theorem pres_trans {mid : Nat} {w w1 w2 : World} {t t1 t2 : CTree}
    (h1 : Pres mid w t w1 t1) (h2 : Pres mid w1 t1 w2 t2) : Pres mid w t w2 t2 := by
  obtain ⟨hrw1, htr1, hn1, hf1, ho1, hs1⟩ := h1
  obtain ⟨hrw2, htr2, hn2, hf2, ho2, hs2⟩ := h2
  have haddr : addrs t1 = addrs t := addrs_eq_of_trip htr1
  refine ⟨hrw2, htr2.trans htr1, hn2.trans hn1, ?_, ?_, ?_⟩
  · intro d hd
    rw [hf2 d (by rw [haddr]; exact hd)]
    exact hf1 d hd
  · intro mid2 hmid2
    rw [ho2 mid2 hmid2]
    exact ho1 mid2 hmid2
  · intro m0 hm0
    obtain ⟨m1, hm1, he1⟩ := hs1 m0 hm0
    obtain ⟨m2, hm2, he2⟩ := hs2 m1 hm1
    exact ⟨m2, hm2, he2.trans he1⟩

/-- Colour-only cell updates preserve the representation exactly. -/
theorem pres_recolor {mid : Nat} {w w' : World} {t : CTree} {a : Addr} {c0 : Bool}
    (hrw : RepW w mid t) (ha : a ∈ addrs t)
    (hrun : modifyN w a (fun n => { n with color := c0 }) = .ok w') :
    Pres mid w t w' t := by
  obtain ⟨m, hm, hmroot, hrep, hnd, hbelow⟩ := hrw
  simp only [modifyN, bind] at hrun
  rw [except_bind_ok] at hrun
  obtain ⟨n, hn, hrun⟩ := hrun
  simp only [pure, Except.pure, Except.ok.injEq] at hrun
  subst hrun
  simp only [readN] at hn
  have hheap : ∀ d, d ≠ a → hupd w.heap a (some { n with color := c0 }) d = w.heap d :=
    fun d hd => hupd_other hd
  refine ⟨⟨m, hm, hmroot, ?_, hnd, hbelow⟩, rfl, rfl, fun d hd =>
    hheap d (fun he => hd (he ▸ ha)), fun _ _ => rfl, fun m0 hm0 => ⟨m0, hm0, rfl⟩⟩
  refine rep_recolor (fun d hd => ?_) hrep
  by_cases hda : d = a
  · subst hda
    cases hw : w.heap d with
    | none => rw [hw] at hn; exact absurd hn (by simp)
    | some n0 =>
      rw [hw] at hn
      have : n0 = n := by
        simpa using hn
      subst this
      exact Or.inr ⟨n0, c0, rfl, by simp [hupd_self]⟩
  · exact Or.inl (hupd_other hda)

/-- `leftRotate_pres` repackaged as a `Pres` step. -/
theorem leftRotate_presP {w w' : World} {mid x : Nat} {t : CTree}
    (hrw : RepW w mid t) (hx : x ∈ addrs t) (hrun : leftRotate w mid x = .ok w') :
    ∃ t', Pres mid w t w' t' := by
  obtain ⟨t', h1, h2, h3, h4, h5, h6⟩ := leftRotate_pres hrw hx hrun
  exact ⟨t', h1, h2, h3, h4, h5, h6⟩

/-- `rightRotate_pres` repackaged as a `Pres` step. -/
theorem rightRotate_presP {w w' : World} {mid x : Nat} {t : CTree}
    (hrw : RepW w mid t) (hx : x ∈ addrs t) (hrun : rightRotate w mid x = .ok w') :
    ∃ t', Pres mid w t w' t' := by
  obtain ⟨t', h1, h2, h3, h4, h5, h6⟩ := rightRotate_pres hrw hx hrun
  exact ⟨t', h1, h2, h3, h4, h5, h6⟩

/-- The trailing `root->color = false` preserves the representation. -/
theorem fixInsertDone_pres {w w' : World} {mid : Nat} {t : CTree}
    (hrw : RepW w mid t) (hrun : fixInsertDone w mid = .ok w') :
    Pres mid w t w' t := by
  obtain ⟨m, hm, hmroot, hrep, hnd, hbelow⟩ := hrw
  simp only [fixInsertDone, bind, getMap, hm] at hrun
  rw [except_bind_ok] at hrun
  obtain ⟨m2, hm2, hrun⟩ := hrun
  simp only [Except.ok.injEq] at hm2
  subst hm2
  rw [except_bind_ok] at hrun
  obtain ⟨rt, hrt, hrun⟩ := hrun
  have hsome : m.root = some rt := by
    cases hmr : m.root with
    | none => rw [hmr] at hrt; simp [addrOf] at hrt
    | some r0 =>
      rw [hmr] at hrt
      simp only [addrOf, Except.ok.injEq] at hrt
      rw [hrt]
  have hrtmem : rt ∈ addrs t := rootA_mem (by rw [← hmroot]; exact hsome)
  exact pres_recolor ⟨m, hm, hmroot, hrep, hnd, hbelow⟩ hrtmem hrun


theorem ebind_pure {α β : Type} (a : α) (k : α → Except Err β) :
    Except.bind (.ok a) k = k a := rfl

theorem except_bind_assoc {α β γ : Type} (e : Except Err α) (k1 : α → Except Err β)
    (k2 : β → Except Err γ) :
    Except.bind (Except.bind e k1) k2 = Except.bind e fun a => Except.bind (k1 a) k2 := by
  cases e <;> rfl

theorem readN_inv {w : World} {a : Addr} {n : Node} (h : readN w (some a) = .ok n) :
    w.heap a = some n := by
  simp only [readN] at h
  cases hw : w.heap a with
  | none => rw [hw] at h; exact absurd h (by simp)
  | some n0 =>
    rw [hw] at h
    simp only [Except.ok.injEq] at h
    rw [h]

theorem addrOf_inv {o : Option Addr} {a : Addr} (h : addrOf o = .ok a) : o = some a := by
  cases o with
  | none => simp [addrOf] at h
  | some b =>
    simp only [addrOf, Except.ok.injEq] at h
    rw [h]

theorem repW_cell {w : World} {mid : Nat} {t : CTree} (h : RepW w mid t)
    {x : Addr} (hx : x ∈ addrs t) :
    ∃ n : Node, w.heap x = some n ∧
      (∀ b, n.left = some b → b ∈ addrs t) ∧
      (∀ b, n.right = some b → b ∈ addrs t) ∧
      (∀ b, n.parent = some b → b ∈ addrs t) := by
  obtain ⟨m, hm, hmroot, hrep, hnd, hbelow⟩ := h
  obtain ⟨n, hn, h1, h2, h3⟩ := rep_cell hrep hx
  refine ⟨n, hn, h1, h2, fun b hb => ?_⟩
  rcases h3 b hb with h | ⟨h, _⟩
  · exact h
  · exact absurd h (by simp)

/-- Membership transfer along the `z = z->parent` pointer chase. -/
theorem read_parent_mem {w : World} {mid : Nat} {t : CTree} {z : Addr} {n : Node} {p : Addr}
    (hrw : RepW w mid t) (hz : z ∈ addrs t)
    (hn : readN w (some z) = .ok n) (hp : addrOf n.parent = .ok p) : p ∈ addrs t := by
  obtain ⟨n0, hn0, h1, h2, h3⟩ := repW_cell hrw hz
  have hh := readN_inv hn
  rw [hn0] at hh
  have : n0 = n := by simpa using hh
  subst this
  exact h3 p (addrOf_inv hp)

/-- Membership transfer along a `left` child pointer. -/
theorem read_left_mem {w : World} {mid : Nat} {t : CTree} {z : Addr} {n : Node} {b : Addr}
    (hrw : RepW w mid t) (hz : z ∈ addrs t)
    (hn : readN w (some z) = .ok n) (hb : n.left = some b) : b ∈ addrs t := by
  obtain ⟨n0, hn0, h1, h2, h3⟩ := repW_cell hrw hz
  have hh := readN_inv hn
  rw [hn0] at hh
  have : n0 = n := by simpa using hh
  subst this
  exact h1 b hb

/-- Membership transfer along a `right` child pointer. -/
theorem read_right_mem {w : World} {mid : Nat} {t : CTree} {z : Addr} {n : Node} {b : Addr}
    (hrw : RepW w mid t) (hz : z ∈ addrs t)
    (hn : readN w (some z) = .ok n) (hb : n.right = some b) : b ∈ addrs t := by
  obtain ⟨n0, hn0, h1, h2, h3⟩ := repW_cell hrw hz
  have hh := readN_inv hn
  rw [hn0] at hh
  have : n0 = n := by simpa using hh
  subst this
  exact h2 b hb

/-- The `fixInsert` loop only recolours and rotates, so it preserves the
representation, the in-order triples, and everything outside the tree. -/
theorem fixInsertGo_pres : ∀ (fuel : Nat) {w w' : World} {mid z : Nat} {t : CTree},
    RepW w mid t → z ∈ addrs t → fixInsertGo w mid z fuel = .ok w' →
    ∃ t', Pres mid w t w' t' := by
  intro fuel
  induction fuel with
  | zero =>
    intro w w' mid z t _ _ hrun
    simp [fixInsertGo] at hrun
  | succ f ih =>
    intro w w' mid z t hrw hz hrun
    obtain ⟨m, hm, hmroot, hrep, hnd, hbelow⟩ := hrw
    have hrw' : RepW w mid t := ⟨m, hm, hmroot, hrep, hnd, hbelow⟩
    simp only [fixInsertGo, bind, getMap, hm, except_bind_assoc, ebind_pure, pure,
      Except.pure] at hrun
    by_cases hzr : some z = m.root
    · rw [if_pos hzr] at hrun
      exact ⟨t, fixInsertDone_pres hrw' hrun⟩
    · rw [if_neg hzr] at hrun
      rw [except_bind_ok] at hrun
      obtain ⟨nz, hnz, hrun⟩ := hrun
      replace hnz := readN_inv hnz
      obtain ⟨nz0, hnz0, hlz, hrz, hpz⟩ := repW_cell hrw' hz
      rw [hnz0] at hnz
      have hnzeq : nz0 = nz := by simpa using hnz
      subst hnzeq
      rw [except_bind_ok] at hrun
      obtain ⟨np, hnp, hrun⟩ := hrun
      have hpz' : ∃ p0, nz0.parent = some p0 := by
        cases hc : nz0.parent with
        | none => rw [hc] at hnp; simp [readN] at hnp
        | some p0 => exact ⟨p0, rfl⟩
      obtain ⟨p0, hp0⟩ := hpz'
      have hp0mem : p0 ∈ addrs t := hpz p0 hp0
      rw [hp0] at hnp
      replace hnp := readN_inv hnp
      obtain ⟨np0, hnp0, hlp, hrp, hpp⟩ := repW_cell hrw' hp0mem
      rw [hnp0] at hnp
      have hnpeq : np0 = np := by simpa using hnp
      subst hnpeq
      by_cases hcol : np0.color = false
      · rw [if_pos hcol] at hrun
        exact ⟨t, fixInsertDone_pres hrw' hrun⟩
      · rw [if_neg hcol] at hrun
        rw [except_bind_ok] at hrun
        obtain ⟨p1, hp1, hrun⟩ := hrun
        replace hp1 := addrOf_inv hp1
        rw [hp0] at hp1
        have hp1eq : p1 = p0 := by simpa using hp1.symm
        subst hp1eq
        rw [except_bind_ok] at hrun
        obtain ⟨g, hg, hrun⟩ := hrun
        replace hg := addrOf_inv hg
        have hgmem : g ∈ addrs t := hpp g hg
        rw [except_bind_ok] at hrun
        obtain ⟨ng, hng, hrun⟩ := hrun
        replace hng := readN_inv hng
        obtain ⟨ng0, hng0, hlg, hrg, hpg⟩ := repW_cell hrw' hgmem
        rw [hng0] at hng
        have hngeq : ng0 = ng := by simpa using hng
        subst hngeq
        by_cases hside : some p1 = ng0.left
        · rw [if_pos hside] at hrun
          cases hur : ng0.right with
          | some u =>
            rw [hur] at hrun
            simp only [except_bind_assoc, ebind_pure, pure, Except.pure] at hrun
            rw [except_bind_ok] at hrun
            obtain ⟨nu, hnu, hrun⟩ := hrun
            have humem : u ∈ addrs t := hrg u hur
            by_cases hu : nu.color = true
            · rw [hu] at hrun
              rw [if_pos rfl] at hrun
              rw [except_bind_ok] at hrun
              obtain ⟨u1, hu1, hrun⟩ := hrun
              replace hu1 := addrOf_inv hu1
              have : u1 = u := by simpa using hu1.symm
              subst this
              rw [except_bind_ok] at hrun
              obtain ⟨w1, hw1, hrun⟩ := hrun
              have pres1 := pres_recolor hrw' hp0mem hw1
              rw [except_bind_ok] at hrun
              obtain ⟨w2, hw2, hrun⟩ := hrun
              have pres2 := pres_recolor pres1.1 humem hw2
              rw [except_bind_ok] at hrun
              obtain ⟨w3, hw3, hrun⟩ := hrun
              have pres3 := pres_recolor pres2.1 hgmem hw3
              obtain ⟨t4, pres4⟩ := ih pres3.1 hgmem hrun
              exact ⟨t4, pres_trans (pres_trans (pres_trans pres1 pres2) pres3) pres4⟩
            · rw [if_neg hu] at hrun
              by_cases hz2 : some z = np0.right
              · rw [if_pos hz2] at hrun
                rw [except_bind_ok] at hrun
                obtain ⟨wr, hwr, hrun⟩ := hrun
                obtain ⟨tr, presr⟩ := leftRotate_presP hrw' hp0mem hwr
                have haddr1 : addrs tr = addrs t := addrs_eq_of_trip presr.2.1
                have hzc : p1 ∈ addrs tr := by rw [haddr1]; exact hp0mem
                rw [except_bind_ok] at hrun
                obtain ⟨n1, hn1, hrun⟩ := hrun
                rw [except_bind_ok] at hrun
                obtain ⟨q1, hq1, hrun⟩ := hrun
                have hq1mem : q1 ∈ addrs tr := read_parent_mem presr.1 hzc hn1 hq1
                rw [except_bind_ok] at hrun
                obtain ⟨w2, hw2, hrun⟩ := hrun
                have pres2 := pres_recolor presr.1 hq1mem hw2
                rw [except_bind_ok] at hrun
                obtain ⟨n2, hn2, hrun⟩ := hrun
                rw [except_bind_ok] at hrun
                obtain ⟨q2, hq2, hrun⟩ := hrun
                have hq2mem : q2 ∈ addrs tr := read_parent_mem pres2.1 hzc hn2 hq2
                rw [except_bind_ok] at hrun
                obtain ⟨n3, hn3, hrun⟩ := hrun
                rw [except_bind_ok] at hrun
                obtain ⟨g3, hg3, hrun⟩ := hrun
                have hg3mem : g3 ∈ addrs tr := read_parent_mem pres2.1 hq2mem hn3 hg3
                rw [except_bind_ok] at hrun
                obtain ⟨w3, hw3, hrun⟩ := hrun
                have pres3 := pres_recolor pres2.1 hg3mem hw3
                rw [except_bind_ok] at hrun
                obtain ⟨n4, hn4, hrun⟩ := hrun
                rw [except_bind_ok] at hrun
                obtain ⟨q4, hq4, hrun⟩ := hrun
                have hq4mem : q4 ∈ addrs tr := read_parent_mem pres3.1 hzc hn4 hq4
                rw [except_bind_ok] at hrun
                obtain ⟨n5, hn5, hrun⟩ := hrun
                rw [except_bind_ok] at hrun
                obtain ⟨g4, hg4, hrun⟩ := hrun
                have hg4mem : g4 ∈ addrs tr := read_parent_mem pres3.1 hq4mem hn5 hg4
                rw [except_bind_ok] at hrun
                obtain ⟨w4, hw4, hrun⟩ := hrun
                obtain ⟨t2, pres4⟩ := rightRotate_presP pres3.1 hg4mem hw4
                have haddr2 : addrs t2 = addrs tr := addrs_eq_of_trip pres4.2.1
                obtain ⟨t3, pres5⟩ := ih pres4.1 (by rw [haddr2]; exact hzc) hrun
                exact ⟨t3, pres_trans presr (pres_trans (pres_trans (pres_trans pres2 pres3) pres4) pres5)⟩
              · rw [if_neg hz2] at hrun
                have presr := pres_refl hrw'
                rw [except_bind_ok] at hrun
                obtain ⟨n1, hn1, hrun⟩ := hrun
                rw [except_bind_ok] at hrun
                obtain ⟨q1, hq1, hrun⟩ := hrun
                have hq1mem : q1 ∈ addrs t := read_parent_mem presr.1 hz hn1 hq1
                rw [except_bind_ok] at hrun
                obtain ⟨w2, hw2, hrun⟩ := hrun
                have pres2 := pres_recolor presr.1 hq1mem hw2
                rw [except_bind_ok] at hrun
                obtain ⟨n2, hn2, hrun⟩ := hrun
                rw [except_bind_ok] at hrun
                obtain ⟨q2, hq2, hrun⟩ := hrun
                have hq2mem : q2 ∈ addrs t := read_parent_mem pres2.1 hz hn2 hq2
                rw [except_bind_ok] at hrun
                obtain ⟨n3, hn3, hrun⟩ := hrun
                rw [except_bind_ok] at hrun
                obtain ⟨g3, hg3, hrun⟩ := hrun
                have hg3mem : g3 ∈ addrs t := read_parent_mem pres2.1 hq2mem hn3 hg3
                rw [except_bind_ok] at hrun
                obtain ⟨w3, hw3, hrun⟩ := hrun
                have pres3 := pres_recolor pres2.1 hg3mem hw3
                rw [except_bind_ok] at hrun
                obtain ⟨n4, hn4, hrun⟩ := hrun
                rw [except_bind_ok] at hrun
                obtain ⟨q4, hq4, hrun⟩ := hrun
                have hq4mem : q4 ∈ addrs t := read_parent_mem pres3.1 hz hn4 hq4
                rw [except_bind_ok] at hrun
                obtain ⟨n5, hn5, hrun⟩ := hrun
                rw [except_bind_ok] at hrun
                obtain ⟨g4, hg4, hrun⟩ := hrun
                have hg4mem : g4 ∈ addrs t := read_parent_mem pres3.1 hq4mem hn5 hg4
                rw [except_bind_ok] at hrun
                obtain ⟨w4, hw4, hrun⟩ := hrun
                obtain ⟨t2, pres4⟩ := rightRotate_presP pres3.1 hg4mem hw4
                have haddr2 : addrs t2 = addrs t := addrs_eq_of_trip pres4.2.1
                obtain ⟨t3, pres5⟩ := ih pres4.1 (by rw [haddr2]; exact hz) hrun
                exact ⟨t3, pres_trans presr (pres_trans (pres_trans (pres_trans pres2 pres3) pres4) pres5)⟩
          | none =>
            rw [hur] at hrun
            simp only [except_bind_assoc, ebind_pure, pure, Except.pure] at hrun
            rw [if_neg (by simp)] at hrun
            by_cases hz2 : some z = np0.right
            · rw [if_pos hz2] at hrun
              rw [except_bind_ok] at hrun
              obtain ⟨wr, hwr, hrun⟩ := hrun
              obtain ⟨tr, presr⟩ := leftRotate_presP hrw' hp0mem hwr
              have haddr1 : addrs tr = addrs t := addrs_eq_of_trip presr.2.1
              have hzc : p1 ∈ addrs tr := by rw [haddr1]; exact hp0mem
              rw [except_bind_ok] at hrun
              obtain ⟨n1, hn1, hrun⟩ := hrun
              rw [except_bind_ok] at hrun
              obtain ⟨q1, hq1, hrun⟩ := hrun
              have hq1mem : q1 ∈ addrs tr := read_parent_mem presr.1 hzc hn1 hq1
              rw [except_bind_ok] at hrun
              obtain ⟨w2, hw2, hrun⟩ := hrun
              have pres2 := pres_recolor presr.1 hq1mem hw2
              rw [except_bind_ok] at hrun
              obtain ⟨n2, hn2, hrun⟩ := hrun
              rw [except_bind_ok] at hrun
              obtain ⟨q2, hq2, hrun⟩ := hrun
              have hq2mem : q2 ∈ addrs tr := read_parent_mem pres2.1 hzc hn2 hq2
              rw [except_bind_ok] at hrun
              obtain ⟨n3, hn3, hrun⟩ := hrun
              rw [except_bind_ok] at hrun
              obtain ⟨g3, hg3, hrun⟩ := hrun
              have hg3mem : g3 ∈ addrs tr := read_parent_mem pres2.1 hq2mem hn3 hg3
              rw [except_bind_ok] at hrun
              obtain ⟨w3, hw3, hrun⟩ := hrun
              have pres3 := pres_recolor pres2.1 hg3mem hw3
              rw [except_bind_ok] at hrun
              obtain ⟨n4, hn4, hrun⟩ := hrun
              rw [except_bind_ok] at hrun
              obtain ⟨q4, hq4, hrun⟩ := hrun
              have hq4mem : q4 ∈ addrs tr := read_parent_mem pres3.1 hzc hn4 hq4
              rw [except_bind_ok] at hrun
              obtain ⟨n5, hn5, hrun⟩ := hrun
              rw [except_bind_ok] at hrun
              obtain ⟨g4, hg4, hrun⟩ := hrun
              have hg4mem : g4 ∈ addrs tr := read_parent_mem pres3.1 hq4mem hn5 hg4
              rw [except_bind_ok] at hrun
              obtain ⟨w4, hw4, hrun⟩ := hrun
              obtain ⟨t2, pres4⟩ := rightRotate_presP pres3.1 hg4mem hw4
              have haddr2 : addrs t2 = addrs tr := addrs_eq_of_trip pres4.2.1
              obtain ⟨t3, pres5⟩ := ih pres4.1 (by rw [haddr2]; exact hzc) hrun
              exact ⟨t3, pres_trans presr (pres_trans (pres_trans (pres_trans pres2 pres3) pres4) pres5)⟩
            · rw [if_neg hz2] at hrun
              have presr := pres_refl hrw'
              rw [except_bind_ok] at hrun
              obtain ⟨n1, hn1, hrun⟩ := hrun
              rw [except_bind_ok] at hrun
              obtain ⟨q1, hq1, hrun⟩ := hrun
              have hq1mem : q1 ∈ addrs t := read_parent_mem presr.1 hz hn1 hq1
              rw [except_bind_ok] at hrun
              obtain ⟨w2, hw2, hrun⟩ := hrun
              have pres2 := pres_recolor presr.1 hq1mem hw2
              rw [except_bind_ok] at hrun
              obtain ⟨n2, hn2, hrun⟩ := hrun
              rw [except_bind_ok] at hrun
              obtain ⟨q2, hq2, hrun⟩ := hrun
              have hq2mem : q2 ∈ addrs t := read_parent_mem pres2.1 hz hn2 hq2
              rw [except_bind_ok] at hrun
              obtain ⟨n3, hn3, hrun⟩ := hrun
              rw [except_bind_ok] at hrun
              obtain ⟨g3, hg3, hrun⟩ := hrun
              have hg3mem : g3 ∈ addrs t := read_parent_mem pres2.1 hq2mem hn3 hg3
              rw [except_bind_ok] at hrun
              obtain ⟨w3, hw3, hrun⟩ := hrun
              have pres3 := pres_recolor pres2.1 hg3mem hw3
              rw [except_bind_ok] at hrun
              obtain ⟨n4, hn4, hrun⟩ := hrun
              rw [except_bind_ok] at hrun
              obtain ⟨q4, hq4, hrun⟩ := hrun
              have hq4mem : q4 ∈ addrs t := read_parent_mem pres3.1 hz hn4 hq4
              rw [except_bind_ok] at hrun
              obtain ⟨n5, hn5, hrun⟩ := hrun
              rw [except_bind_ok] at hrun
              obtain ⟨g4, hg4, hrun⟩ := hrun
              have hg4mem : g4 ∈ addrs t := read_parent_mem pres3.1 hq4mem hn5 hg4
              rw [except_bind_ok] at hrun
              obtain ⟨w4, hw4, hrun⟩ := hrun
              obtain ⟨t2, pres4⟩ := rightRotate_presP pres3.1 hg4mem hw4
              have haddr2 : addrs t2 = addrs t := addrs_eq_of_trip pres4.2.1
              obtain ⟨t3, pres5⟩ := ih pres4.1 (by rw [haddr2]; exact hz) hrun
              exact ⟨t3, pres_trans presr (pres_trans (pres_trans (pres_trans pres2 pres3) pres4) pres5)⟩
        · rw [if_neg hside] at hrun
          cases hur : ng0.left with
          | some u =>
            rw [hur] at hrun
            simp only [except_bind_assoc, ebind_pure, pure, Except.pure] at hrun
            rw [except_bind_ok] at hrun
            obtain ⟨nu, hnu, hrun⟩ := hrun
            have humem : u ∈ addrs t := hlg u hur
            by_cases hu : nu.color = true
            · rw [hu] at hrun
              rw [if_pos rfl] at hrun
              rw [except_bind_ok] at hrun
              obtain ⟨u1, hu1, hrun⟩ := hrun
              replace hu1 := addrOf_inv hu1
              have : u1 = u := by simpa using hu1.symm
              subst this
              rw [except_bind_ok] at hrun
              obtain ⟨w1, hw1, hrun⟩ := hrun
              have pres1 := pres_recolor hrw' hp0mem hw1
              rw [except_bind_ok] at hrun
              obtain ⟨w2, hw2, hrun⟩ := hrun
              have pres2 := pres_recolor pres1.1 humem hw2
              rw [except_bind_ok] at hrun
              obtain ⟨w3, hw3, hrun⟩ := hrun
              have pres3 := pres_recolor pres2.1 hgmem hw3
              obtain ⟨t4, pres4⟩ := ih pres3.1 hgmem hrun
              exact ⟨t4, pres_trans (pres_trans (pres_trans pres1 pres2) pres3) pres4⟩
            · rw [if_neg hu] at hrun
              by_cases hz2 : some z = np0.left
              · rw [if_pos hz2] at hrun
                rw [except_bind_ok] at hrun
                obtain ⟨wr, hwr, hrun⟩ := hrun
                obtain ⟨tr, presr⟩ := rightRotate_presP hrw' hp0mem hwr
                have haddr1 : addrs tr = addrs t := addrs_eq_of_trip presr.2.1
                have hzc : p1 ∈ addrs tr := by rw [haddr1]; exact hp0mem
                rw [except_bind_ok] at hrun
                obtain ⟨n1, hn1, hrun⟩ := hrun
                rw [except_bind_ok] at hrun
                obtain ⟨q1, hq1, hrun⟩ := hrun
                have hq1mem : q1 ∈ addrs tr := read_parent_mem presr.1 hzc hn1 hq1
                rw [except_bind_ok] at hrun
                obtain ⟨w2, hw2, hrun⟩ := hrun
                have pres2 := pres_recolor presr.1 hq1mem hw2
                rw [except_bind_ok] at hrun
                obtain ⟨n2, hn2, hrun⟩ := hrun
                rw [except_bind_ok] at hrun
                obtain ⟨q2, hq2, hrun⟩ := hrun
                have hq2mem : q2 ∈ addrs tr := read_parent_mem pres2.1 hzc hn2 hq2
                rw [except_bind_ok] at hrun
                obtain ⟨n3, hn3, hrun⟩ := hrun
                rw [except_bind_ok] at hrun
                obtain ⟨g3, hg3, hrun⟩ := hrun
                have hg3mem : g3 ∈ addrs tr := read_parent_mem pres2.1 hq2mem hn3 hg3
                rw [except_bind_ok] at hrun
                obtain ⟨w3, hw3, hrun⟩ := hrun
                have pres3 := pres_recolor pres2.1 hg3mem hw3
                rw [except_bind_ok] at hrun
                obtain ⟨n4, hn4, hrun⟩ := hrun
                rw [except_bind_ok] at hrun
                obtain ⟨q4, hq4, hrun⟩ := hrun
                have hq4mem : q4 ∈ addrs tr := read_parent_mem pres3.1 hzc hn4 hq4
                rw [except_bind_ok] at hrun
                obtain ⟨n5, hn5, hrun⟩ := hrun
                rw [except_bind_ok] at hrun
                obtain ⟨g4, hg4, hrun⟩ := hrun
                have hg4mem : g4 ∈ addrs tr := read_parent_mem pres3.1 hq4mem hn5 hg4
                rw [except_bind_ok] at hrun
                obtain ⟨w4, hw4, hrun⟩ := hrun
                obtain ⟨t2, pres4⟩ := leftRotate_presP pres3.1 hg4mem hw4
                have haddr2 : addrs t2 = addrs tr := addrs_eq_of_trip pres4.2.1
                obtain ⟨t3, pres5⟩ := ih pres4.1 (by rw [haddr2]; exact hzc) hrun
                exact ⟨t3, pres_trans presr (pres_trans (pres_trans (pres_trans pres2 pres3) pres4) pres5)⟩
              · rw [if_neg hz2] at hrun
                have presr := pres_refl hrw'
                rw [except_bind_ok] at hrun
                obtain ⟨n1, hn1, hrun⟩ := hrun
                rw [except_bind_ok] at hrun
                obtain ⟨q1, hq1, hrun⟩ := hrun
                have hq1mem : q1 ∈ addrs t := read_parent_mem presr.1 hz hn1 hq1
                rw [except_bind_ok] at hrun
                obtain ⟨w2, hw2, hrun⟩ := hrun
                have pres2 := pres_recolor presr.1 hq1mem hw2
                rw [except_bind_ok] at hrun
                obtain ⟨n2, hn2, hrun⟩ := hrun
                rw [except_bind_ok] at hrun
                obtain ⟨q2, hq2, hrun⟩ := hrun
                have hq2mem : q2 ∈ addrs t := read_parent_mem pres2.1 hz hn2 hq2
                rw [except_bind_ok] at hrun
                obtain ⟨n3, hn3, hrun⟩ := hrun
                rw [except_bind_ok] at hrun
                obtain ⟨g3, hg3, hrun⟩ := hrun
                have hg3mem : g3 ∈ addrs t := read_parent_mem pres2.1 hq2mem hn3 hg3
                rw [except_bind_ok] at hrun
                obtain ⟨w3, hw3, hrun⟩ := hrun
                have pres3 := pres_recolor pres2.1 hg3mem hw3
                rw [except_bind_ok] at hrun
                obtain ⟨n4, hn4, hrun⟩ := hrun
                rw [except_bind_ok] at hrun
                obtain ⟨q4, hq4, hrun⟩ := hrun
                have hq4mem : q4 ∈ addrs t := read_parent_mem pres3.1 hz hn4 hq4
                rw [except_bind_ok] at hrun
                obtain ⟨n5, hn5, hrun⟩ := hrun
                rw [except_bind_ok] at hrun
                obtain ⟨g4, hg4, hrun⟩ := hrun
                have hg4mem : g4 ∈ addrs t := read_parent_mem pres3.1 hq4mem hn5 hg4
                rw [except_bind_ok] at hrun
                obtain ⟨w4, hw4, hrun⟩ := hrun
                obtain ⟨t2, pres4⟩ := leftRotate_presP pres3.1 hg4mem hw4
                have haddr2 : addrs t2 = addrs t := addrs_eq_of_trip pres4.2.1
                obtain ⟨t3, pres5⟩ := ih pres4.1 (by rw [haddr2]; exact hz) hrun
                exact ⟨t3, pres_trans presr (pres_trans (pres_trans (pres_trans pres2 pres3) pres4) pres5)⟩
          | none =>
            rw [hur] at hrun
            simp only [except_bind_assoc, ebind_pure, pure, Except.pure] at hrun
            rw [if_neg (by simp)] at hrun
            by_cases hz2 : some z = np0.left
            · rw [if_pos hz2] at hrun
              rw [except_bind_ok] at hrun
              obtain ⟨wr, hwr, hrun⟩ := hrun
              obtain ⟨tr, presr⟩ := rightRotate_presP hrw' hp0mem hwr
              have haddr1 : addrs tr = addrs t := addrs_eq_of_trip presr.2.1
              have hzc : p1 ∈ addrs tr := by rw [haddr1]; exact hp0mem
              rw [except_bind_ok] at hrun
              obtain ⟨n1, hn1, hrun⟩ := hrun
              rw [except_bind_ok] at hrun
              obtain ⟨q1, hq1, hrun⟩ := hrun
              have hq1mem : q1 ∈ addrs tr := read_parent_mem presr.1 hzc hn1 hq1
              rw [except_bind_ok] at hrun
              obtain ⟨w2, hw2, hrun⟩ := hrun
              have pres2 := pres_recolor presr.1 hq1mem hw2
              rw [except_bind_ok] at hrun
              obtain ⟨n2, hn2, hrun⟩ := hrun
              rw [except_bind_ok] at hrun
              obtain ⟨q2, hq2, hrun⟩ := hrun
              have hq2mem : q2 ∈ addrs tr := read_parent_mem pres2.1 hzc hn2 hq2
              rw [except_bind_ok] at hrun
              obtain ⟨n3, hn3, hrun⟩ := hrun
              rw [except_bind_ok] at hrun
              obtain ⟨g3, hg3, hrun⟩ := hrun
              have hg3mem : g3 ∈ addrs tr := read_parent_mem pres2.1 hq2mem hn3 hg3
              rw [except_bind_ok] at hrun
              obtain ⟨w3, hw3, hrun⟩ := hrun
              have pres3 := pres_recolor pres2.1 hg3mem hw3
              rw [except_bind_ok] at hrun
              obtain ⟨n4, hn4, hrun⟩ := hrun
              rw [except_bind_ok] at hrun
              obtain ⟨q4, hq4, hrun⟩ := hrun
              have hq4mem : q4 ∈ addrs tr := read_parent_mem pres3.1 hzc hn4 hq4
              rw [except_bind_ok] at hrun
              obtain ⟨n5, hn5, hrun⟩ := hrun
              rw [except_bind_ok] at hrun
              obtain ⟨g4, hg4, hrun⟩ := hrun
              have hg4mem : g4 ∈ addrs tr := read_parent_mem pres3.1 hq4mem hn5 hg4
              rw [except_bind_ok] at hrun
              obtain ⟨w4, hw4, hrun⟩ := hrun
              obtain ⟨t2, pres4⟩ := leftRotate_presP pres3.1 hg4mem hw4
              have haddr2 : addrs t2 = addrs tr := addrs_eq_of_trip pres4.2.1
              obtain ⟨t3, pres5⟩ := ih pres4.1 (by rw [haddr2]; exact hzc) hrun
              exact ⟨t3, pres_trans presr (pres_trans (pres_trans (pres_trans pres2 pres3) pres4) pres5)⟩
            · rw [if_neg hz2] at hrun
              have presr := pres_refl hrw'
              rw [except_bind_ok] at hrun
              obtain ⟨n1, hn1, hrun⟩ := hrun
              rw [except_bind_ok] at hrun
              obtain ⟨q1, hq1, hrun⟩ := hrun
              have hq1mem : q1 ∈ addrs t := read_parent_mem presr.1 hz hn1 hq1
              rw [except_bind_ok] at hrun
              obtain ⟨w2, hw2, hrun⟩ := hrun
              have pres2 := pres_recolor presr.1 hq1mem hw2
              rw [except_bind_ok] at hrun
              obtain ⟨n2, hn2, hrun⟩ := hrun
              rw [except_bind_ok] at hrun
              obtain ⟨q2, hq2, hrun⟩ := hrun
              have hq2mem : q2 ∈ addrs t := read_parent_mem pres2.1 hz hn2 hq2
              rw [except_bind_ok] at hrun
              obtain ⟨n3, hn3, hrun⟩ := hrun
              rw [except_bind_ok] at hrun
              obtain ⟨g3, hg3, hrun⟩ := hrun
              have hg3mem : g3 ∈ addrs t := read_parent_mem pres2.1 hq2mem hn3 hg3
              rw [except_bind_ok] at hrun
              obtain ⟨w3, hw3, hrun⟩ := hrun
              have pres3 := pres_recolor pres2.1 hg3mem hw3
              rw [except_bind_ok] at hrun
              obtain ⟨n4, hn4, hrun⟩ := hrun
              rw [except_bind_ok] at hrun
              obtain ⟨q4, hq4, hrun⟩ := hrun
              have hq4mem : q4 ∈ addrs t := read_parent_mem pres3.1 hz hn4 hq4
              rw [except_bind_ok] at hrun
              obtain ⟨n5, hn5, hrun⟩ := hrun
              rw [except_bind_ok] at hrun
              obtain ⟨g4, hg4, hrun⟩ := hrun
              have hg4mem : g4 ∈ addrs t := read_parent_mem pres3.1 hq4mem hn5 hg4
              rw [except_bind_ok] at hrun
              obtain ⟨w4, hw4, hrun⟩ := hrun
              obtain ⟨t2, pres4⟩ := leftRotate_presP pres3.1 hg4mem hw4
              have haddr2 : addrs t2 = addrs t := addrs_eq_of_trip pres4.2.1
              obtain ⟨t3, pres5⟩ := ih pres4.1 (by rw [haddr2]; exact hz) hrun
              exact ⟨t3, pres_trans presr (pres_trans (pres_trans (pres_trans pres2 pres3) pres4) pres5)⟩


/-! Search correctness: the descent of `findNode` under the order invariant. -/

theorem mem_keysT {t : CTree} {k : Nat} :
    k ∈ keysT t ↔ ∃ p ∈ trip t, p.2.1 = k := by
  simp only [keysT, List.mem_map]

theorem sorted_node_iff {a : Addr} {k v : Nat} {l r : CTree} :
    List.Sorted (· < ·) (keysT (.node a k v l r)) ↔
      List.Sorted (· < ·) (keysT l) ∧ List.Sorted (· < ·) (keysT r) ∧
      (∀ k1 ∈ keysT l, k1 < k) ∧ (∀ k2 ∈ keysT r, k < k2) := by
  rw [keysT_node]
  unfold List.Sorted
  rw [List.pairwise_append]
  simp only [List.pairwise_cons, List.mem_cons]
  constructor
  · rintro ⟨h1, ⟨h2, h3⟩, h4⟩
    exact ⟨h1, h3, fun k1 h => h4 k1 h k (Or.inl rfl), h2⟩
  · rintro ⟨h1, h2, h3, h4⟩
    refine ⟨h1, ⟨h4, h2⟩, fun k1 hk1 k2 hk2 => ?_⟩
    rcases hk2 with rfl | hk2
    · exact h3 k1 hk1
    · exact lt_trans (h3 k1 hk1) (h4 k2 hk2)

theorem findNodeGo_spec {w : World} {p : Option Addr} {t : CTree}
    (hrep : Rep w p t) (hsort : List.Sorted (· < ·) (keysT t)) (k : Nat) :
    ∀ fuel, tlen t + 1 ≤ fuel →
      (k ∈ keysT t → ∃ a v, findNodeGo w k (rootA t) fuel = .ok (some a) ∧ (a, k, v) ∈ trip t) ∧
      (k ∉ keysT t → findNodeGo w k (rootA t) fuel = .ok none) := by
  induction t generalizing p with
  | nil =>
    intro fuel hf
    obtain ⟨f, rfl⟩ : ∃ f, fuel = f + 1 := ⟨fuel - 1, by omega⟩
    constructor
    · intro hk
      simp [keysT, trip] at hk
    · intro _
      simp [rootA, findNodeGo]
  | node a k' v' l r ihl ihr =>
    intro fuel hf
    obtain ⟨f, rfl⟩ : ∃ f, fuel = f + 1 := ⟨fuel - 1, by omega⟩
    obtain ⟨⟨c, hc⟩, hl, hr⟩ := hrep
    rw [sorted_node_iff] at hsort
    obtain ⟨hsl, hsr, hbl, hbr⟩ := hsort
    have hflen : tlen l + 1 ≤ f ∧ tlen r + 1 ≤ f := by
      simp only [tlen, trip, List.length_append, List.length_cons] at hf ⊢
      omega
    have hknode : ∀ k0, k0 ∈ keysT (CTree.node a k' v' l r) ↔
        k0 ∈ keysT l ∨ k0 = k' ∨ k0 ∈ keysT r := by
      intro k0
      simp [keysT_node]
    have hrun : findNodeGo w k (rootA (CTree.node a k' v' l r)) (f + 1) =
        if k < k' then findNodeGo w k (rootA l) f
        else if k' < k then findNodeGo w k (rootA r) f
        else .ok (some a) := by
      simp [rootA, findNodeGo, readN, hc, bind, Except.bind]
    rcases Nat.lt_trichotomy k k' with hlt | heq | hgt
    · rw [hrun, if_pos hlt]
      constructor
      · intro hk
        rw [hknode] at hk
        have hkl : k ∈ keysT l := by
          rcases hk with h | h | h
          · exact h
          · omega
          · exact absurd (hbr k h) (by omega)
        obtain ⟨a0, v0, hrun0, hmem⟩ := (ihl hl hsl f hflen.1).1 hkl
        exact ⟨a0, v0, hrun0, by simp [trip, hmem]⟩
      · intro hk
        rw [hknode] at hk
        push_neg at hk
        exact (ihl hl hsl f hflen.1).2 hk.1
    · subst heq
      rw [hrun, if_neg (by omega), if_neg (by omega)]
      constructor
      · intro _
        exact ⟨a, v', rfl, by simp [trip]⟩
      · intro hk
        rw [hknode] at hk
        push_neg at hk
        exact absurd rfl hk.2.1
    · rw [hrun, if_neg (by omega), if_pos hgt]
      constructor
      · intro hk
        rw [hknode] at hk
        have hkr : k ∈ keysT r := by
          rcases hk with h | h | h
          · exact absurd (hbl k h) (by omega)
          · omega
          · exact h
        obtain ⟨a0, v0, hrun0, hmem⟩ := (ihr hr hsr f hflen.2).1 hkr
        exact ⟨a0, v0, hrun0, by simp [trip, hmem]⟩
      · intro hk
        rw [hknode] at hk
        push_neg at hk
        exact (ihr hr hsr f hflen.2).2 hk.2.2

/-- The descent loop of `insert` follows the descent of `findNode` step by
step: whenever `findNode` locates an equivalent key, the `insert` loop returns
the same existing node (before any allocation or mutation). -/
theorem insertGo_found {w : World} {k : Nat} :
    ∀ {fuel : Nat} {par cur : Option Addr} {a : Addr},
      findNodeGo w k cur fuel = .ok (some a) → insertGo w k par cur fuel = .ok (.inl a) := by
  intro fuel
  induction fuel with
  | zero => intro par cur a h; simp [findNodeGo] at h
  | succ f ih =>
    intro par cur a h
    cases cur with
    | none => simp [findNodeGo] at h
    | some cc =>
      simp only [findNodeGo, bind] at h
      rw [except_bind_ok] at h
      obtain ⟨n, hn, h⟩ := h
      simp only [insertGo, bind]
      rw [except_bind_ok]
      refine ⟨n, hn, ?_⟩
      by_cases h1 : k < n.key
      · rw [if_pos h1] at h
        rw [if_pos h1]
        exact ih h
      · rw [if_neg h1] at h
        rw [if_neg h1]
        by_cases h2 : n.key < k
        · rw [if_pos h2] at h
          rw [if_pos h2]
          exact ih h
        · rw [if_neg h2] at h
          rw [if_neg h2]
          cases h
          rfl

theorem keysT_nil : keysT .nil = [] := rfl

theorem trip_nil : trip .nil = [] := rfl

theorem trip_node (a : Addr) (k v : Nat) (l r : CTree) :
    trip (.node a k v l r) = trip l ++ (a, k, v) :: trip r := rfl

theorem mem_keysT_of_trip {t : CTree} {p : Addr × Nat × Nat} (h : p ∈ trip t) :
    p.2.1 ∈ keysT t := by
  simp only [keysT, List.mem_map]
  exact ⟨p, h, rfl⟩

/-- `insT` inserts the fresh triple at its sorted position in the in-order
triple list. -/
theorem trip_insT_split {k v newA : Nat} : ∀ {t : CTree},
    List.Sorted (· < ·) (keysT t) → k ∉ keysT t →
    ∃ l1 l2, trip t = l1 ++ l2 ∧ trip (insT newA k v t) = l1 ++ (newA, k, v) :: l2 ∧
      (∀ p ∈ l1, p.2.1 < k) ∧ (∀ p ∈ l2, k < p.2.1) := by
  intro t
  induction t with
  | nil =>
    intro _ _
    exact ⟨[], [], rfl, rfl, by simp, by simp⟩
  | node b k' v' l r ihl ihr =>
    intro hsort hk
    rw [sorted_node_iff] at hsort
    obtain ⟨hsl, hsr, hbl, hbr⟩ := hsort
    have hkparts : k ∉ keysT l ∧ k ≠ k' ∧ k ∉ keysT r := by
      constructor
      · intro h; exact hk (by simp [keysT_node, h])
      constructor
      · intro h; exact hk (by simp [keysT_node, h])
      · intro h; exact hk (by simp [keysT_node, h])
    rcases Nat.lt_trichotomy k k' with hlt | heq | hgt
    · obtain ⟨m1, m2, he1, he2, hb1, hb2⟩ := ihl hsl hkparts.1
      refine ⟨m1, m2 ++ (b, k', v') :: trip r, ?_, ?_, hb1, ?_⟩
      · rw [trip_node, he1, List.append_assoc]
      · show trip (if k < k' then CTree.node b k' v' (insT newA k v l) r
          else if k' < k then CTree.node b k' v' l (insT newA k v r)
          else CTree.node b k' v' l r) = _
        rw [if_pos hlt, trip_node, he2, List.append_assoc, List.cons_append]
      · intro p hp
        rcases List.mem_append.1 hp with h | h
        · exact hb2 p h
        · rcases List.mem_cons.1 h with h | h
          · rw [h]; exact hlt
          · exact lt_trans hlt (hbr _ (mem_keysT_of_trip h))
    · exact absurd heq hkparts.2.1
    · obtain ⟨m1, m2, he1, he2, hb1, hb2⟩ := ihr hsr hkparts.2.2
      refine ⟨trip l ++ (b, k', v') :: m1, m2, ?_, ?_, ?_, hb2⟩
      · rw [trip_node, he1, List.append_assoc, List.cons_append]
      · show trip (if k < k' then CTree.node b k' v' (insT newA k v l) r
          else if k' < k then CTree.node b k' v' l (insT newA k v r)
          else CTree.node b k' v' l r) = _
        rw [if_neg (by omega), if_pos hgt, trip_node, he2, List.append_assoc,
          List.cons_append]
      · intro p hp
        rcases List.mem_append.1 hp with h | h
        · exact lt_trans (hbl _ (mem_keysT_of_trip h)) hgt
        · rcases List.mem_cons.1 h with h | h
          · rw [h]; exact hgt
          · exact hb1 p h

theorem sorted_insT {k v newA : Nat} {t : CTree}
    (hsort : List.Sorted (· < ·) (keysT t)) (hk : k ∉ keysT t) :
    List.Sorted (· < ·) (keysT (insT newA k v t)) := by
  obtain ⟨l1, l2, he1, he2, hb1, hb2⟩ := @trip_insT_split k v newA t hsort hk
  have hgoal : keysT (insT newA k v t) =
      l1.map (fun p => p.2.1) ++ k :: l2.map (fun p => p.2.1) := by
    simp [keysT, he2]
  have hold : keysT t = l1.map (fun p => p.2.1) ++ l2.map (fun p => p.2.1) := by
    simp [keysT, he1]
  rw [hold] at hsort
  unfold List.Sorted at hsort ⊢
  rw [List.pairwise_append] at hsort
  rw [hgoal, List.pairwise_append]
  obtain ⟨h1, h2, h3⟩ := hsort
  refine ⟨h1, ?_, ?_⟩
  · rw [List.pairwise_cons]
    refine ⟨?_, h2⟩
    intro x hx
    obtain ⟨p, hp, hpe⟩ := List.mem_map.1 hx
    rw [← hpe]
    exact hb2 p hp
  · intro x hx y hy
    obtain ⟨p, hp, hpe⟩ := List.mem_map.1 hx
    rcases List.mem_cons.1 hy with rfl | hy
    · rw [← hpe]; exact hb1 p hp
    · exact lt_trans (by rw [← hpe]; exact hb1 p hp) (by
        obtain ⟨q, hq, hqe⟩ := List.mem_map.1 hy
        rw [← hqe]; exact hb2 q hq)

theorem mem_keysT_insT {k v newA : Nat} {t : CTree}
    (hsort : List.Sorted (· < ·) (keysT t)) (hk : k ∉ keysT t) (k0 : Nat) :
    k0 ∈ keysT (insT newA k v t) ↔ k0 = k ∨ k0 ∈ keysT t := by
  obtain ⟨l1, l2, he1, he2, _, _⟩ := @trip_insT_split k v newA t hsort hk
  simp only [keysT, he1, he2]
  simp [List.mem_append, or_comm, or_assoc, or_left_comm]

theorem mem_addrs_insT {k v newA : Nat} {t : CTree}
    (hsort : List.Sorted (· < ·) (keysT t)) (hk : k ∉ keysT t) (a0 : Addr) :
    a0 ∈ addrs (insT newA k v t) ↔ a0 = newA ∨ a0 ∈ addrs t := by
  obtain ⟨l1, l2, he1, he2, _, _⟩ := @trip_insT_split k v newA t hsort hk
  simp only [addrs, he1, he2]
  simp [List.mem_append, or_comm, or_assoc, or_left_comm]

theorem tlen_insT {k v newA : Nat} {t : CTree}
    (hsort : List.Sorted (· < ·) (keysT t)) (hk : k ∉ keysT t) :
    tlen (insT newA k v t) = tlen t + 1 := by
  obtain ⟨l1, l2, he1, he2, _, _⟩ := @trip_insT_split k v newA t hsort hk
  simp only [tlen, he1, he2]
  simp
  omega

theorem trip_insT_mem {k v newA : Nat} {t : CTree}
    (hsort : List.Sorted (· < ·) (keysT t)) (hk : k ∉ keysT t) :
    (newA, k, v) ∈ trip (insT newA k v t) := by
  obtain ⟨l1, l2, _, he2, _, _⟩ := @trip_insT_split k v newA t hsort hk
  rw [he2]
  simp

theorem nodup_insT {k v newA : Nat} {t : CTree}
    (hsort : List.Sorted (· < ·) (keysT t)) (hk : k ∉ keysT t)
    (hfresh : newA ∉ addrs t) (hnd : (addrs t).Nodup) :
    (addrs (insT newA k v t)).Nodup := by
  obtain ⟨l1, l2, he1, he2, _, _⟩ := @trip_insT_split k v newA t hsort hk
  have hgoal : addrs (insT newA k v t) =
      l1.map (fun p => p.1) ++ newA :: l2.map (fun p => p.1) := by
    simp [addrs, he2]
  have hold : addrs t = l1.map (fun p => p.1) ++ l2.map (fun p => p.1) := by
    simp [addrs, he1]
  rw [hgoal, List.nodup_middle, List.nodup_cons]
  rw [hold] at hfresh hnd
  exact ⟨hfresh, hnd⟩

theorem rootA_insT {k v newA : Nat} {t : CTree} (h : t ≠ .nil) :
    rootA (insT newA k v t) = rootA t := by
  cases t with
  | nil => exact absurd rfl h
  | node b k' v' l r =>
    show rootA (if k < k' then CTree.node b k' v' (insT newA k v l) r
      else if k' < k then CTree.node b k' v' l (insT newA k v r)
      else CTree.node b k' v' l r) = _
    by_cases h1 : k < k'
    · rw [if_pos h1]; rfl
    · rw [if_neg h1]
      by_cases h2 : k' < k
      · rw [if_pos h2]; rfl
      · rw [if_neg h2]

/-- Hypothesised-success run of the `insert` descent: on a represented sorted
subtree it either finds the equivalent key or returns the attach parent. -/
theorem insertGo_run {w : World} {k : Nat} : ∀ {t : CTree} {p par : Option Addr}
    {fuel : Nat} {res : Addr ⊕ Option Addr},
    Rep w p t → List.Sorted (· < ·) (keysT t) →
    insertGo w k par (rootA t) fuel = .ok res →
    (k ∉ keysT t ∧ res = .inr (attachGo k t par)) ∨
    (∃ a vv, k ∈ keysT t ∧ res = .inl a ∧ (a, k, vv) ∈ trip t) := by
  intro t
  induction t with
  | nil =>
    intro p par fuel res _ _ hrun
    cases fuel with
    | zero => simp [rootA, insertGo] at hrun
    | succ f =>
      left
      refine ⟨by simp [keysT_nil], ?_⟩
      simp only [rootA, insertGo] at hrun
      exact (Except.ok.inj hrun).symm
  | node b k' v' l r ihl ihr =>
    intro p par fuel res hrep hsort hrun
    obtain ⟨⟨c, hc⟩, hl, hr⟩ := hrep
    rw [sorted_node_iff] at hsort
    obtain ⟨hsl, hsr, hbl, hbr⟩ := hsort
    cases fuel with
    | zero => simp [rootA, insertGo] at hrun
    | succ f =>
      simp only [rootA, insertGo, bind, readN, hc, Except.bind] at hrun
      rcases Nat.lt_trichotomy k k' with hlt | heq | hgt
      · rw [if_pos hlt] at hrun
        rcases ihl hl hsl hrun with ⟨hk, hres⟩ | ⟨a, vv, hk, hres, hmem⟩
        · left
          constructor
          · intro hmem
            simp only [keysT_node, List.mem_append, List.mem_cons] at hmem
            rcases hmem with h | h | h
            · exact hk h
            · omega
            · exact absurd (hbr k h) (by omega)
          · rw [hres]
            show _ = Sum.inr (if k < k' then attachGo k l (some b)
              else if k' < k then attachGo k r (some b) else some b)
            rw [if_pos hlt]
        · right
          exact ⟨a, vv, by simp [keysT_node, hk], hres, by simp [trip_node, hmem]⟩
      · subst heq
        rw [if_neg (by omega), if_neg (by omega)] at hrun
        right
        refine ⟨b, v', by simp [keysT_node], (Except.ok.inj hrun).symm, by simp [trip_node]⟩
      · rw [if_neg (by omega), if_pos hgt] at hrun
        rcases ihr hr hsr hrun with ⟨hk, hres⟩ | ⟨a, vv, hk, hres, hmem⟩
        · left
          constructor
          · intro hmem
            simp only [keysT_node, List.mem_append, List.mem_cons] at hmem
            rcases hmem with h | h | h
            · exact absurd (hbl k h) (by omega)
            · omega
            · exact hk h
          · rw [hres]
            show _ = Sum.inr (if k < k' then attachGo k l (some b)
              else if k' < k then attachGo k r (some b) else some b)
            rw [if_neg (by omega), if_pos hgt]
        · right
          exact ⟨a, vv, by simp [keysT_node, hk], hres, by simp [trip_node, hmem]⟩

/-- Attach surgery: with a sorted represented subtree and a fresh key, the
attach parent computed by the descent exists in the tree, and updating exactly
its cell (hanging the fresh address on the comparison side) plus writing the
fresh cell yields a representation of the abstract insertion. -/
theorem rep_attach {w : World} {k v newA : Nat} : ∀ {t : CTree} {p par : Option Addr},
    Rep w p t → List.Sorted (· < ·) (keysT t) → k ∉ keysT t → newA ∉ addrs t →
    (addrs t).Nodup → t ≠ .nil →
    ∃ pstar nstar, attachGo k t par = some pstar ∧ pstar ∈ addrs t ∧
      w.heap pstar = some nstar ∧
      ∀ w' : World,
        w'.heap newA = some ⟨k, v, none, none, some pstar, true⟩ →
        w'.heap pstar = some (if k < nstar.key
          then { nstar with left := some newA }
          else { nstar with right := some newA }) →
        (∀ d, d ≠ pstar → d ≠ newA → w'.heap d = w.heap d) →
        Rep w' p (insT newA k v t) := by
  intro t
  induction t with
  | nil => intro p par _ _ _ _ _ hne; exact absurd rfl hne
  | node b k' v' l r ihl ihr =>
    intro p par hrep hsort hk hfresh hnd _
    obtain ⟨⟨c, hc⟩, hl, hr⟩ := hrep
    rw [sorted_node_iff] at hsort
    obtain ⟨hsl, hsr, hbl, hbr⟩ := hsort
    obtain ⟨hndl, hndr, hbl2, hbr2, hdisj⟩ := nodup_node_facts hnd
    have hfb : newA ≠ b := by
      intro h; exact hfresh (by simp [mem_addrs_node, h])
    have hfl : newA ∉ addrs l := by
      intro h; exact hfresh (by simp [mem_addrs_node, h])
    have hfr : newA ∉ addrs r := by
      intro h; exact hfresh (by simp [mem_addrs_node, h])
    have hkl : k ∉ keysT l := by
      intro h; exact hk (by simp [keysT_node, h])
    have hkk : k ≠ k' := by
      intro h; exact hk (by simp [keysT_node, h])
    have hkr : k ∉ keysT r := by
      intro h; exact hk (by simp [keysT_node, h])
    have hatt : attachGo k (CTree.node b k' v' l r) par =
        (if k < k' then attachGo k l (some b)
         else if k' < k then attachGo k r (some b) else some b) := rfl
    have hins : insT newA k v (CTree.node b k' v' l r) =
        (if k < k' then CTree.node b k' v' (insT newA k v l) r
         else if k' < k then CTree.node b k' v' l (insT newA k v r)
         else CTree.node b k' v' l r) := rfl
    rcases Nat.lt_trichotomy k k' with hlt | heq | hgt
    · rw [hatt, if_pos hlt, hins, if_pos hlt]
      cases l with
      | nil =>
        refine ⟨b, ⟨k', v', rootA .nil, rootA r, p, c⟩, rfl, by simp [mem_addrs_node], hc, ?_⟩
        intro w' h1 h2 h3
        rw [if_pos hlt] at h2
        refine ⟨⟨c, ?_⟩, ⟨⟨true, ?_⟩, trivial, trivial⟩, ?_⟩
        · exact h2
        · rw [h1]; rfl
        · refine rep_frame (fun d hd => h3 d ?_ ?_) hr
          · intro h; rw [h] at hd; exact hbr2 hd
          · intro h; rw [h] at hd; exact hfr hd
      | node bl kl vl ll lr =>
        obtain ⟨pstar, nstar, hago, hmem, hcell, hrest⟩ :=
          ihl hl hsl hkl hfl hndl (by intro h; cases h)
        refine ⟨pstar, nstar, hago, by simp [mem_addrs_node, hmem], hcell, ?_⟩
        intro w' h1 h2 h3
        have hbne : b ≠ pstar := by
          intro h; rw [h] at hbl2; exact hbl2 hmem
        refine ⟨⟨c, ?_⟩, hrest w' h1 h2 h3, ?_⟩
        · rw [h3 b hbne (Ne.symm hfb), hc]
          rw [rootA_insT (by intro h; cases h)]
        · refine rep_frame (fun d hd => h3 d ?_ ?_) hr
          · intro h; rw [h] at hd; exact hdisj pstar hmem hd
          · intro h; rw [h] at hd; exact hfr hd
    · exact absurd heq hkk
    · rw [hatt, if_neg (by omega), if_pos hgt, hins, if_neg (by omega), if_pos hgt]
      cases r with
      | nil =>
        refine ⟨b, ⟨k', v', rootA l, rootA .nil, p, c⟩, rfl, by simp [mem_addrs_node], hc, ?_⟩
        intro w' h1 h2 h3
        rw [if_neg (by simp; omega)] at h2
        refine ⟨⟨c, ?_⟩, ?_, ⟨⟨true, ?_⟩, trivial, trivial⟩⟩
        · exact h2
        · refine rep_frame (fun d hd => h3 d ?_ ?_) hl
          · intro h; rw [h] at hd; exact hbl2 hd
          · intro h; rw [h] at hd; exact hfl hd
        · rw [h1]; rfl
      | node br kr vr rl rr =>
        obtain ⟨pstar, nstar, hago, hmem, hcell, hrest⟩ :=
          ihr hr hsr hkr hfr hndr (by intro h; cases h)
        refine ⟨pstar, nstar, hago, by simp [mem_addrs_node, hmem], hcell, ?_⟩
        intro w' h1 h2 h3
        have hbne : b ≠ pstar := by
          intro h; rw [h] at hbr2; exact hbr2 hmem
        refine ⟨⟨c, ?_⟩, ?_, hrest w' h1 h2 h3⟩
        · rw [h3 b hbne (Ne.symm hfb), hc]
          rw [rootA_insT (by intro h; cases h)]
        · refine rep_frame (fun d hd => h3 d ?_ ?_) hl
          · intro h; rw [h] at hd; exact hdisj pstar hd hmem
          · intro h; rw [h] at hd; exact hfl hd

/-- Lift `Rep` across a world whose heap agrees everywhere. -/
theorem rep_heap_eq {w w' : World} {p : Option Addr} {t : CTree}
    (hag : ∀ a, w'.heap a = w.heap a) (h : Rep w p t) : Rep w' p t :=
  rep_frame (fun a _ => hag a) h


/-- Common tail of the fresh-key path of `insert`: once the fresh cell is
attached (heap surgery done), `fixInsert` runs and the size is bumped; the
resulting world satisfies the invariant for the abstract insertion. -/
theorem insertM_finish {w wmid w3 w' : World} {mid : Nat} {t : CTree} {k v fuel newA : Nat}
    {it : Iter} {flag : Bool} {m : MapObj}
    (hm : lookupM w.maps mid = some m) (hmroot : m.root = rootA t)
    (hsort : List.Sorted (· < ·) (keysT t)) (hknot : k ∉ keysT t)
    (hnd : (addrs t).Nodup) (hbelow : ∀ a ∈ addrs t, a < w.next)
    (hmsize : m.tsize = tlen t) (hne : t ≠ .nil)
    (hnewA : newA = w.next)
    (hfix : fixInsertGo wmid mid newA fuel = .ok w3)
    (hmaps : wmid.maps = w.maps) (hnext : wmid.next = w.next + 1)
    (hheap : ∀ d, d ∉ addrs t → d ≠ w.next → wmid.heap d = w.heap d)
    (hrep2 : Rep wmid none (insT newA k v t))
    (hrun : Except.bind (getMap w3 mid) (fun m2 =>
        Except.ok (setMap w3 mid { m2 with tsize := m2.tsize + 1 },
          (⟨some newA, some mid⟩ : Iter), true)) = .ok (w', it, flag)) :
    flag = true ∧ ∃ t',
      Inv w' mid t' ∧
      (∀ k0, k0 ∈ keysT t' ↔ k0 = k ∨ k0 ∈ keysT t) ∧
      (∃ a, (a, k, v) ∈ trip t' ∧ it = ⟨some a, some mid⟩) ∧
      tlen t' = tlen t + 1 ∧
      w'.next = w.next + 1 ∧
      (∀ d, d ∉ addrs t → d ≠ w.next → w'.heap d = w.heap d) ∧
      (∀ a ∈ addrs t', a ∈ addrs t ∨ a = w.next) ∧
      (∀ mid2, mid2 ≠ mid → lookupM w'.maps mid2 = lookupM w.maps mid2) := by
  subst hnewA
  have hfreshT : w.next ∉ addrs t :=
    fun hmem0 => absurd (hbelow w.next hmem0) (Nat.lt_irrefl w.next)
  have hrw2 : RepW wmid mid (insT w.next k v t) := by
    refine ⟨m, ?_, ?_, hrep2, ?_, ?_⟩
    · rw [hmaps]; exact hm
    · rw [rootA_insT hne]; exact hmroot
    · exact nodup_insT hsort hknot hfreshT hnd
    · intro a0 ha0
      rw [mem_addrs_insT hsort hknot] at ha0
      rw [hnext]
      rcases ha0 with h | h
      · exact lt_of_eq_of_lt h (Nat.lt_succ_self w.next)
      · exact Nat.lt_succ_of_lt (hbelow a0 h)
  obtain ⟨t2, pres⟩ := fixInsertGo_pres fuel hrw2
    (by rw [mem_addrs_insT hsort hknot]; exact Or.inl rfl) hfix
  obtain ⟨m2, hm2, hm2root, hrep3, hnd3, hbelow3⟩ := pres.1
  simp only [getMap, hm2, except_bind_assoc, ebind_pure, pure, Except.pure] at hrun
  rw [Except.ok.injEq, Prod.mk.injEq, Prod.mk.injEq] at hrun
  obtain ⟨hw3, hit, hflag⟩ := hrun
  have hks : keysT t2 = keysT (insT w.next k v t) := by
    simp [keysT, pres.2.1]
  have htl : tlen t2 = tlen (insT w.next k v t) := by
    simp [tlen, pres.2.1]
  refine ⟨hflag.symm, t2, ⟨?_, ?_, ?_⟩, ?_, ?_, ?_, ?_, ?_, ?_, ?_⟩
  · refine ⟨{ m2 with tsize := m2.tsize + 1 }, ?_, hm2root, ?_, hnd3, ?_⟩
    · rw [← hw3]
      exact lookupM_updMaps_self _ mid _ m2 hm2
    · exact rep_heap_eq (by intro a0; rw [← hw3]; rfl) hrep3
    · intro a0 ha0
      rw [← hw3]
      exact hbelow3 a0 ha0
  · refine ⟨{ m2 with tsize := m2.tsize + 1 }, ?_, ?_⟩
    · rw [← hw3]
      exact lookupM_updMaps_self _ mid _ m2 hm2
    · obtain ⟨m1, hm1, hm1size⟩ := pres.2.2.2.2.2 m (by rw [hmaps]; exact hm)
      have hm12 : m1 = m2 := by rw [hm2] at hm1; exact (Option.some.inj hm1).symm
      rw [hm12] at hm1size
      show m2.tsize + 1 = tlen t2
      rw [hm1size, hmsize, htl, tlen_insT hsort hknot]
  · rw [hks]
    exact sorted_insT hsort hknot
  · intro k0
    rw [hks]
    exact mem_keysT_insT hsort hknot k0
  · refine ⟨w.next, ?_, hit.symm⟩
    rw [pres.2.1]
    exact trip_insT_mem hsort hknot
  · rw [htl, tlen_insT hsort hknot]
  · rw [← hw3]
    show w3.next = w.next + 1
    rw [pres.2.2.1, hnext]
  · intro d hd1 hd2
    rw [← hw3]
    show w3.heap d = w.heap d
    rw [pres.2.2.2.1 d ?_]
    · exact hheap d hd1 hd2
    · rw [mem_addrs_insT hsort hknot]
      rintro (h | h)
      · exact hd2 h
      · exact hd1 h
  · intro a0 ha0
    have haddr : addrs t2 = addrs (insT w.next k v t) := addrs_eq_of_trip pres.2.1
    rw [haddr, mem_addrs_insT hsort hknot] at ha0
    rcases ha0 with h | h
    · exact Or.inr h
    · exact Or.inl h
  · intro mid2 hmid2
    rw [← hw3]
    show lookupM (updMaps w3.maps mid _) mid2 = _
    rw [lookupM_updMaps_other _ mid _ hmid2, pres.2.2.2.2.1 mid2 hmid2, hmaps]

/-- Full simulation of `map::insert`: on a map satisfying the invariant, a
successful run either finds an equivalent key and mutates nothing, or attaches
the fresh entry — the invariant holds again, exactly the key `k` is added, the
size grows by one, the new cell lives at the old allocation frontier, and
nothing outside the map is touched. -/
theorem insertM_spec {w : World} {mid : Nat} {t : CTree} {k v fuel : Nat}
    {w' : World} {it : Iter} {flag : Bool}
    (hinv : Inv w mid t) (hrun : insertM w mid k v fuel = .ok (w', it, flag)) :
    (k ∈ keysT t ∧ flag = false ∧ w' = w) ∨
    (k ∉ keysT t ∧ flag = true ∧ ∃ t',
      Inv w' mid t' ∧
      (∀ k0, k0 ∈ keysT t' ↔ k0 = k ∨ k0 ∈ keysT t) ∧
      (∃ a, (a, k, v) ∈ trip t' ∧ it = ⟨some a, some mid⟩) ∧
      tlen t' = tlen t + 1 ∧
      w'.next = w.next + 1 ∧
      (∀ d, d ∉ addrs t → d ≠ w.next → w'.heap d = w.heap d) ∧
      (∀ a ∈ addrs t', a ∈ addrs t ∨ a = w.next) ∧
      (∀ mid2, mid2 ≠ mid → lookupM w'.maps mid2 = lookupM w.maps mid2)) := by
  obtain ⟨⟨m, hm, hmroot, hrep, hnd, hbelow⟩, ⟨ms, hms, hmsize⟩, hsort⟩ := hinv
  have hmm : ms = m := by rw [hm] at hms; exact (Option.some.inj hms).symm
  rw [hmm] at hmsize
  simp only [insertM, bind, getMap, hm, alloc, except_bind_assoc, ebind_pure, pure,
    Except.pure] at hrun
  rw [except_bind_ok] at hrun
  obtain ⟨res, hres, hrun⟩ := hrun
  rw [hmroot] at hres
  rcases insertGo_run hrep hsort hres with ⟨hknot, hresr⟩ | ⟨a, vv, hkin, hresl, hmem⟩
  · -- fresh key: attach, fixInsert, size bump
    subst hresr
    right
    cases t with
    | nil =>
      have hago : attachGo k CTree.nil none = none := rfl
      rw [hago] at hrun
      simp only [setRoot, getMap, setMap, bind, hm, except_bind_assoc, ebind_pure, pure,
        Except.pure] at hrun
      rw [except_bind_ok] at hrun
      obtain ⟨w3, hfix, hrun⟩ := hrun
      have hrw2 : RepW ({ w with
          heap := hupd w.heap w.next (some ⟨k, v, none, none, none, true⟩),
          next := w.next + 1,
          maps := updMaps w.maps mid { m with root := some w.next } })
          mid (.node w.next k v .nil .nil) := by
        refine ⟨{ m with root := some w.next }, ?_, rfl, ?_, by simp [addrs_node, addrs_nil], ?_⟩
        · exact lookupM_updMaps_self w.maps mid _ m hm
        · exact ⟨⟨true, by simp [hupd_self, rootA_nil]⟩, trivial, trivial⟩
        · intro a ha
          rw [mem_addrs_node] at ha
          simp only [addrs_nil, List.not_mem_nil, or_false, false_or] at ha
          exact lt_of_eq_of_lt ha (Nat.lt_succ_self w.next)
      obtain ⟨t2, pres⟩ := fixInsertGo_pres fuel hrw2 (by simp [addrs_node]) hfix
      obtain ⟨m2, hm2, hm2root, hrep2, hnd2, hbelow2⟩ := pres.1
      simp only [getMap, hm2, except_bind_assoc, ebind_pure, pure, Except.pure] at hrun
      rw [Except.ok.injEq, Prod.mk.injEq, Prod.mk.injEq] at hrun
      obtain ⟨hw', hit, hflag⟩ := hrun
      refine ⟨by simp [keysT_nil], hflag.symm, t2, ?_, ?_, ?_, ?_, ?_, ?_, ?_, ?_⟩
      · refine ⟨⟨{ m2 with tsize := m2.tsize + 1 }, ?_, hm2root, ?_, hnd2, ?_⟩, ?_, ?_⟩
        · rw [← hw']
          exact lookupM_updMaps_self _ mid _ m2 hm2
        · exact rep_heap_eq (by intro a0; rw [← hw']) hrep2
        · intro a0 ha0
          rw [← hw']
          exact hbelow2 a0 ha0
        · refine ⟨{ m2 with tsize := m2.tsize + 1 }, ?_, ?_⟩
          · rw [← hw']
            exact lookupM_updMaps_self _ mid _ m2 hm2
          · obtain ⟨m1, hm1, hm1size⟩ := pres.2.2.2.2.2 { m with root := some w.next }
              (lookupM_updMaps_self w.maps mid _ m hm)
            have hm12 : m1 = m2 := by rw [hm2] at hm1; exact (Option.some.inj hm1).symm
            rw [hm12] at hm1size
            show m2.tsize + 1 = tlen t2
            have htl : tlen t2 = tlen (CTree.node w.next k v .nil .nil) := by
              simp [tlen, pres.2.1]
            have hm2size : m2.tsize = m.tsize := by simpa using hm1size
            rw [htl, hm2size, hmsize]
            rfl
        · have hks : keysT t2 = keysT (CTree.node w.next k v .nil .nil) := by
            simp [keysT, pres.2.1]
          rw [hks]
          simp [keysT_node, keysT_nil]
      · intro k0
        have hks : keysT t2 = keysT (CTree.node w.next k v .nil .nil) := by
          simp [keysT, pres.2.1]
        rw [hks]
        simp [keysT_node, keysT_nil]
      · refine ⟨w.next, ?_, hit.symm⟩
        rw [pres.2.1]
        simp [trip_node, trip_nil]
      · simp [tlen, pres.2.1, trip_node, trip_nil]
      · rw [← hw']
        exact pres.2.2.1
      · intro d _ hdne
        rw [← hw']
        show _ = w.heap d
        rw [pres.2.2.2.1 d (by simp [addrs_node, addrs_nil, hdne])]
        simp [hupd_other hdne]
      · intro a0 ha0
        right
        have : addrs t2 = addrs (CTree.node w.next k v .nil .nil) :=
          addrs_eq_of_trip pres.2.1
        rw [this] at ha0
        simp only [addrs_node, addrs_nil, List.nil_append, List.mem_singleton] at ha0
        exact ha0
      · intro mid2 hmid2
        rw [← hw']
        show lookupM (updMaps _ mid _) mid2 = _
        rw [lookupM_updMaps_other _ mid _ hmid2]
        rw [pres.2.2.2.2.1 mid2 hmid2]
        show lookupM (updMaps _ mid _) mid2 = _
        rw [lookupM_updMaps_other _ mid _ hmid2]
    | node b0 k0 v0 l0 r0 =>
      obtain ⟨pstar, nstar, hago, hpmem, hcell, hsurg⟩ :=
        @rep_attach w k v w.next (CTree.node b0 k0 v0 l0 r0) none none hrep hsort hknot
          (fun hmem0 => absurd (hbelow w.next hmem0) (Nat.lt_irrefl w.next)) hnd (by intro h; cases h)
      rw [hago] at hrun
      have hpne : pstar ≠ w.next := Nat.ne_of_lt (hbelow pstar hpmem)
      simp only [readN, bind, hupd_other hpne, hcell, except_bind_assoc, ebind_pure, pure,
        Except.pure] at hrun
      by_cases hklt : k < nstar.key
      · rw [if_pos hklt] at hrun
        simp only [modifyN, readN, bind, hupd_other hpne, hcell, except_bind_assoc,
          ebind_pure, pure, Except.pure] at hrun
        rw [except_bind_ok] at hrun
        obtain ⟨w3, hfix, hrun⟩ := hrun
        obtain ⟨hflag, hpack⟩ := insertM_finish hm hmroot hsort hknot hnd hbelow hmsize
          (by intro h; cases h) rfl hfix rfl rfl
          (by
            intro d hd1 hd2
            show hupd (hupd w.heap w.next (some ⟨k, v, none, none, some pstar, true⟩))
              pstar (some { nstar with left := some w.next }) d = w.heap d
            rw [hupd_other (show d ≠ pstar from fun hdp => hd1 (by rw [hdp]; exact hpmem))]
            exact hupd_other hd2)
          (hsurg _
            (by
              show hupd (hupd w.heap w.next (some ⟨k, v, none, none, some pstar, true⟩))
                pstar (some { nstar with left := some w.next }) w.next = _
              rw [hupd_other (Ne.symm hpne), hupd_self])
            (by
              show hupd (hupd w.heap w.next (some ⟨k, v, none, none, some pstar, true⟩))
                pstar (some { nstar with left := some w.next }) pstar = _
              rw [hupd_self, if_pos hklt])
            (by
              intro d hd1 hd2
              show hupd (hupd w.heap w.next (some ⟨k, v, none, none, some pstar, true⟩))
                pstar (some { nstar with left := some w.next }) d = w.heap d
              rw [hupd_other hd1]
              exact hupd_other hd2))
          hrun
        exact ⟨hknot, hflag, hpack⟩
      · rw [if_neg hklt] at hrun
        simp only [modifyN, readN, bind, hupd_other hpne, hcell, except_bind_assoc,
          ebind_pure, pure, Except.pure] at hrun
        rw [except_bind_ok] at hrun
        obtain ⟨w3, hfix, hrun⟩ := hrun
        obtain ⟨hflag, hpack⟩ := insertM_finish hm hmroot hsort hknot hnd hbelow hmsize
          (by intro h; cases h) rfl hfix rfl rfl
          (by
            intro d hd1 hd2
            show hupd (hupd w.heap w.next (some ⟨k, v, none, none, some pstar, true⟩))
              pstar (some { nstar with right := some w.next }) d = w.heap d
            rw [hupd_other (show d ≠ pstar from fun hdp => hd1 (by rw [hdp]; exact hpmem))]
            exact hupd_other hd2)
          (hsurg _
            (by
              show hupd (hupd w.heap w.next (some ⟨k, v, none, none, some pstar, true⟩))
                pstar (some { nstar with right := some w.next }) w.next = _
              rw [hupd_other (Ne.symm hpne), hupd_self])
            (by
              show hupd (hupd w.heap w.next (some ⟨k, v, none, none, some pstar, true⟩))
                pstar (some { nstar with right := some w.next }) pstar = _
              rw [hupd_self, if_neg hklt])
            (by
              intro d hd1 hd2
              show hupd (hupd w.heap w.next (some ⟨k, v, none, none, some pstar, true⟩))
                pstar (some { nstar with right := some w.next }) d = w.heap d
              rw [hupd_other hd1]
              exact hupd_other hd2))
          hrun
        exact ⟨hknot, hflag, hpack⟩
  · -- equivalent key found: no mutation
    subst hresl
    left
    have h2 : (Except.ok (w, ({ node := some a, container := some mid } : Iter), false) :
        Except Err (World × Iter × Bool)) = Except.ok (w', it, flag) := hrun
    rw [Except.ok.injEq, Prod.mk.injEq, Prod.mk.injEq] at h2
    exact ⟨hkin, h2.2.2.symm, h2.1.symm⟩

/-- `Inv` holds of the concrete three-entry map `w3` with layout `t3`. -/
theorem inv_w3 : Inv w3 0 t3 := by
  refine ⟨⟨⟨some 0, 3⟩, rfl, rfl, ?_, by decide, by decide⟩, ⟨⟨some 0, 3⟩, rfl, rfl⟩, by decide⟩
  exact ⟨⟨false, rfl⟩, ⟨⟨true, rfl⟩, trivial, trivial⟩, ⟨⟨true, rfl⟩, trivial, trivial⟩⟩

theorem trip_eq_nil {t : CTree} : trip t = [] ↔ t = .nil := by
  cases t with
  | nil => simp [trip_nil]
  | node a k v l r =>
    constructor
    · intro h
      rw [trip_node] at h
      exact absurd h (by simp)
    · intro h
      cases h

theorem startOf_of_trip_cons : ∀ {t : CTree} {κ : Option Addr}
    {e : Addr × Nat × Nat} {L : List (Addr × Nat × Nat)},
    trip t = e :: L → startOf t κ = some e.1 := by
  intro t
  induction t with
  | nil => intro κ e L h; rw [trip_nil] at h; cases h
  | node c k v l r ihl _ =>
    intro κ e L h
    rw [trip_node] at h
    show startOf l (some c) = some e.1
    cases hl : trip l with
    | nil =>
      rw [hl, List.nil_append] at h
      rw [(trip_eq_nil).1 hl]
      cases h
      rfl
    | cons e0 L0 =>
      rw [hl, List.cons_append] at h
      have he : e0 = e := by
        exact (List.cons.inj h).1
      rw [← he]
      exact ihl hl

theorem lastA_of_getLast : ∀ {t : CTree} {κ : Option Addr} {e : Addr × Nat × Nat},
    (trip t).getLast? = some e → lastA t κ = some e.1 := by
  intro t
  induction t with
  | nil => intro κ e h; rw [trip_nil] at h; cases h
  | node c k v l r _ ihr =>
    intro κ e h
    rw [trip_node] at h
    show lastA r (some c) = some e.1
    cases hr : trip r with
    | nil =>
      rw [hr] at h
      rw [(trip_eq_nil).1 hr]
      rw [List.getLast?_concat] at h
      cases h
      rfl
    | cons e0 L0 =>
      have h1 : (trip r).getLast? = some e := by
        rw [List.getLast?_append_cons] at h
        rw [hr] at h ⊢
        rwa [List.getLast?_cons_cons] at h
      exact ihr h1

/-- A triple of the in-order list has a matching heap cell. -/
theorem rep_cell_kv : ∀ {t : CTree} {w : World} {p : Option Addr},
    Rep w p t → ∀ {e : Addr × Nat × Nat}, e ∈ trip t →
    ∃ n, w.heap e.1 = some n ∧ n.key = e.2.1 ∧ n.val = e.2.2 := by
  intro t
  induction t with
  | nil => intro w p _ e he; rw [trip_nil] at he; cases he
  | node c k v l r ihl ihr =>
    intro w p hrep e he
    obtain ⟨⟨cc, hc⟩, hl, hr⟩ := hrep
    rw [trip_node, List.mem_append, List.mem_cons] at he
    rcases he with he | he | he
    · exact ihl hl he
    · rw [he]
      exact ⟨_, hc, rfl, rfl⟩
    · exact ihr hr he

/-- `minimum` descends to the first in-order node (null on the empty tree). -/
theorem minimumGo_spec : ∀ {t : CTree} {w : World} {p : Option Addr},
    Rep w p t → ∀ {fuel : Nat}, tlen t + 1 ≤ fuel →
    minimumGo w (rootA t) fuel = .ok (startOf t none) := by
  intro t
  induction t with
  | nil =>
    intro w p _ fuel hf
    obtain ⟨f, rfl⟩ : ∃ f, fuel = f + 1 := ⟨fuel - 1, by omega⟩
    rfl
  | node c k v l r ihl _ =>
    intro w p hrep fuel hf
    obtain ⟨f, rfl⟩ : ∃ f, fuel = f + 1 := ⟨fuel - 1, by omega⟩
    obtain ⟨⟨cc, hc⟩, hl, hr⟩ := hrep
    show minimumGo w (some c) (f + 1) = _
    have hflen : tlen l + 1 ≤ f ∧ tlen r + 1 ≤ f := by
      simp only [tlen, trip_node, List.length_append, List.length_cons] at hf ⊢
      omega
    cases hcl : l with
    | nil =>
      simp [minimumGo, readN, hc, bind, Except.bind, hcl, rootA_nil, startOf]
    | node cl kl vl ll lr =>
      have hstep : minimumGo w (some c) (f + 1) = minimumGo w (rootA l) f := by
        simp [minimumGo, readN, hc, bind, Except.bind, hcl, rootA_node]
      rw [hstep, hcl]
      rw [← hcl, ihl hl (by rw [hcl]; exact hcl ▸ hflen.1)]
      rw [hcl]
      rfl

/-- `maximum` descends to the last in-order node (null on the empty tree). -/
theorem maximumGo_spec : ∀ {t : CTree} {w : World} {p : Option Addr},
    Rep w p t → ∀ {fuel : Nat}, tlen t + 1 ≤ fuel →
    maximumGo w (rootA t) fuel = .ok (lastA t none) := by
  intro t
  induction t with
  | nil =>
    intro w p _ fuel hf
    obtain ⟨f, rfl⟩ : ∃ f, fuel = f + 1 := ⟨fuel - 1, by omega⟩
    rfl
  | node c k v l r _ ihr =>
    intro w p hrep fuel hf
    obtain ⟨f, rfl⟩ : ∃ f, fuel = f + 1 := ⟨fuel - 1, by omega⟩
    obtain ⟨⟨cc, hc⟩, hl, hr⟩ := hrep
    show maximumGo w (some c) (f + 1) = _
    have hflen : tlen l + 1 ≤ f ∧ tlen r + 1 ≤ f := by
      simp only [tlen, trip_node, List.length_append, List.length_cons] at hf ⊢
      omega
    cases hcr : r with
    | nil =>
      simp [maximumGo, readN, hc, bind, Except.bind, hcr, rootA_nil, lastA]
    | node cr kr vr rl rr =>
      have hstep : maximumGo w (some c) (f + 1) = maximumGo w (rootA r) f := by
        simp [maximumGo, readN, hc, bind, Except.bind, hcr, rootA_node]
      rw [hstep]
      rw [ihr hr hflen.2]
      rw [hcr]
      rfl

/-- The left-descent of `operator++` lands on the first in-order node of the
(nonempty) subtree. -/
theorem leftmostGo_spec : ∀ {t : CTree} {w : World} {p : Option Addr} {a : Addr},
    Rep w p t → rootA t = some a → ∀ {fuel : Nat}, tlen t + 1 ≤ fuel →
    ∃ h0, startOf t none = some h0 ∧ leftmostGo w a fuel = .ok h0 := by
  intro t
  induction t with
  | nil => intro w p a _ hroot; rw [rootA_nil] at hroot; cases hroot
  | node c k v l r ihl _ =>
    intro w p a hrep hroot fuel hf
    rw [rootA_node] at hroot
    cases hroot
    obtain ⟨f, rfl⟩ : ∃ f, fuel = f + 1 := ⟨fuel - 1, by omega⟩
    obtain ⟨⟨cc, hc⟩, hl, hr⟩ := hrep
    cases l with
    | nil =>
      refine ⟨c, rfl, ?_⟩
      simp [leftmostGo, readN, hc, bind, Except.bind, rootA_nil]
    | node cl kl vl ll lr =>
      have hflen : tlen (CTree.node cl kl vl ll lr) + 1 ≤ f := by
        simp only [tlen, trip_node, List.length_append, List.length_cons] at hf ⊢
        omega
      obtain ⟨h0, hs0, hrun0⟩ := ihl hl rfl hflen
      refine ⟨h0, hs0, ?_⟩
      have hstep : leftmostGo w c (f + 1) = leftmostGo w cl f := by
        simp [leftmostGo, readN, hc, bind, Except.bind, rootA_node]
      rw [hstep]
      exact hrun0

/-- The right-descent of `operator--` lands on the last in-order node of the
(nonempty) subtree. -/
theorem rightmostGo_spec : ∀ {t : CTree} {w : World} {p : Option Addr} {a : Addr},
    Rep w p t → rootA t = some a → ∀ {fuel : Nat}, tlen t + 1 ≤ fuel →
    ∃ h0, lastA t none = some h0 ∧ rightmostGo w a fuel = .ok h0 := by
  intro t
  induction t with
  | nil => intro w p a _ hroot; rw [rootA_nil] at hroot; cases hroot
  | node c k v l r _ ihr =>
    intro w p a hrep hroot fuel hf
    rw [rootA_node] at hroot
    cases hroot
    obtain ⟨f, rfl⟩ : ∃ f, fuel = f + 1 := ⟨fuel - 1, by omega⟩
    obtain ⟨⟨cc, hc⟩, hl, hr⟩ := hrep
    cases r with
    | nil =>
      refine ⟨c, rfl, ?_⟩
      simp [rightmostGo, readN, hc, bind, Except.bind, rootA_nil]
    | node cr kr vr rl rr =>
      have hflen : tlen (CTree.node cr kr vr rl rr) + 1 ≤ f := by
        simp only [tlen, trip_node, List.length_append, List.length_cons] at hf ⊢
        omega
      obtain ⟨h0, hs0, hrun0⟩ := ihr hr rfl hflen
      refine ⟨h0, hs0, ?_⟩
      have hstep : rightmostGo w c (f + 1) = rightmostGo w cr f := by
        simp [rightmostGo, readN, hc, bind, Except.bind, rootA_node]
      rw [hstep]
      exact hrun0

/-- In-order successor stepping: along the in-order triple list of a
represented subtree, `operator++`'s successor computation maps each node to
the next one, and the last node to the climb-out continuation `κ`. -/
theorem succ_chain : ∀ {t : CTree} {w : World} {p κ : Option Addr} {f0 : Nat},
    Rep w p t → (addrs t).Nodup →
    (∀ r0, rootA t = some r0 → ∀ f, f0 ≤ f → climbRightGo w r0 p f = .ok κ) →
    ∀ {sfuel : Nat}, f0 + tlen t + 1 ≤ sfuel →
    List.Chain' (fun e1 e2 => succStep w e1.1 sfuel = .ok (some e2.1)) (trip t) ∧
    (∀ e, (trip t).getLast? = some e → succStep w e.1 sfuel = .ok κ) := by
  intro t
  induction t with
  | nil =>
    intro w p κ f0 _ _ _ sfuel _
    constructor
    · rw [trip_nil]; exact List.chain'_nil
    · intro e h; rw [trip_nil] at h; cases h
  | node c k v l r ihl ihr =>
    intro w p κ f0 hrep hnd hκ sfuel hsf
    obtain ⟨⟨cc, hc⟩, hl, hr⟩ := hrep
    obtain ⟨hndl, hndr, hclb, hcrb, hdisj⟩ := nodup_node_facts hnd
    have htt : tlen (CTree.node c k v l r) = tlen l + tlen r + 1 := by
      simp [tlen, trip_node]
      omega
    have hκl : ∀ rl, rootA l = some rl → ∀ f, 1 ≤ f →
        climbRightGo w rl (some c) f = .ok (some c) := by
      intro rl hrl f hf
      obtain ⟨g, rfl⟩ : ∃ g, f = g + 1 := ⟨f - 1, by omega⟩
      have hne : (rootA r ≠ some rl) := by
        intro hcon
        exact hdisj rl (rootA_mem hrl) (rootA_mem hcon)
      simp [climbRightGo, readN, hc, bind, Except.bind, hne]
    have hκr : ∀ rr, rootA r = some rr → ∀ f, f0 + 1 ≤ f →
        climbRightGo w rr (some c) f = .ok κ := by
      intro rr hrr f hf
      obtain ⟨g, rfl⟩ : ∃ g, f = g + 1 := ⟨f - 1, by omega⟩
      have hstep : climbRightGo w rr (some c) (g + 1) = climbRightGo w c p g := by
        simp [climbRightGo, readN, hc, bind, Except.bind, hrr.symm]
      rw [hstep]
      exact hκ c rfl g (by omega)
    have hchl := ihl hl hndl hκl (show 1 + tlen l + 1 ≤ sfuel by omega)
    have hchr := ihr hr hndr hκr (show (f0 + 1) + tlen r + 1 ≤ sfuel by omega)
    have hsuccc : succStep w c sfuel =
        (match rootA r with
          | none => Except.ok κ
          | some _ => Except.ok (startOf r none)) := by
      cases hrr : r with
      | nil =>
        simp only [succStep, bind, readN, hc, Except.bind, hrr, rootA_nil]
        exact hκ c rfl sfuel (by omega)
      | node cr kr vr rl rr =>
        obtain ⟨h0, hs0, hrun0⟩ := leftmostGo_spec (hrr ▸ hr) (rootA_node cr kr vr rl rr)
          (show tlen (CTree.node cr kr vr rl rr) + 1 ≤ sfuel by rw [← hrr]; omega)
        simp only [succStep, bind, readN, hc, Except.bind, hrr, rootA_node, hrun0]
        rw [hs0]
        rfl
    constructor
    · rw [trip_node, List.chain'_append]
      refine ⟨hchl.1, ?_, ?_⟩
      · cases hrt : trip r with
        | nil => simp
        | cons e0 L0 =>
          rw [List.chain'_cons]
          constructor
          · show succStep w c sfuel = _
            rw [hsuccc]
            cases hr0 : rootA r with
            | none =>
              have hrnil : r = .nil := by
                cases r with
                | nil => rfl
                | node a2 k2 v2 l2 r2 => rw [rootA_node] at hr0; cases hr0
              rw [hrnil, trip_nil] at hrt
              cases hrt
            | some rr =>
              rw [startOf_of_trip_cons hrt]
          · rw [← hrt]
            exact hchr.1
      · intro x hx y hy
        simp only [List.head?_cons, Option.mem_def, Option.some.injEq] at hy
        rw [← hy]
        show succStep w x.1 sfuel = .ok (some c)
        exact hchl.2 x hx
    · intro e he
      rw [trip_node, List.getLast?_append_cons] at he
      cases hrt : trip r with
      | nil =>
        rw [hrt, List.getLast?_singleton] at he
        have hrnil : r = .nil := (trip_eq_nil).1 hrt
        have he2 : e = (c, k, v) := by simpa using he.symm
        rw [he2]
        show succStep w c sfuel = .ok κ
        rw [hsuccc, hrnil, rootA_nil]
      | cons e0 L0 =>
        rw [hrt, List.getLast?_cons_cons, ← hrt] at he
        exact hchr.2 e he

/-- In-order predecessor stepping, the mirror image: `operator--`'s
predecessor computation maps each node to the previous one, and the first
node to the climb-out continuation `κ`. -/
theorem pred_chain : ∀ {t : CTree} {w : World} {p κ : Option Addr} {f0 : Nat},
    Rep w p t → (addrs t).Nodup →
    (∀ r0, rootA t = some r0 → ∀ f, f0 ≤ f → climbLeftGo w r0 p f = .ok κ) →
    ∀ {sfuel : Nat}, f0 + tlen t + 1 ≤ sfuel →
    List.Chain' (fun e1 e2 => predStep w e2.1 sfuel = .ok (some e1.1)) (trip t) ∧
    (∀ e, (trip t).head? = some e → predStep w e.1 sfuel = .ok κ) := by
  intro t
  induction t with
  | nil =>
    intro w p κ f0 _ _ _ sfuel _
    constructor
    · rw [trip_nil]; exact List.chain'_nil
    · intro e h; rw [trip_nil] at h; cases h
  | node c k v l r ihl ihr =>
    intro w p κ f0 hrep hnd hκ sfuel hsf
    obtain ⟨⟨cc, hc⟩, hl, hr⟩ := hrep
    obtain ⟨hndl, hndr, hclb, hcrb, hdisj⟩ := nodup_node_facts hnd
    have htt : tlen (CTree.node c k v l r) = tlen l + tlen r + 1 := by
      simp [tlen, trip_node]
      omega
    have hκr : ∀ rr, rootA r = some rr → ∀ f, 1 ≤ f →
        climbLeftGo w rr (some c) f = .ok (some c) := by
      intro rr hrr f hf
      obtain ⟨g, rfl⟩ : ∃ g, f = g + 1 := ⟨f - 1, by omega⟩
      have hne : (rootA l ≠ some rr) := by
        intro hcon
        exact hdisj rr (rootA_mem hcon) (rootA_mem hrr)
      simp [climbLeftGo, readN, hc, bind, Except.bind, hne]
    have hκl : ∀ rl, rootA l = some rl → ∀ f, f0 + 1 ≤ f →
        climbLeftGo w rl (some c) f = .ok κ := by
      intro rl hrl f hf
      obtain ⟨g, rfl⟩ : ∃ g, f = g + 1 := ⟨f - 1, by omega⟩
      have hstep : climbLeftGo w rl (some c) (g + 1) = climbLeftGo w c p g := by
        simp [climbLeftGo, readN, hc, bind, Except.bind, hrl.symm]
      rw [hstep]
      exact hκ c rfl g (by omega)
    have hchl := ihl hl hndl hκl (show (f0 + 1) + tlen l + 1 ≤ sfuel by omega)
    have hchr := ihr hr hndr hκr (show 1 + tlen r + 1 ≤ sfuel by omega)
    have hpredc : predStep w c sfuel =
        (match rootA l with
          | none => Except.ok κ
          | some _ => Except.ok (lastA l none)) := by
      cases hrl : l with
      | nil =>
        simp only [predStep, bind, readN, hc, Except.bind, hrl, rootA_nil]
        exact hκ c rfl sfuel (by omega)
      | node cl kl vl ll lr =>
        obtain ⟨h0, hs0, hrun0⟩ := rightmostGo_spec (hrl ▸ hl) (rootA_node cl kl vl ll lr)
          (show tlen (CTree.node cl kl vl ll lr) + 1 ≤ sfuel by rw [← hrl]; omega)
        simp only [predStep, bind, readN, hc, Except.bind, hrl, rootA_node, hrun0]
        rw [hs0]
        rfl
    constructor
    · rw [trip_node, List.chain'_append]
      refine ⟨hchl.1, ?_, ?_⟩
      · cases hrt : trip r with
        | nil => simp
        | cons e0 L0 =>
          rw [List.chain'_cons]
          constructor
          · show predStep w e0.1 sfuel = .ok (some c)
            have := hchr.2 e0 (by rw [hrt]; rfl)
            exact this
          · rw [← hrt]
            exact hchr.1
      · intro x hx y hy
        simp only [List.head?_cons, Option.mem_def, Option.some.injEq] at hy
        rw [← hy]
        show predStep w c sfuel = .ok (some x.1)
        rw [hpredc]
        cases hr0 : rootA l with
        | none =>
          have hlnil : l = .nil := by
            cases l with
            | nil => rfl
            | node a2 k2 v2 l2 r2 => simp [rootA_node] at hr0
          rw [hlnil, trip_nil] at hx
          simp at hx
        | some rl =>
          rw [lastA_of_getLast (Option.mem_def.1 hx)]
    · intro e he
      rw [trip_node] at he
      cases hlt : trip l with
      | nil =>
        rw [hlt, List.nil_append, List.head?_cons] at he
        have hlnil : l = .nil := (trip_eq_nil).1 hlt
        have he2 : e = (c, k, v) := by simpa using he.symm
        rw [he2]
        show predStep w c sfuel = .ok κ
        rw [hpredc, hlnil, rootA_nil]
      | cons e0 L0 =>
        rw [hlt, List.cons_append, List.head?_cons] at he
        have he2 : e = e0 := by simpa using he.symm
        rw [he2]
        refine hchl.2 e0 ?_
        rw [hlt]
        rfl

/-- Successor stepping over the whole map: the climb above the root returns
null (the `end()` iterator). -/
theorem succ_chain_top {w : World} {mid : Nat} {t : CTree} (hrw : RepW w mid t)
    {sfuel : Nat} (hf : tlen t + 2 ≤ sfuel) :
    List.Chain' (fun e1 e2 => succStep w e1.1 sfuel = .ok (some e2.1)) (trip t) ∧
    (∀ e, (trip t).getLast? = some e → succStep w e.1 sfuel = .ok none) := by
  obtain ⟨m, hm, hmroot, hrep, hnd, _⟩ := hrw
  refine succ_chain hrep hnd (fun r0 _ f hf0 => ?_) (show 1 + tlen t + 1 ≤ sfuel by omega)
  obtain ⟨g, rfl⟩ : ∃ g, f = g + 1 := ⟨f - 1, by omega⟩
  rfl

/-- Predecessor stepping over the whole map: the climb above the root returns
null, which `operator--` rejects. -/
theorem pred_chain_top {w : World} {mid : Nat} {t : CTree} (hrw : RepW w mid t)
    {sfuel : Nat} (hf : tlen t + 2 ≤ sfuel) :
    List.Chain' (fun e1 e2 => predStep w e2.1 sfuel = .ok (some e1.1)) (trip t) ∧
    (∀ e, (trip t).head? = some e → predStep w e.1 sfuel = .ok none) := by
  obtain ⟨m, hm, hmroot, hrep, hnd, _⟩ := hrw
  refine pred_chain hrep hnd (fun r0 _ f hf0 => ?_) (show 1 + tlen t + 1 ≤ sfuel by omega)
  obtain ⟨g, rfl⟩ : ∃ g, f = g + 1 := ⟨f - 1, by omega⟩
  rfl

/-- The collecting loop of the traversal follows the successor chain. -/
theorem chainGo_none {w : World} {sfuel cfuel : Nat} : chainGo w sfuel none cfuel = .ok [] := by
  cases cfuel <;> rfl

theorem chain_from_adj : ∀ (L : List (Addr × Nat × Nat)) {w : World} {sfuel : Nat},
    (∀ e ∈ L, ∃ n, w.heap e.1 = some n ∧ n.key = e.2.1 ∧ n.val = e.2.2) →
    List.Chain' (fun e1 e2 => succStep w e1.1 sfuel = .ok (some e2.1)) L →
    (∀ e, L.getLast? = some e → succStep w e.1 sfuel = .ok none) →
    ∀ {cfuel : Nat}, L.length ≤ cfuel →
    chainGo w sfuel (L.head?.map (fun e => e.1)) cfuel = .ok (L.map (fun e => e.2)) := by
  intro L
  induction L with
  | nil => intro w sfuel _ _ _ cfuel _; simpa using chainGo_none
  | cons e L2 ih =>
    intro w sfuel hcells hchain hlast cfuel hlen
    obtain ⟨cf, rfl⟩ : ∃ cf, cfuel = cf + 1 := ⟨cfuel - 1, by
      simp only [List.length_cons] at hlen
      omega⟩
    obtain ⟨n, hn, hk, hv⟩ := hcells e (by simp)
    have hsucc : succStep w e.1 sfuel = .ok (L2.head?.map (fun e2 => e2.1)) := by
      cases L2 with
      | nil => simpa using hlast e rfl
      | cons e2 L3 =>
        have h1 := (List.chain'_cons.1 hchain).1
        simpa using h1
    have hch2 : List.Chain' (fun e1 e2 => succStep w e1.1 sfuel = .ok (some e2.1)) L2 := by
      have h1 := List.Chain'.tail hchain
      simpa using h1
    have hlast2 : ∀ e2, L2.getLast? = some e2 → succStep w e2.1 sfuel = .ok none := by
      intro e2 he2
      apply hlast
      cases L2 with
      | nil => cases he2
      | cons a b =>
        rw [List.getLast?_cons_cons]
        exact he2
    have hrec := ih (fun e2 he2 => hcells e2 (List.mem_cons_of_mem e he2)) hch2 hlast2
      (show L2.length ≤ cf by simp only [List.length_cons] at hlen; omega)
    show chainGo w sfuel (some e.1) (cf + 1) = _
    simp only [chainGo, bind, readN, hn, Except.bind, hsucc, hrec]
    simp [hk, hv]

/-- The `begin()`-to-`end()` traversal of an invariant-satisfying map yields
exactly the in-order entry list. -/
theorem travM_spec {w : World} {mid : Nat} {t : CTree} (hinv : Inv w mid t)
    {fuel : Nat} (hf : tlen t + 2 ≤ fuel) :
    travM w mid fuel = .ok (kvT t) := by
  obtain ⟨⟨m, hm, hmroot, hrep, hnd, hbelow⟩, hsz, hsort⟩ := hinv
  have hrw : RepW w mid t := ⟨m, hm, hmroot, hrep, hnd, hbelow⟩
  have hsc := succ_chain_top hrw hf
  have hbegin : beginM w mid fuel = .ok ⟨startOf t none, some mid⟩ := by
    simp only [beginM, bind, getMap, hm, Except.bind, hmroot]
    rw [minimumGo_spec hrep (by omega)]
    rfl
  have hchain := chain_from_adj (trip t) (fun e he => rep_cell_kv hrep he) hsc.1 hsc.2
    (show (trip t).length ≤ fuel by
      have : (trip t).length = tlen t := rfl
      omega)
  simp only [travM, bind, Except.bind, hbegin]
  show chainGo w fuel (startOf t none) fuel = .ok (kvT t)
  cases ht : trip t with
  | nil =>
    have hnil : t = .nil := (trip_eq_nil).1 ht
    rw [hnil]
    show chainGo w fuel none fuel = .ok (kvT .nil)
    simpa using chainGo_none
  | cons e L =>
    rw [startOf_of_trip_cons ht]
    rw [ht] at hchain
    simp only [List.head?_cons, Option.map_some] at hchain
    show chainGo w fuel (some e.1) fuel = .ok ((trip t).map (fun p => p.2))
    rw [ht]
    exact hchain

/-- The freshly constructed map of `world0` satisfies the invariant with the
empty abstract tree. -/
theorem inv_world0 (mid : Nat) : Inv (world0 mid) mid .nil := by
  refine ⟨⟨⟨none, 0⟩, ?_, rfl, trivial, by simp [addrs_nil], by simp [addrs_nil]⟩,
    ⟨⟨none, 0⟩, ?_, rfl⟩, by simp [keysT_nil]⟩
  · simp [world0, lookupM]
  · simp [world0, lookupM]

/-- Running a list of inserts preserves the invariant, and the stored key set
is the union of the inserted keys and the initial ones. -/
theorem runInserts_inv : ∀ {kvs : List (Nat × Nat)} {w : World} {mid : Nat} {t : CTree}
    {fuel : Nat} {w' : World},
    Inv w mid t → runInserts w mid kvs fuel = .ok w' →
    ∃ t', Inv w' mid t' ∧
      (∀ k0, k0 ∈ keysT t' ↔ k0 ∈ kvs.map (fun e => e.1) ∨ k0 ∈ keysT t) := by
  intro kvs
  induction kvs with
  | nil =>
    intro w mid t fuel w' hinv hrun
    simp only [runInserts] at hrun
    cases hrun
    exact ⟨t, hinv, by simp⟩
  | cons kv rest ih =>
    intro w mid t fuel w' hinv hrun
    simp only [runInserts, bind] at hrun
    rw [except_bind_ok] at hrun
    obtain ⟨r, hr, hrun⟩ := hrun
    obtain ⟨w2, it2, flag2⟩ := r
    rcases insertM_spec hinv hr with ⟨hkin, _, hw2⟩ | ⟨hknot, _, t2, hinv2, hkeys, _, _, _, _, _, _⟩
    · subst hw2
      obtain ⟨t', hinv', hkeys'⟩ := ih hinv hrun
      refine ⟨t', hinv', fun k0 => ?_⟩
      rw [hkeys' k0]
      simp only [List.map_cons, List.mem_cons]
      constructor
      · rintro (h | h)
        · exact Or.inl (Or.inr h)
        · exact Or.inr h
      · rintro ((h | h) | h)
        · rw [h]; exact Or.inr hkin
        · exact Or.inl h
        · exact Or.inr h
    · obtain ⟨t', hinv', hkeys'⟩ := ih hinv2 hrun
      refine ⟨t', hinv', fun k0 => ?_⟩
      rw [hkeys' k0]
      simp only [List.map_cons, List.mem_cons]
      constructor
      · rintro (h | h)
        · exact Or.inl (Or.inr h)
        · rcases (hkeys k0).1 h with h2 | h2
          · exact Or.inl (Or.inl h2)
          · exact Or.inr h2
      · rintro ((h | h) | h)
        · exact Or.inr ((hkeys k0).2 (Or.inl h))
        · exact Or.inl h
        · exact Or.inr ((hkeys k0).2 (Or.inr h))

/-- Under the order invariant a key determines its tree entry. -/
theorem trip_key_unique {t : CTree} (hsort : List.Sorted (· < ·) (keysT t))
    {a1 a2 k v1 v2 : Nat} (h1 : (a1, k, v1) ∈ trip t) (h2 : (a2, k, v2) ∈ trip t) :
    a1 = a2 ∧ v1 = v2 := by
  have hnd : ((trip t).map (fun p => p.2.1)).Nodup := hsort.nodup
  have heq := List.inj_on_of_nodup_map hnd h1 h2 rfl
  exact ⟨congrArg (fun p => p.1) heq, congrArg (fun p => p.2.2) heq⟩

/-- C3: for every sequence of keys inserted into an initially empty map, the
`begin()`-to-`end()` traversal returns exactly the stored entries, whose keys
are strictly increasing and are exactly the inserted keys; and both rotation
primitives preserve the in-order sequence of a represented tree. -/
theorem c3_inorder_sorted_and_rotations_preserve :
    (∀ (kvs : List (Nat × Nat)) (fuel mid : Nat) (w : World),
      runInserts (world0 mid) mid kvs fuel = .ok w →
      ∃ t, Inv w mid t ∧
        List.Sorted (· < ·) (keysT t) ∧
        (∀ k0, k0 ∈ keysT t ↔ k0 ∈ kvs.map (fun e => e.1)) ∧
        (kvT t).map (fun e => e.1) = keysT t ∧
        (∀ fuel2, tlen t + 2 ≤ fuel2 → travM w mid fuel2 = .ok (kvT t))) ∧
    (∀ (w w' : World) (mid x : Nat) (t : CTree),
      RepW w mid t → x ∈ addrs t → leftRotate w mid x = .ok w' →
      ∃ t', RepW w' mid t' ∧ trip t' = trip t) ∧
    (∀ (w w' : World) (mid x : Nat) (t : CTree),
      RepW w mid t → x ∈ addrs t → rightRotate w mid x = .ok w' →
      ∃ t', RepW w' mid t' ∧ trip t' = trip t) := by
  refine ⟨?_, ?_, ?_⟩
  · intro kvs fuel mid w hrun
    obtain ⟨t, hinv, hkeys⟩ := runInserts_inv (inv_world0 mid) hrun
    refine ⟨t, hinv, hinv.2.2, ?_, ?_, ?_⟩
    · intro k0
      rw [hkeys k0]
      simp [keysT_nil]
    · simp [kvT, keysT, List.map_map]
    · intro fuel2 hf2
      exact travM_spec hinv hf2
  · intro w w' mid x t hrw hx hrun
    obtain ⟨t', h1, h2, _⟩ := leftRotate_pres hrw hx hrun
    exact ⟨t', h1, h2⟩
  · intro w w' mid x t hrw hx hrun
    obtain ⟨t', h1, h2, _⟩ := rightRotate_pres hrw hx hrun
    exact ⟨t', h1, h2⟩

/-- Witness for C3 at the concrete three-entry map: inserting keys 2, 1, 3
yields a world whose traversal is the sorted entry list. -/
theorem c3_inorder_sorted_witness :
    runInserts (world0 0) 0 [(2, 5), (1, 6), (3, 7)] 10 = .ok w3 ∧
    ∃ t, Inv w3 0 t ∧
      List.Sorted (· < ·) (keysT t) ∧
      (∀ k0, k0 ∈ keysT t ↔ k0 ∈ [(2, 5), (1, 6), (3, 7)].map (fun e => e.1)) ∧
      (kvT t).map (fun e => e.1) = keysT t ∧
      (∀ fuel2, tlen t + 2 ≤ fuel2 → travM w3 0 fuel2 = .ok (kvT t)) :=
  ⟨rfl, c3_inorder_sorted_and_rotations_preserve.1 [(2, 5), (1, 6), (3, 7)] 10 0 w3 rfl⟩

/-- C5: `at` on an absent key throws `index_out_of_bound` (and, being a pure
lookup, touches nothing); after `operator[]` on that key a default value `0`
is inserted and `at` then succeeds returning it. -/
theorem c5_at_absent_bracket_default :
    ∀ (w : World) (mid : Nat) (t : CTree) (k fuel : Nat),
      Inv w mid t → k ∉ keysT t → tlen t + 1 ≤ fuel →
      atM w mid k fuel = .error .indexOutOfBound ∧
      (∀ w2 res, bracketM w mid k fuel = .ok (w2, res) →
        res = 0 ∧ ∃ t2, Inv w2 mid t2 ∧ ∀ fuel2, tlen t + 2 ≤ fuel2 →
          atM w2 mid k fuel2 = .ok 0) := by
  intro w mid t k fuel hinv hk hf
  obtain ⟨⟨m, hm, hmroot, hrep, hnd, hbelow⟩, hsz, hsort⟩ := hinv
  have hinv' : Inv w mid t := ⟨⟨m, hm, hmroot, hrep, hnd, hbelow⟩, hsz, hsort⟩
  have hfind := (findNodeGo_spec hrep hsort k fuel hf).2 hk
  constructor
  · simp only [atM, findNodeM, bind, getMap, hm, Except.bind, hmroot, hfind]
  · intro w2 res hbr
    simp only [bracketM, findNodeM, bind, getMap, hm, hmroot, hfind, except_bind_assoc,
      ebind_pure, pure, Except.pure] at hbr
    rw [except_bind_ok] at hbr
    obtain ⟨r, hr, hbr⟩ := hbr
    obtain ⟨w2a, it2, flag2⟩ := r
    rcases insertM_spec hinv' hr with ⟨hkin, _, _⟩ |
      ⟨hknot, _, t2, hinv2, hkeys2, ⟨a, hmemtrip, hit⟩, htlen2, _, _, _, _⟩
    · exact absurd hkin hk
    · rw [hit] at hbr
      have hrep2a : Rep w2a none t2 := by
        obtain ⟨⟨m2a, hm2a1, hm2a2, h3, hm2a4, hm2a5⟩, hsz2a, hsort2a⟩ := hinv2
        exact h3
      obtain ⟨n, hn, hnk, hnv⟩ := rep_cell_kv hrep2a hmemtrip
      simp only [readN, hn, bind, Except.bind, pure, Except.pure] at hbr
      rw [Except.ok.injEq, Prod.mk.injEq] at hbr
      obtain ⟨hw2, hres⟩ := hbr
      refine ⟨by rw [← hres]; exact hnv, t2, by rw [← hw2]; exact hinv2, ?_⟩
      intro fuel2 hf2
      obtain ⟨⟨m2, hm2, hm2root, hrep2, hnd2, hbelow2⟩, hsz2, hsort2⟩ := hinv2
      have hkin2 : k ∈ keysT t2 := (hkeys2 k).2 (Or.inl rfl)
      obtain ⟨a2, vv, hfind2, hmem2⟩ := (findNodeGo_spec hrep2 hsort2 k fuel2
        (by omega)).1 hkin2
      obtain ⟨n2, hn2, hn2k, hn2v⟩ := rep_cell_kv hrep2 hmem2
      rw [← hw2]
      simp only [atM, findNodeM, bind, getMap, hm2, Except.bind, hm2root, hfind2,
        readN, hn2, pure, Except.pure]
      rw [hn2v]
      have hvv0 : vv = 0 := (trip_key_unique hsort2 hmem2 hmemtrip).2
      rw [hvv0]

/-- Witness for C5 on the concrete three-entry map and the absent key 99. -/
theorem c5_at_absent_bracket_default_witness :
    atM w3 0 99 4 = .error .indexOutOfBound ∧
    (∀ w2 res, bracketM w3 0 99 4 = .ok (w2, res) →
      res = 0 ∧ ∃ t2, Inv w2 0 t2 ∧ ∀ fuel2, tlen t3 + 2 ≤ fuel2 →
        atM w2 0 99 fuel2 = .ok 0) :=
  c5_at_absent_bracket_default w3 0 t3 99 4 inv_w3 (by decide) (by decide)

/-- C6: every listed invalid-iterator usage signals `invalid_iterator` (the
run aborts with the error, so no state is produced and nothing is mutated):
dereferencing or advancing `end()`, retreating from the first element,
retreating from `end()` on an empty tree, erasing `end()`, and erasing an
iterator owned by a different map instance. -/
theorem c6_invalid_iterator_usage_errors :
    (∀ (w : World) (mid : Nat), derefIt w (endM mid) = .error .invalidIterator) ∧
    (∀ (w : World) (mid fuel : Nat), incIt w (endM mid) fuel = .error .invalidIterator) ∧
    (∀ (w : World) (mid : Nat) (t : CTree) (e : Addr × Nat × Nat)
      (L : List (Addr × Nat × Nat)),
      Inv w mid t → trip t = e :: L → ∀ sfuel, tlen t + 2 ≤ sfuel →
      decIt w ⟨some e.1, some mid⟩ sfuel = .error .invalidIterator) ∧
    (∀ (w : World) (mid : Nat) (m : MapObj), lookupM w.maps mid = some m →
      m.root = none → ∀ fuel, decIt w (endM mid) fuel = .error .invalidIterator) ∧
    (∀ (w : World) (mid fuel : Nat), eraseM w mid (endM mid) fuel = .error .invalidIterator) ∧
    (∀ (w : World) (mid mid2 : Nat) (nd : Option Addr) (fuel : Nat), mid2 ≠ mid →
      eraseM w mid ⟨nd, some mid2⟩ fuel = .error .invalidIterator) := by
  refine ⟨fun w mid => rfl, fun w mid fuel => rfl, ?_, ?_, ?_, ?_⟩
  · intro w mid t e L hinv htrip sfuel hsf
    obtain ⟨hrw, _, _⟩ := hinv
    have hpred := (pred_chain_top hrw hsf).2 e (by rw [htrip]; rfl)
    simp only [decIt, bind, Except.bind, hpred]
  · intro w mid m hm hroot fuel
    simp only [decIt, endM, bind, getMap, hm, Except.bind, hroot]
  · intro w mid fuel
    simp [eraseM, endM]
  · intro w mid mid2 nd fuel hne
    simp [eraseM, hne]

/-- Witness for C6 on the concrete three-entry map: retreating from the first
element (key 1 at address 1) throws. -/
theorem c6_invalid_iterator_usage_witness :
    trip t3 = (1, 1, 6) :: [(0, 2, 5), (2, 3, 7)] ∧
    decIt w3 ⟨some 1, some 0⟩ 5 = .error .invalidIterator :=
  ⟨rfl, c6_invalid_iterator_usage_errors.2.2.1 w3 0 t3 (1, 1, 6) [(0, 2, 5), (2, 3, 7)]
    inv_w3 rfl 5 (by decide)⟩

/-- C7: for a valid iterator that is neither `end()` nor `begin()` (it has an
in-order predecessor), incrementing and then decrementing returns the original
iterator. -/
theorem c7_inc_then_dec_roundtrip :
    ∀ (w : World) (mid : Nat) (t : CTree) (l1 : List (Addr × Nat × Nat))
      (e0 e : Addr × Nat × Nat) (l2 : List (Addr × Nat × Nat)),
      Inv w mid t → trip t = l1 ++ e0 :: e :: l2 →
      ∀ sfuel, tlen t + 2 ≤ sfuel →
      ∃ it2, incIt w ⟨some e.1, some mid⟩ sfuel = .ok it2 ∧
        decIt w it2 sfuel = .ok (⟨some e.1, some mid⟩ : Iter) := by
  intro w mid t l1 e0 e l2 hinv htrip sfuel hsf
  obtain ⟨hrw, _, _⟩ := hinv
  obtain ⟨m, hm, hmroot, hrep, hnd, hbelow⟩ := hrw
  have hrw' : RepW w mid t := ⟨m, hm, hmroot, hrep, hnd, hbelow⟩
  have hsc := succ_chain_top hrw' hsf
  have hpc := pred_chain_top hrw' hsf
  cases l2 with
  | nil =>
    have hlast : (trip t).getLast? = some e := by
      rw [htrip, List.getLast?_append_cons, List.getLast?_cons_cons]
      rfl
    have hsucc := hsc.2 e hlast
    refine ⟨⟨none, some mid⟩, ?_, ?_⟩
    · simp only [incIt, bind, Except.bind, hsucc]
      rfl
    · have hrt : ∃ rt, rootA t = some rt := by
        cases t with
        | nil => rw [trip_nil] at htrip; exact absurd htrip.symm (by simp)
        | node a2 k2 v2 l2 r2 => exact ⟨a2, rfl⟩
      obtain ⟨rt, hrt⟩ := hrt
      have hmax : maximumGo w (rootA t) sfuel = .ok (lastA t none) :=
        maximumGo_spec hrep (by omega)
      rw [hrt] at hmax
      rw [lastA_of_getLast hlast] at hmax
      simp only [decIt, bind, getMap, hm, Except.bind, hmroot, hrt, hmax]
  | cons e2 l2b =>
    have hsuffix : (e :: e2 :: l2b) <:+ trip t := by
      rw [htrip]
      exact ⟨l1 ++ [e0], by simp⟩
    have hsucc : succStep w e.1 sfuel = .ok (some e2.1) :=
      (List.chain'_cons.1 (hsc.1.suffix hsuffix)).1
    have hpred : predStep w e2.1 sfuel = .ok (some e.1) :=
      (List.chain'_cons.1 (hpc.1.suffix hsuffix)).1
    refine ⟨⟨some e2.1, some mid⟩, ?_, ?_⟩
    · simp only [incIt, bind, Except.bind, hsucc]
      rfl
    · simp only [decIt, bind, Except.bind, hpred]

/-- Witness for C7 on the concrete three-entry map: the iterator at key 2
(address 0, predecessor key 1) survives `--(++it)`. -/
theorem c7_inc_then_dec_roundtrip_witness :
    trip t3 = [] ++ (1, 1, 6) :: (0, 2, 5) :: [(2, 3, 7)] ∧
    ∃ it2, incIt w3 ⟨some 0, some 0⟩ 5 = .ok it2 ∧
      decIt w3 it2 5 = .ok (⟨some 0, some 0⟩ : Iter) :=
  ⟨rfl, c7_inc_then_dec_roundtrip w3 0 t3 [] (1, 1, 6) (0, 2, 5) [(2, 3, 7)]
    inv_w3 rfl 5 (by decide)⟩

/-- C4: inserting an entry whose key is equivalent to one already present
returns the iterator to the existing entry together with the flag `false`,
and performs no mutation at all — the returned world is the input world,
so size, every stored key and value, and the whole structure are unchanged. -/
theorem c4_duplicate_insert_no_mutation :
    ∀ (w : World) (mid : Nat) (t : CTree) (k v fuel : Nat),
      Inv w mid t → k ∈ keysT t → tlen t + 1 ≤ fuel →
      ∃ a vv, (a, k, vv) ∈ trip t ∧
        insertM w mid k v fuel = .ok (w, ⟨some a, some mid⟩, false) := by
  intro w mid t k v fuel hinv hk hf
  obtain ⟨⟨m, hm, hroot, hrep, hnd, hbelow⟩, _, hsort⟩ := hinv
  obtain ⟨a, vv, hfind, hmem⟩ := (findNodeGo_spec hrep hsort k fuel hf).1 hk
  have hfound : insertGo w k none (rootA t) fuel = .ok (.inl a) := insertGo_found hfind
  refine ⟨a, vv, hmem, ?_⟩
  simp [insertM, bind, getMap, hm, Except.bind, hroot, hfound]

/-- Witness for C4: re-inserting key 2 into the concrete three-entry map `w3`
returns its existing node (address 0, stored value 5) and the unchanged world. -/
theorem c4_duplicate_insert_no_mutation_witness :
    ∃ a vv, (a, 2, vv) ∈ trip t3 ∧
      insertM w3 0 2 9 4 = .ok (w3, ⟨some a, some 0⟩, false) :=
  c4_duplicate_insert_no_mutation w3 0 t3 2 9 4 inv_w3 (by decide) (by decide)

/-- C1 (erase correctness): refuted by the code as a `code_bug`.  Insert keys
1, 2, 3, 4 into a fresh map; the node of key 1 (address 0) is then a black
leaf that is not the root.  `find(1)` yields a valid iterator owned by the
map which references that live node, and the spec requires `erase` on it to
splice the node out and run delete-fixup on the null replacement position.
Instead `fixDelete` evaluates `x->parent` with `x == nullptr`, a null-pointer
dereference (undefined behaviour), so the erase never completes. -/
theorem c1_erase_black_leaf_null_deref :
    runInserts (world0 0) 0 [(1, 0), (2, 0), (3, 0), (4, 0)] 20 = .ok c1World ∧
    findM c1World 0 1 20 = .ok c1It ∧
    derefIt c1World c1It = .ok (1, 0) ∧
    sizeM c1World 0 = .ok 4 ∧
    c1World.heap 0 = some ⟨1, 0, none, none, some 1, false⟩ ∧
    lookupM c1World.maps 0 = some ⟨some 1, 4⟩ ∧
    eraseM c1World 0 c1It 20 = .error .nullDeref :=
  ⟨rfl, rfl, rfl, rfl, rfl, rfl, rfl⟩

/-- C2 (red-black balance of all reachable states): a `code_bug` refutation of
the mechanism the claim relies on.  Keys 10, 20, 30, 40 inserted into a fresh
map form a reachable state; erasing key 10 (a black leaf, address 0) splices
out a black node whose replacement is a null placeholder, so restoring the
black-height invariant requires running `fixDelete` on that placeholder — but
`fixDelete` dereferences the null pointer instead, so the rebalancing the
spec promises for such reachable states never executes. -/
theorem c2_fix_delete_null_placeholder_crash :
    runInserts (world0 0) 0 [(10, 0), (20, 0), (30, 0), (40, 0)] 20 = .ok c2World ∧
    findM c2World 0 10 20 = .ok c2It ∧
    c2World.heap 0 = some ⟨10, 0, none, none, some 1, false⟩ ∧
    fixDeleteGo (exD (transplant c2World 0 0 none)) 0 none 20 = .error .nullDeref ∧
    eraseM c2World 0 c2It 20 = .error .nullDeref :=
  ⟨rfl, rfl, rfl, rfl, rfl⟩

/-- C9: on every empty map — freshly constructed, or any map just cleared by
`clear()` — `begin()` equals `end()`: `minimum(root)` returns null for a null
root, so `begin()` is the (null, this) iterator, which is exactly `end()`. -/
theorem c9_begin_eq_end_on_empty :
    (∀ mid fuel, beginM (world0 mid) mid (fuel + 1) = .ok (endM mid)) ∧
    (∀ w mid fuel w' f, clearM w mid fuel = .ok w' →
      beginM w' mid (f + 1) = .ok (endM mid) ∧ sizeM w' mid = .ok 0) := by
  constructor
  · intro mid fuel
    simp [beginM, world0, getMap, lookupM, minimumGo, endM, bind, Except.bind, pure, Except.pure]
  · intro w mid fuel w' f h
    simp only [clearM, bind] at h
    rw [except_bind_ok] at h
    obtain ⟨m, hm, h⟩ := h
    rw [except_bind_ok] at h
    obtain ⟨w1, h1, h⟩ := h
    simp only [pure, Except.pure, Except.ok.injEq] at h
    subst h
    simp only [getMap] at hm
    cases hml : lookupM w.maps mid with
    | none => rw [hml] at hm; exact absurd hm (by simp)
    | some m0 =>
      rw [hml] at hm
      have hmaps := (clearTreeGo_maps h1).1
      have : lookupM w1.maps mid = some m0 := by rw [hmaps, hml]
      have hres := lookupM_updMaps_self w1.maps mid ⟨none, 0⟩ m0 this
      constructor
      · simp [beginM, getMap, setMap, hres, minimumGo, endM, bind, Except.bind, pure, Except.pure]
      · simp [sizeM, getMap, setMap, hres, bind, Except.bind, pure, Except.pure]

/-- Witness for C9: clearing a freshly constructed map and asking for
`begin()` and `size()` at concrete fuel. -/
theorem c9_begin_eq_end_on_empty_witness :
    beginM (exD (clearM (world0 0) 0 10)) 0 11 = .ok (endM 0) ∧
    sizeM (exD (clearM (world0 0) 0 10)) 0 = .ok 0 :=
  c9_begin_eq_end_on_empty.2 (world0 0) 0 10 (exD (clearM (world0 0) 0 10)) 10 rfl

/-- C10: a default-constructed iterator (null node, null container) is safe at
the interface: dereference, member access, increment and decrement in both
forms all signal `invalid_iterator` instead of dereferencing null, and such an
iterator never compares equal to an iterator coming from a map — all of
`begin()`, `end()`, `find`, and `insert` produce iterators whose container
field is the owning map, while the default iterator's container is null. -/
theorem c10_default_iterator_safe :
    (∀ w, derefIt w ⟨none, none⟩ = .error .invalidIterator) ∧
    (∀ w f, incIt w ⟨none, none⟩ f = .error .invalidIterator) ∧
    (∀ w f, decIt w ⟨none, none⟩ f = .error .invalidIterator) ∧
    (∀ w f, postIncIt w ⟨none, none⟩ f = .error .invalidIterator) ∧
    (∀ w f, postDecIt w ⟨none, none⟩ f = .error .invalidIterator) ∧
    (∀ it : Iter, it.container ≠ none →
      eqIt ⟨none, none⟩ it = false ∧ eqIt it ⟨none, none⟩ = false) ∧
    (∀ w mid f it, beginM w mid f = .ok it → it.container = some mid) ∧
    (∀ mid, (endM mid).container = some mid) ∧
    (∀ w mid k f it, findM w mid k f = .ok it → it.container = some mid) ∧
    (∀ w mid k v f r, insertM w mid k v f = .ok r →
      r.2.1.container = some mid) := by
  refine ⟨fun w => rfl, fun w f => rfl, ?_, ?_, ?_, ?_, ?_, fun mid => rfl, ?_, ?_⟩
  · intro w f
    simp [decIt, bind, Except.bind]
  · intro w f
    simp [postIncIt, incIt, bind, Except.bind]
  · intro w f
    simp [postDecIt, decIt, bind, Except.bind]
  · intro it h
    cases hc : it.container with
    | none => exact absurd hc h
    | some c => simp [eqIt, hc]
  · intro w mid f it h
    simp only [beginM, bind] at h
    rw [except_bind_ok] at h
    obtain ⟨m, _, h⟩ := h
    rw [except_bind_ok] at h
    obtain ⟨oa, _, h⟩ := h
    simp only [pure, Except.pure, Except.ok.injEq] at h
    subst h
    rfl
  · intro w mid k f it h
    simp only [findM, bind] at h
    rw [except_bind_ok] at h
    obtain ⟨oa, _, h⟩ := h
    simp only [pure, Except.pure, Except.ok.injEq] at h
    subst h
    rfl
  · intro w mid k v f r h
    simp only [insertM, bind] at h
    rw [except_bind_ok] at h
    obtain ⟨m, _, h⟩ := h
    rw [except_bind_ok] at h
    obtain ⟨d, _, h⟩ := h
    cases d with
    | inl c =>
      simp only [pure, Except.pure, Except.ok.injEq] at h
      subst h
      rfl
    | inr par =>
      dsimp only at h
      cases par with
      | none =>
        rw [except_bind_ok] at h
        obtain ⟨w1, _, h⟩ := h
        rw [except_bind_ok] at h
        obtain ⟨w2, _, h⟩ := h
        rw [except_bind_ok] at h
        obtain ⟨m2, _, h⟩ := h
        simp only [pure, Except.pure, Except.ok.injEq] at h
        subst h
        rfl
      | some p =>
        rw [except_bind_ok] at h
        obtain ⟨n, _, h⟩ := h
        split at h <;>
        · rw [except_bind_ok] at h
          obtain ⟨w1, _, h⟩ := h
          rw [except_bind_ok] at h
          obtain ⟨w2, _, h⟩ := h
          rw [except_bind_ok] at h
          obtain ⟨m2, _, h⟩ := h
          simp only [pure, Except.pure, Except.ok.injEq] at h
          subst h
          rfl

/-- Witness for C10: the default iterator compares unequal to `end()` of map 0
and to `begin()` of a concrete one-element map, and those have container
field `some 0`. -/
theorem c10_default_iterator_safe_witness :
    (eqIt ⟨none, none⟩ (endM 0) = false ∧ eqIt (endM 0) ⟨none, none⟩ = false) ∧
    (⟨some 0, some 0⟩ : Iter).container = some 0 :=
  ⟨c10_default_iterator_safe.2.2.2.2.2.1 (endM 0) (by simp [endM]),
   c10_default_iterator_safe.2.2.2.2.2.2.2.2.1
     (exD (runInserts (world0 0) 0 [(5, 7)] 10)) 0 5 10 ⟨some 0, some 0⟩ rfl⟩

theorem kvT_stripA : ∀ (t : CTree), kvT (stripA t) = kvT t := by
  intro t
  induction t with
  | nil => rfl
  | node a k v l r ihl ihr =>
    show kvT (.node 0 k v (stripA l) (stripA r)) = _
    simp only [kvT, trip_node, List.map_append, List.map_cons] at ihl ihr ⊢
    rw [ihl, ihr]

theorem kvT_of_stripA {t1 t2 : CTree} (h : stripA t1 = stripA t2) : kvT t1 = kvT t2 := by
  rw [← kvT_stripA t1, ← kvT_stripA t2, h]

theorem keysT_eq_kvT_map (t : CTree) : keysT t = (kvT t).map (fun e => e.1) := by
  simp [keysT, kvT, List.map_map]

theorem tlen_eq_kvT_length (t : CTree) : tlen t = (kvT t).length := by
  simp [tlen, kvT]

/-- `copyTree` builds a fresh disjoint copy: same shape, keys and values, at
entirely new addresses, with the old heap untouched. -/
theorem copyTreeGo_spec : ∀ {t : CTree} {w : World} {p par : Option Addr} {fuel : Nat}
    {w' : World} {res : Option Addr},
    Rep w p t → (∀ x ∈ addrs t, x < w.next) →
    copyTreeGo w (rootA t) par fuel = .ok (w', res) →
    ∃ t', res = rootA t' ∧ Rep w' par t' ∧ stripA t' = stripA t ∧
      (addrs t').Nodup ∧
      (∀ a ∈ addrs t', w.next ≤ a ∧ a < w'.next) ∧
      w.next ≤ w'.next ∧
      (∀ d, d < w.next → w'.heap d = w.heap d) ∧
      w'.maps = w.maps := by
  intro t
  induction t with
  | nil =>
    intro w p par fuel w' res _ _ hrun
    cases fuel with
    | zero => simp [rootA_nil, copyTreeGo] at hrun
    | succ f =>
      simp only [rootA_nil, copyTreeGo] at hrun
      rw [Except.ok.injEq, Prod.mk.injEq] at hrun
      obtain ⟨hw, hres⟩ := hrun
      refine ⟨.nil, hres.symm, ?_, rfl, by simp [addrs_nil], by simp [addrs_nil],
        by rw [← hw], by intro d _; rw [← hw], by rw [← hw]⟩
      rw [← hw]
      trivial
  | node a k v l r ihl ihr =>
    intro w p par fuel w' res hrep hbel hrun
    obtain ⟨⟨c0, hc⟩, hl, hr⟩ := hrep
    have hal : a < w.next := hbel a (by simp [mem_addrs_node])
    have hbell : ∀ x ∈ addrs l, x < w.next := fun x hx => hbel x (by simp [mem_addrs_node, hx])
    have hbelr : ∀ x ∈ addrs r, x < w.next := fun x hx => hbel x (by simp [mem_addrs_node, hx])
    cases fuel with
    | zero => simp [rootA_node, copyTreeGo] at hrun
    | succ f =>
      simp only [rootA_node, copyTreeGo, bind, readN, hc, alloc, except_bind_assoc,
        ebind_pure, pure, Except.pure] at hrun
      simp only [hupd_other (Nat.ne_of_lt hal), hupd_self, hc, modifyN, readN, bind,
        except_bind_assoc, ebind_pure, pure, Except.pure] at hrun
      rw [except_bind_ok] at hrun
      obtain ⟨wl, hrunl, hrun⟩ := hrun
      obtain ⟨w3, resl⟩ := wl
      -- the copy of the left subtree ran in the world with the fresh cell b
      have hrepl : Rep { w with
          heap := hupd (hupd w.heap w.next (some ⟨k, v, none, none, par, true⟩)) w.next
            (some ⟨k, v, none, none, par, c0⟩),
          next := w.next + 1 } (some a) l := by
        refine rep_frame (fun d hd => ?_) hl
        have hdlt := hbell d hd
        show hupd (hupd w.heap w.next _) w.next _ d = _
        rw [hupd_other (Nat.ne_of_lt hdlt), hupd_other (Nat.ne_of_lt hdlt)]
      obtain ⟨tl, hresl, hrepl3, hstripl, hndl, hrangel0, hnextl0, hframel0, hmapsl0⟩ :=
        ihl hrepl (fun x hx => Nat.lt_succ_of_lt (hbell x hx)) hrunl
      have hrangel : ∀ x ∈ addrs tl, w.next + 1 ≤ x ∧ x < w3.next := hrangel0
      have hnextl : w.next + 1 ≤ w3.next := hnextl0
      have hframel : ∀ d, d < w.next + 1 →
          w3.heap d = hupd (hupd w.heap w.next (some ⟨k, v, none, none, par, true⟩)) w.next
            (some ⟨k, v, none, none, par, c0⟩) d := hframel0
      have hmapsl : w3.maps = w.maps := hmapsl0
      have hb3 : w3.heap w.next = some ⟨k, v, none, none, par, c0⟩ := by
        rw [hframel w.next (Nat.lt_succ_self _)]
        rw [hupd_self]
      have ha3 : w3.heap a = some ⟨k, v, rootA l, rootA r, p, c0⟩ := by
        rw [hframel a (Nat.lt_succ_of_lt hal)]
        rw [hupd_other (Nat.ne_of_lt hal), hupd_other (Nat.ne_of_lt hal)]
        exact hc
      simp only [hb3, ha3, except_bind_assoc, ebind_pure, pure, Except.pure] at hrun
      rw [except_bind_ok] at hrun
      obtain ⟨wr, hrunr, hrun⟩ := hrun
      obtain ⟨w5, resr⟩ := wr
      have hrepr : Rep { w3 with
          heap := hupd w3.heap w.next (some ⟨k, v, resl, none, par, c0⟩) } (some a) r := by
        refine rep_frame (fun d hd => ?_) hr
        have hdlt := hbelr d hd
        show hupd w3.heap w.next _ d = _
        rw [hupd_other (Nat.ne_of_lt hdlt)]
        rw [hframel d (Nat.lt_succ_of_lt hdlt)]
        rw [hupd_other (Nat.ne_of_lt hdlt), hupd_other (Nat.ne_of_lt hdlt)]
      obtain ⟨tr, hresr, hrepr3, hstripr, hndr2, hranger0, hnextr0, hframer0, hmapsr0⟩ :=
        ihr hrepr (fun x hx => lt_of_lt_of_le (Nat.lt_succ_of_lt (hbelr x hx)) hnextl) hrunr
      have hranger : ∀ x ∈ addrs tr, w3.next ≤ x ∧ x < w5.next := hranger0
      have hnextr : w3.next ≤ w5.next := hnextr0
      have hframer : ∀ d, d < w3.next →
          w5.heap d = hupd w3.heap w.next (some ⟨k, v, resl, none, par, c0⟩) d := hframer0
      have hmapsr : w5.maps = w3.maps := hmapsr0
      have hb5 : w5.heap w.next = some ⟨k, v, resl, none, par, c0⟩ := by
        rw [hframer w.next (lt_of_lt_of_le (Nat.lt_succ_self _) hnextl)]
        rw [hupd_self]
      simp only [hb5, except_bind_assoc, ebind_pure, pure, Except.pure] at hrun
      rw [Except.ok.injEq, Prod.mk.injEq] at hrun
      obtain ⟨hw', hres⟩ := hrun
      refine ⟨.node w.next k v tl tr, hres.symm, ?_, ?_, ?_, ?_, ?_, ?_, ?_⟩
      · rw [← hw']
        refine ⟨⟨c0, ?_⟩, ?_, ?_⟩
        · show hupd w5.heap w.next _ w.next = _
          rw [hupd_self, hresl, hresr]
        · refine rep_frame (fun d hd => ?_) hrepl3
          obtain ⟨hd1, hd2⟩ := hrangel d hd
          show hupd w5.heap w.next _ d = _
          rw [hupd_other (Nat.ne_of_gt hd1)]
          rw [hframer d hd2]
          rw [hupd_other (Nat.ne_of_gt hd1)]
        · refine rep_frame (fun d hd => ?_) hrepr3
          obtain ⟨hd1, hd2⟩ := hranger d hd
          show hupd w5.heap w.next _ d = _
          rw [hupd_other (Nat.ne_of_gt (Nat.lt_of_lt_of_le (Nat.lt_of_succ_le hnextl) hd1))]
      · show CTree.node 0 k v (stripA tl) (stripA tr) = CTree.node 0 k v (stripA l) (stripA r)
        rw [hstripl, hstripr]
      · rw [addrs_node, List.nodup_append, List.nodup_cons]
        refine ⟨hndl, ⟨?_, hndr2⟩, ?_⟩
        · intro hmem
          have h1 := (hranger w.next hmem).1
          exact absurd (Nat.le_trans hnextl h1) (Nat.not_succ_le_self w.next)
        · intro x hx hmem
          obtain ⟨hx1, hx2⟩ := hrangel x hx
          rcases List.mem_cons.1 hmem with h | h
          · rw [h] at hx1
            exact absurd hx1 (Nat.not_succ_le_self w.next)
          · have h1 := (hranger x h).1
            exact absurd hx2 (Nat.not_lt.2 h1)
      · intro a0 ha0
        rw [mem_addrs_node] at ha0
        rw [← hw']
        show w.next ≤ a0 ∧ a0 < w5.next
        rcases ha0 with h | h | h
        · obtain ⟨h1, h2⟩ := hrangel a0 h
          exact ⟨Nat.le_of_succ_le h1, Nat.lt_of_lt_of_le h2 hnextr⟩
        · rw [h]
          exact ⟨Nat.le_refl _, Nat.lt_of_succ_le (Nat.le_trans hnextl hnextr)⟩
        · obtain ⟨h1, h2⟩ := hranger a0 h
          exact ⟨Nat.le_trans (Nat.le_of_succ_le hnextl) h1, h2⟩
      · rw [← hw']
        show w.next ≤ w5.next
        exact Nat.le_trans (Nat.le_of_succ_le hnextl) hnextr
      · intro d hd
        rw [← hw']
        show hupd w5.heap w.next _ d = _
        rw [hupd_other (Nat.ne_of_lt hd)]
        rw [hframer d (Nat.lt_of_lt_of_le (Nat.lt_succ_of_lt hd) hnextl)]
        rw [hupd_other (Nat.ne_of_lt hd)]
        rw [hframel d (Nat.lt_succ_of_lt hd)]
        rw [hupd_other (Nat.ne_of_lt hd), hupd_other (Nat.ne_of_lt hd)]
      · rw [← hw']
        show w5.maps = w.maps
        rw [hmapsr, hmapsl]

/-- `clearTree` frees exactly the tree's own cells: the heap elsewhere, the
map directory and the allocation frontier are untouched. -/
theorem clearTree_frame : ∀ {t : CTree} {w : World} {p : Option Addr} {fuel : Nat} {w' : World},
    Rep w p t → (addrs t).Nodup →
    clearTreeGo w (rootA t) fuel = .ok w' →
    (∀ d, d ∉ addrs t → w'.heap d = w.heap d) ∧ w'.maps = w.maps ∧ w'.next = w.next := by
  intro t
  induction t with
  | nil =>
    intro w p fuel w' _ _ hrun
    have hw : w' = w := by
      cases fuel with
      | zero =>
        simp only [rootA_nil, clearTreeGo] at hrun
        exact (Except.ok.inj hrun).symm
      | succ f =>
        simp only [rootA_nil, clearTreeGo] at hrun
        exact (Except.ok.inj hrun).symm
    rw [hw]
    exact ⟨fun d _ => rfl, rfl, rfl⟩
  | node a k v l r ihl ihr =>
    intro w p fuel w' hrep hnd hrun
    obtain ⟨⟨c0, hc⟩, hl, hr⟩ := hrep
    obtain ⟨hndl, hndr, hanl, hanr, hdisj⟩ := nodup_node_facts hnd
    cases fuel with
    | zero => simp [rootA_node, clearTreeGo] at hrun
    | succ f =>
      simp only [rootA_node, clearTreeGo, bind, readN, hc, except_bind_assoc, ebind_pure,
        pure, Except.pure] at hrun
      rw [except_bind_ok] at hrun
      obtain ⟨w1, hrun1, hrun⟩ := hrun
      obtain ⟨hfr1, hmaps1, hnext1⟩ := ihl hl hndl hrun1
      have ha1 : w1.heap a = some ⟨k, v, rootA l, rootA r, p, c0⟩ := by
        rw [hfr1 a hanl]
        exact hc
      simp only [readN, ha1, except_bind_assoc, ebind_pure, pure, Except.pure] at hrun
      rw [except_bind_ok] at hrun
      obtain ⟨w2, hrun2, hrun⟩ := hrun
      have hrepr1 : Rep w1 (some a) r := by
        refine rep_frame (fun d hd => ?_) hr
        exact hfr1 d (fun hdl => hdisj d hdl hd)
      obtain ⟨hfr2, hmaps2, hnext2⟩ := ihr hrepr1 hndr hrun2
      have hw : w' = freeA w2 a := (Except.ok.inj hrun).symm
      rw [hw]
      refine ⟨?_, hmaps2.trans hmaps1, hnext2.trans hnext1⟩
      intro d hd
      rw [mem_addrs_node] at hd
      push_neg at hd
      obtain ⟨hd1, hd2, hd3⟩ := hd
      show hupd w2.heap a none d = _
      rw [hupd_other hd2]
      rw [hfr2 d hd3]
      exact hfr1 d hd1

/-- Inserting into one map leaves any other (address-disjoint) live map
entirely untouched. -/
theorem insert_other_map_frame {w : World} {mid1 mid2 : Nat} {t1 t2 : CTree}
    {k v fuel : Nat} {w' : World} {it : Iter} {fl : Bool}
    (h1 : Inv w mid1 t1) (h2 : Inv w mid2 t2) (hne : mid1 ≠ mid2)
    (hdisj : ∀ x ∈ addrs t1, x ∉ addrs t2)
    (hrun : insertM w mid2 k v fuel = .ok (w', it, fl)) :
    Inv w' mid1 t1 ∧ ∃ t2', Inv w' mid2 t2' := by
  rcases insertM_spec h2 hrun with ⟨_, _, hww⟩ |
    ⟨_, _, t2', hinv2', _, _, _, hnext, hheap, _, hmapso⟩
  · rw [hww]
    exact ⟨h1, t2, h2⟩
  · obtain ⟨⟨m1, hm1, hroot1, hrep1, hnd1, hbel1⟩, ⟨ms1, hms1, hsz1⟩, hsort1⟩ := h1
    refine ⟨⟨⟨m1, ?_, hroot1, ?_, hnd1, ?_⟩, ⟨ms1, ?_, hsz1⟩, hsort1⟩, t2', hinv2'⟩
    · rw [hmapso mid1 hne]
      exact hm1
    · refine rep_frame (fun d hd => ?_) hrep1
      exact hheap d (hdisj d hd) (Nat.ne_of_lt (hbel1 d hd))
    · intro x hx
      rw [hnext]
      exact Nat.lt_succ_of_lt (hbel1 x hx)
    · rw [hmapso mid1 hne]
      exact hms1
/-- Clearing one map leaves any other (address-disjoint) live map untouched
and empties exactly the cleared map. -/
theorem clear_other_map_frame {w : World} {mid1 mid2 : Nat} {t1 t2 : CTree}
    {fuel : Nat} {w' : World}
    (h1 : Inv w mid1 t1) (h2 : Inv w mid2 t2) (hne : mid1 ≠ mid2)
    (hdisj : ∀ x ∈ addrs t1, x ∉ addrs t2)
    (hrun : clearM w mid2 fuel = .ok w') :
    Inv w' mid1 t1 ∧ Inv w' mid2 .nil := by
  obtain ⟨⟨m2, hm2, hroot2, hrep2, hnd2, hbel2⟩, _, _⟩ := h2
  simp only [clearM, bind, getMap, hm2, hroot2, except_bind_assoc, ebind_pure, pure,
    Except.pure] at hrun
  rw [except_bind_ok] at hrun
  obtain ⟨wc, hcl, hrun⟩ := hrun
  obtain ⟨hfr, hmapsC, hnextC⟩ := clearTree_frame hrep2 hnd2 hcl
  have hw : w' = setMap wc mid2 ⟨none, 0⟩ := (Except.ok.inj hrun).symm
  obtain ⟨⟨m1, hm1, hroot1, hrep1, hnd1, hbel1⟩, ⟨ms1, hms1, hsz1⟩, hsort1⟩ := h1
  constructor
  · refine ⟨⟨m1, ?_, hroot1, ?_, hnd1, ?_⟩, ⟨ms1, ?_, hsz1⟩, hsort1⟩
    · rw [hw]
      show lookupM (updMaps wc.maps mid2 _) mid1 = _
      rw [lookupM_updMaps_other _ mid2 _ hne, hmapsC]
      exact hm1
    · refine rep_frame (fun d hd => ?_) hrep1
      rw [hw]
      show wc.heap d = _
      exact hfr d (hdisj d hd)
    · intro x hx
      rw [hw]
      show x < wc.next
      rw [hnextC]
      exact hbel1 x hx
    · rw [hw]
      show lookupM (updMaps wc.maps mid2 _) mid1 = _
      rw [lookupM_updMaps_other _ mid2 _ hne, hmapsC]
      exact hms1
  · refine ⟨⟨⟨none, 0⟩, ?_, rfl, trivial, by simp [addrs_nil], by simp [addrs_nil]⟩,
      ⟨⟨none, 0⟩, ?_, rfl⟩, by simp [keysT_nil]⟩
    · rw [hw]
      exact lookupM_updMaps_self _ mid2 _ m2 (by rw [hmapsC]; exact hm2)
    · rw [hw]
      exact lookupM_updMaps_self _ mid2 _ m2 (by rw [hmapsC]; exact hm2)

/-- The copy constructor builds an independent equal-shaped map. -/
theorem copyCtorM_spec {w : World} {src newMid : Nat} {t : CTree} {fuel : Nat} {w' : World}
    (hinv : Inv w src t) (hne : newMid ≠ src)
    (hrun : copyCtorM w src newMid fuel = .ok w') :
    ∃ t', Inv w' newMid t' ∧ stripA t' = stripA t ∧ Inv w' src t ∧
      (∀ x ∈ addrs t', x ∉ addrs t) ∧ (∀ x ∈ addrs t, x ∉ addrs t') := by
  obtain ⟨⟨m, hm, hroot, hrep, hnd, hbel⟩, ⟨ms, hms, hsz⟩, hsort⟩ := hinv
  have hmsm : ms = m := by rw [hm] at hms; exact (Option.some.inj hms).symm
  rw [hmsm] at hsz
  simp only [copyCtorM, bind, getMap, hm, hroot, except_bind_assoc, ebind_pure, pure,
    Except.pure] at hrun
  rw [except_bind_ok] at hrun
  obtain ⟨wr, hcp, hrun⟩ := hrun
  obtain ⟨wc, res⟩ := wr
  obtain ⟨t', hres, hrepC, hstrip, hndC, hrange, hnext, hframe, hmaps⟩ :=
    copyTreeGo_spec hrep hbel hcp
  have hw : w' = { wc with maps := (newMid, ⟨res, m.tsize⟩) :: wc.maps } :=
    (Except.ok.inj hrun).symm
  have htlen : tlen t' = tlen t := by
    rw [tlen_eq_kvT_length, tlen_eq_kvT_length, kvT_of_stripA hstrip]
  have hkeys : keysT t' = keysT t := by
    rw [keysT_eq_kvT_map, keysT_eq_kvT_map, kvT_of_stripA hstrip]
  have hdisj1 : ∀ x ∈ addrs t', x ∉ addrs t := by
    intro x hx hmem
    have h1 := (hrange x hx).1
    have h2 := hbel x hmem
    exact absurd (Nat.lt_of_le_of_lt h1 h2) (Nat.lt_irrefl _)
  refine ⟨t', ⟨⟨⟨res, m.tsize⟩, ?_, hres, ?_, hndC, ?_⟩, ⟨⟨res, m.tsize⟩, ?_, ?_⟩, ?_⟩,
    hstrip, ⟨⟨m, ?_, hroot, ?_, hnd, ?_⟩, ⟨m, ?_, hsz⟩, hsort⟩, hdisj1,
    fun x hx hmem => hdisj1 x hmem hx⟩
  · rw [hw]
    simp [lookupM]
  · exact rep_frame (fun d _ => by rw [hw]) hrepC
  · intro x hx
    rw [hw]
    exact (hrange x hx).2
  · rw [hw]
    simp [lookupM]
  · show m.tsize = tlen t'
    rw [htlen]
    exact hsz
  · rw [hkeys]
    exact hsort
  · rw [hw]
    show lookupM ((newMid, _) :: wc.maps) src = _
    simp only [lookupM, if_neg hne]
    rw [hmaps]
    exact hm
  · refine rep_frame (fun d hd => ?_) hrep
    rw [hw]
    show wc.heap d = _
    exact hframe d (hbel d hd)
  · intro x hx
    rw [hw]
    show x < wc.next
    exact Nat.lt_of_lt_of_le (hbel x hx) hnext
  · rw [hw]
    show lookupM ((newMid, _) :: wc.maps) src = _
    simp only [lookupM, if_neg hne]
    rw [hmaps]
    exact hm

/-- Copy assignment destroys the old tree, deep-copies the source, and leaves
the source untouched. -/
theorem assignM_spec {w : World} {dst src : Nat} {tD tS : CTree} {fuel : Nat} {w' : World}
    (hD : Inv w dst tD) (hS : Inv w src tS) (hne : dst ≠ src)
    (hdisj : ∀ x ∈ addrs tD, x ∉ addrs tS)
    (hrun : assignM w dst src fuel = .ok w') :
    ∃ t', Inv w' dst t' ∧ stripA t' = stripA tS ∧ Inv w' src tS := by
  obtain ⟨⟨mD, hmD, hrootD, hrepD, hndD, hbelD⟩, _, _⟩ := hD
  obtain ⟨⟨mS, hmS, hrootS, hrepS, hndS, hbelS⟩, ⟨msS, hmsS, hszS⟩, hsortS⟩ := hS
  have hmsm : msS = mS := by rw [hmS] at hmsS; exact (Option.some.inj hmsS).symm
  rw [hmsm] at hszS
  simp only [assignM, if_neg hne, bind, getMap, hmD, hrootD, except_bind_assoc, ebind_pure,
    pure, Except.pure] at hrun
  rw [except_bind_ok] at hrun
  obtain ⟨w1, hcl, hrun⟩ := hrun
  obtain ⟨hfr1, hmaps1, hnext1⟩ := clearTree_frame hrepD hndD hcl
  have hdisjS : ∀ x ∈ addrs tS, x ∉ addrs tD := fun x hx hmem => hdisj x hmem hx
  have hmS1 : lookupM w1.maps src = some mS := by rw [hmaps1]; exact hmS
  simp only [getMap, hmS1, hrootS, except_bind_assoc, ebind_pure, pure, Except.pure] at hrun
  rw [except_bind_ok] at hrun
  obtain ⟨wr, hcp, hrun⟩ := hrun
  obtain ⟨wc, res⟩ := wr
  have hrepS1 : Rep w1 none tS := by
    refine rep_frame (fun d hd => ?_) hrepS
    exact hfr1 d (hdisjS d hd)
  have hbelS1 : ∀ x ∈ addrs tS, x < w1.next := by
    intro x hx
    rw [hnext1]
    exact hbelS x hx
  obtain ⟨t', hres, hrepC, hstrip, hndC, hrange, hnextC, hframeC, hmapsC⟩ :=
    copyTreeGo_spec hrepS1 hbelS1 hcp
  have hw : w' = setMap wc dst ⟨res, mS.tsize⟩ := (Except.ok.inj hrun).symm
  have htlen : tlen t' = tlen tS := by
    rw [tlen_eq_kvT_length, tlen_eq_kvT_length, kvT_of_stripA hstrip]
  have hkeys : keysT t' = keysT tS := by
    rw [keysT_eq_kvT_map, keysT_eq_kvT_map, kvT_of_stripA hstrip]
  have hmDc : lookupM wc.maps dst = some mD := by
    rw [hmapsC, hmaps1]
    exact hmD
  refine ⟨t', ⟨⟨⟨res, mS.tsize⟩, ?_, hres, ?_, hndC, ?_⟩, ⟨⟨res, mS.tsize⟩, ?_, ?_⟩, ?_⟩,
    hstrip, ⟨⟨mS, ?_, hrootS, ?_, hndS, ?_⟩, ⟨mS, ?_, hszS⟩, hsortS⟩⟩
  · rw [hw]
    exact lookupM_updMaps_self _ dst _ mD hmDc
  · exact rep_frame (fun d _ => by rw [hw]; rfl) hrepC
  · intro x hx
    rw [hw]
    show x < wc.next
    exact (hrange x hx).2
  · rw [hw]
    exact lookupM_updMaps_self _ dst _ mD hmDc
  · show mS.tsize = tlen t'
    rw [htlen]
    exact hszS
  · rw [hkeys]
    exact hsortS
  · rw [hw]
    show lookupM (updMaps wc.maps dst _) src = _
    rw [lookupM_updMaps_other _ dst _ (Ne.symm hne), hmapsC, hmaps1]
    exact hmS
  · refine rep_frame (fun d hd => ?_) hrepS
    rw [hw]
    show wc.heap d = _
    rw [hframeC d (hbelS1 d hd)]
    exact hfr1 d (hdisjS d hd)
  · intro x hx
    rw [hw]
    show x < wc.next
    exact Nat.lt_of_lt_of_le (hbelS1 x hx) hnextC
  · rw [hw]
    show lookupM (updMaps wc.maps dst _) src = _
    rw [lookupM_updMaps_other _ dst _ (Ne.symm hne), hmapsC, hmaps1]
    exact hmS

/-- C8: copy-construction (and copy-assignment) deep-clone the node graph
into fresh, address-disjoint cells with identical keys, values and structure;
mutating either of two disjoint live maps (insertion, clearing) leaves the
other one entirely unchanged — in particular the copy and its original are
independent in both directions — and self-assignment returns the map
unchanged. -/
theorem c8_clone_independence :
    (∀ (w : World) (src newMid : Nat) (t : CTree) (fuel : Nat) (w' : World),
      Inv w src t → newMid ≠ src → copyCtorM w src newMid fuel = .ok w' →
      ∃ t', Inv w' newMid t' ∧ stripA t' = stripA t ∧ kvT t' = kvT t ∧ Inv w' src t ∧
        (∀ x ∈ addrs t', x ∉ addrs t)) ∧
    (∀ (w : World) (dst src : Nat) (tD tS : CTree) (fuel : Nat) (w' : World),
      Inv w dst tD → Inv w src tS → dst ≠ src → (∀ x ∈ addrs tD, x ∉ addrs tS) →
      assignM w dst src fuel = .ok w' →
      ∃ t', Inv w' dst t' ∧ stripA t' = stripA tS ∧ Inv w' src tS) ∧
    (∀ (w : World) (mid1 mid2 : Nat) (t1 t2 : CTree) (k v fuel : Nat) (w' : World)
      (it : Iter) (fl : Bool),
      Inv w mid1 t1 → Inv w mid2 t2 → mid1 ≠ mid2 → (∀ x ∈ addrs t1, x ∉ addrs t2) →
      insertM w mid2 k v fuel = .ok (w', it, fl) →
      Inv w' mid1 t1 ∧ ∃ t2', Inv w' mid2 t2') ∧
    (∀ (w : World) (mid1 mid2 : Nat) (t1 t2 : CTree) (fuel : Nat) (w' : World),
      Inv w mid1 t1 → Inv w mid2 t2 → mid1 ≠ mid2 → (∀ x ∈ addrs t1, x ∉ addrs t2) →
      clearM w mid2 fuel = .ok w' → Inv w' mid1 t1 ∧ Inv w' mid2 .nil) ∧
    (∀ (w : World) (mid fuel : Nat), assignM w mid mid fuel = .ok w) := by
  refine ⟨?_, ?_, ?_, ?_, ?_⟩
  · intro w src newMid t fuel w' hinv hne hrun
    obtain ⟨t', h1, h2, h3, h4, _⟩ := copyCtorM_spec hinv hne hrun
    exact ⟨t', h1, h2, kvT_of_stripA h2, h3, h4⟩
  · intro w dst src tD tS fuel w' hD hS hne hdisj hrun
    exact assignM_spec hD hS hne hdisj hrun
  · intro w mid1 mid2 t1 t2 k v fuel w' it fl h1 h2 hne hdisj hrun
    exact insert_other_map_frame h1 h2 hne hdisj hrun
  · intro w mid1 mid2 t1 t2 fuel w' h1 h2 hne hdisj hrun
    exact clear_other_map_frame h1 h2 hne hdisj hrun
  · intro w mid fuel
    simp [assignM, pure, Except.pure]

/-- Witness for C8: copying the concrete three-entry map into a fresh map
object yields an independent equal-shaped clone. -/
theorem c8_clone_independence_witness :
    copyCtorM w3 0 1 10 = .ok (exD (copyCtorM w3 0 1 10)) ∧
    ∃ t', Inv (exD (copyCtorM w3 0 1 10)) 1 t' ∧ stripA t' = stripA t3 ∧
      kvT t' = kvT t3 ∧ Inv (exD (copyCtorM w3 0 1 10)) 0 t3 ∧
      (∀ x ∈ addrs t', x ∉ addrs t3) :=
  ⟨rfl, c8_clone_independence.1 w3 0 1 t3 10 (exD (copyCtorM w3 0 1 10)) inv_w3
    (by decide) rfl⟩

end SjtuMap
